import Mathlib

/-!
Verification development for the `pyer-libs` command-dispatch framework.

The definitions below are a shallow embedding of the Python sources:

* `src/libs/command/command.py` — the `Command` class: docstring-to-help
  reflow in `__init__` (together with the parts of the standard-library
  `textwrap.wrap` that it calls), the recursive dispatch `_runCommand`,
  and the logging setup / interrupt handling in `run`;
* `src/libs/command/__init__.py` — the plugin-loading `run` helper.

Text is modelled as `List Char`; a multi-line document is a `List Char`
containing `'\n'` separators, exactly as Python strings.  Only the ASCII
fragment of Python's whitespace handling is modelled (the repository's
docstrings are ASCII); `textwrap` itself hardcodes the ASCII whitespace
set.
-/

namespace PyerLibs

/-- ASCII whitespace, textwrap's `_whitespace = '\t\n\x0b\x0c\r '`. -/
def isPyWs (c : Char) : Bool :=
  c = ' ' || c = '\t' || c = '\n' || c = '\x0b' || c = '\x0c' || c = '\r'

/-- Python `str.strip()` on the ASCII fragment. -/
def strip (l : List Char) : List Char :=
  ((l.dropWhile isPyWs).reverse.dropWhile isPyWs).reverse

/-- Python `str.split("\n")`: `""` splits to `[""]`, a trailing separator
yields a trailing empty line. -/
def splitOnNl : List Char → List (List Char)
  | [] => [[]]
  | c :: t =>
    if c = '\n' then [] :: splitOnNl t
    else
      match splitOnNl t with
      | h :: r => (c :: h) :: r
      | [] => [[c]]

/-- Convenience: the character list of a string literal. -/
def txt (s : String) : List Char := s.data

/-- Python `sep.join(pieces)`. -/
def joinWith (sep : List Char) : List (List Char) → List Char
  | [] => []
  | [x] => x
  | x :: y :: t => x ++ sep ++ joinWith sep (y :: t)

/-- Python `str.split(":")` (single-character separator, all
occurrences). -/
def splitOnColon : List Char → List (List Char)
  | [] => [[]]
  | c :: t =>
    if c = ':' then [] :: splitOnColon t
    else
      match splitOnColon t with
      | h :: r => (c :: h) :: r
      | [] => [[c]]

/-! ### Line collection (`Command.__init__`, the first loop)

Each raw line is stripped; blank lines are skipped only while no content
has been collected yet ("blank lines at the beginning of the docstring"),
afterwards blank lines are kept (as `""`). -/

/-- The stripped lines of the docstring with leading blank lines dropped. -/
def collectLines (rawLines : List (List Char)) : List (List Char) :=
  (rawLines.map strip).dropWhile (· = [])

/-! ### Paragraph grouping (`Command.__init__`, the second loop)

The Python loop keeps `paragraphStart` (here: the current paragraph's
accumulated lines, `Option`; the source initialises it to `0`, i.e. a
paragraph in progress with no lines collected yet) and `blankLineCount`
(here: `pending`).  A blank line closes the paragraph in progress and
restarts the blank-line count at 1; further blank lines increment it; a
non-blank line first emits `pending` empty paragraphs, then starts a new
paragraph.  After the loop, an open paragraph is appended; pending blank
lines at the very end are discarded. -/

/-- One step of the paragraph scan.  Returns the paragraphs emitted by
this line and the updated `(paragraph in progress, blank count)` state. -/
def scanStep (s : Option (List (List Char)) × Nat) (l : List Char) :
    List (List (List Char)) × (Option (List (List Char)) × Nat) :=
  match s, l with
  | (some p, _), [] => ([p], (none, 1))
  | (none, k), [] => ([], (none, k + 1))
  | (none, k), l => (List.replicate k [], (some [l], 0))
  | (some p, k), l => ([], (some (p ++ [l]), k))

/-- Paragraphs emitted while scanning `ls` from state `s`. -/
def scanOut (ls : List (List Char)) (s : Option (List (List Char)) × Nat) :
    List (List (List Char)) :=
  match ls with
  | [] => []
  | l :: ls => (scanStep s l).1 ++ scanOut ls (scanStep s l).2

/-- The scan state after processing `ls` from state `s`. -/
def scanSt (ls : List (List Char)) (s : Option (List (List Char)) × Nat) :
    Option (List (List Char)) × Nat :=
  match ls with
  | [] => s
  | l :: ls => scanSt ls (scanStep s l).2

/-- End of the loop: a paragraph still in progress is appended; pending
trailing blank lines are dropped. -/
def finalize : Option (List (List Char)) × Nat → List (List (List Char))
  | (some p, _) => [p]
  | (none, _) => []

/-- The full paragraph list of the (collected) lines, as built by
`Command.__init__`. -/
def paraScan (ls : List (List Char)) (s : Option (List (List Char)) × Nat) :
    List (List (List Char)) :=
  scanOut ls s ++ finalize (scanSt ls s)

/-! ### `textwrap.wrap(string, 80)` (CPython `textwrap.py`, default options)

`Command._justifyLines` joins the paragraph's lines with single spaces and
calls `textwrap.wrap(string, 80)` (the `columns` parameter is unused by the
source).  Defaults: `expand_tabs`, `replace_whitespace`, `drop_whitespace`,
`break_long_words`, `break_on_hyphens` all true; no indents; no
`max_lines`. -/

/-- `str.expandtabs(8)`: a tab becomes `8 - col % 8` spaces; the column
counter resets on line boundaries. -/
def expandTabsGo : List Char → Nat → List Char
  | [], _ => []
  | c :: t, col =>
    if c = '\t' then
      List.replicate (8 - col % 8) ' ' ++ expandTabsGo t (col + (8 - col % 8))
    else if c = '\n' ∨ c = '\r' then c :: expandTabsGo t 0
    else c :: expandTabsGo t (col + 1)

/-- `TextWrapper._munge_whitespace`: expand tabs, then map every ASCII
whitespace character to a space. -/
def munge (t : List Char) : List Char :=
  (expandTabsGo t 0).map (fun c => if isPyWs c then ' ' else c)

/-- `\w` on the ASCII fragment. -/
def isWordChar (c : Char) : Bool := c.isAlphanum || c = '_'

/-- `[^\d\W]` (a word character that is not a digit) on the ASCII
fragment. -/
def isLetterChar (c : Char) : Bool := c.isAlpha || c = '_'

/-- `word_punct = [\w!"'&.,?]` on the ASCII fragment. -/
def isWordPunct (c : Char) : Bool :=
  isWordChar c || c = '!' || c = '"' || c = '\'' || c = '&' || c = '.' ||
    c = ',' || c = '?'

/-- Does `t` start with `-{2,}\w` (two or more hyphens followed by a word
character)?  This is the lookahead of the em-dash rules of `wordsep_re`;
greedy backtracking inside `-{2,}` makes it equivalent to "the maximal
hyphen run has length at least two and is followed by a word char". -/
def emDashAhead (t : List Char) : Bool :=
  2 ≤ (t.takeWhile (· = '-')).length &&
    (match (t.dropWhile (· = '-')) with
     | c :: _ => isWordChar c
     | [] => false)

/-- The hyphenated-word rule of `wordsep_re` at a candidate split point:
the lazily matched word prefix is `t.take k`, the hyphen is `t[k]`.
Lookbehind: the three (or four) characters ending at the hyphen are
`letter letter -` or `letter - letter -`; lookahead: `letter -? letter`
follows the hyphen. -/
def hyphenSplitAt (t : List Char) (k : Nat) : Bool :=
  t.get? k = some '-' &&
  ((2 ≤ k && (t.get? (k - 2)).any isLetterChar &&
      (t.get? (k - 1)).any isLetterChar) ||
   (3 ≤ k && (t.get? (k - 3)).any isLetterChar && t.get? (k - 2) = some '-' &&
      (t.get? (k - 1)).any isLetterChar)) &&
  (t.get? (k + 1)).any isLetterChar &&
  ((t.get? (k + 2)).any isLetterChar ||
   (t.get? (k + 2) = some '-' && (t.get? (k + 3)).any isLetterChar))

/-- Length of the word token starting a non-whitespace position of `t`:
the lazy `\S+?` grows `k` one character at a time and stops at the first
position where one of the alternatives of `wordsep_re` completes, tried
in the regex's order: hyphenated word (which also consumes the hyphen),
end of word (next is whitespace or end of text), or an em-dash boundary
after a word-punctuation character. -/
def wordEndGo (t : List Char) : Nat → Nat → Nat
  | k, 0 => k
  | k, fuel + 1 =>
    if t.length ≤ k then k
    else if hyphenSplitAt t k then k + 1
    else if (t.get? k).any isPyWs then k
    else if (t.get? (k - 1)).any isWordPunct && emDashAhead (t.drop k) then k
    else wordEndGo t (k + 1) fuel

/-- Entry point of the lazy word scan; the fuel `t.length + 1 - k` never
runs out before the in-bounds check returns. -/
def wordEnd (t : List Char) (k : Nat) : Nat :=
  wordEndGo t k (t.length + 1 - k)

/-- `TextWrapper._split` with `break_on_hyphens = True`: cut the munged
text into chunks.  `prevWp` records whether the character immediately
before the current position satisfies `word_punct` (the lookbehind of the
em-dash alternative). -/
def splitChunksGo (fuel : Nat) (prevWp : Bool) (t : List Char) :
    List (List Char) :=
  match fuel, t with
  | 0, _ => []
  | _, [] => []
  | fuel + 1, c :: _ =>
    if isPyWs c then
      let run := t.takeWhile isPyWs
      run :: splitChunksGo fuel false (t.drop run.length)
    else if prevWp && emDashAhead t then
      let run := t.takeWhile (· = '-')
      run :: splitChunksGo fuel false (t.drop run.length)
    else
      let k := wordEnd t 1
      (t.take k) ::
        splitChunksGo fuel ((t.get? (k - 1)).any isWordPunct) (t.drop k)

/-- The chunk list of a munged text. -/
def splitChunks (t : List Char) : List (List Char) :=
  splitChunksGo t.length false t

/-- A chunk is "whitespace" when `chunk.strip() == ''`. -/
def isWsChunk (c : List Char) : Bool := c.all isPyWs

/-- The termination measure used for the chunk loop: total character
count plus chunk count. -/
def chunkMsr (cs : List (List Char)) : Nat :=
  (cs.map (fun c => c.length + 1)).sum

/-- The leading-whitespace drop at the top of each `_wrap_chunks`
iteration (only once at least one line has been emitted). -/
def dropLeadingWs (linesNonempty : Bool) (cs : List (List Char)) :
    List (List Char) :=
  match cs with
  | c :: rest => if linesNonempty && isWsChunk c then rest else cs
  | [] => []

/-- The inner `while` of `_wrap_chunks`: move chunks to the current line
while the accumulated length stays within 80 columns. -/
def takeWhileFit (cs : List (List Char)) (curLen : Nat) :
    List (List Char) × List (List Char) :=
  match cs with
  | [] => ([], [])
  | c :: rest =>
    if curLen + c.length ≤ 80 then
      (c :: (takeWhileFit rest (curLen + c.length)).1,
        (takeWhileFit rest (curLen + c.length)).2)
    else ([], c :: rest)

/-- Python `chunk.rfind('-', 0, e)`: the largest index `< e` holding a
hyphen, if any. -/
def rfindHyphen (c : List Char) (e : Nat) : Option Nat :=
  match ((c.take e).reverse.findIdx? (· = '-')) with
  | some j => some ((c.take e).length - 1 - j)
  | none => none

/-- `TextWrapper._handle_long_word` (with `break_long_words` and
`break_on_hyphens` true): chop the head chunk at the space left on the
line, preferring a position right after the last hyphen that has a
non-hyphen character before it.  Returns the piece appended to the
current line and the remainder, which stays at the head of the chunk
list. -/
def handleLongWord (c : List Char) (spaceLeft : Nat) : List Char × List Char :=
  let e :=
    if spaceLeft < c.length then
      match rfindHyphen c spaceLeft with
      | some h => if 0 < h && (c.take h).any (· ≠ '-') then h + 1 else spaceLeft
      | none => spaceLeft
    else spaceLeft
  (c.take e, c.drop e)

/-- One iteration of the `while chunks` loop of `_wrap_chunks`: build one
candidate line.  Returns the line (if one was emitted) and the remaining
chunks. -/
def buildLine (linesNonempty : Bool) (cs : List (List Char)) :
    Option (List Char) × List (List Char) :=
  let cs1 := dropLeadingWs linesNonempty cs
  let cur := (takeWhileFit cs1 0).1
  let rest := (takeWhileFit cs1 0).2
  let curLen := (cur.map List.length).sum
  let step :=
    match rest with
    | c :: rest2 =>
      if 80 < c.length then
        let piece := (handleLongWord c (80 - curLen)).1
        let rem := (handleLongWord c (80 - curLen)).2
        (cur ++ [piece], rem :: rest2)
      else (cur, rest)
    | [] => (cur, rest)
  let cur2 := step.1
  let cur3 :=
    match cur2.getLast? with
    | some c => if isWsChunk c then cur2.dropLast else cur2
    | none => cur2
  (if cur3.isEmpty then none else some cur3.flatten, step.2)

/-- The `while chunks` loop of `_wrap_chunks`, fuelled by the measure
(`wrapText` always supplies sufficient fuel). -/
def wrapGo (fuel : Nat) (cs : List (List Char)) (linesNonempty : Bool) :
    List (List Char) :=
  match fuel, cs with
  | 0, _ => []
  | _, [] => []
  | fuel + 1, cs =>
    match buildLine linesNonempty cs with
    | (some l, rest) => l :: wrapGo fuel rest true
    | (none, rest) => wrapGo fuel rest linesNonempty

/-- `textwrap.wrap(t, 80)` with default options. -/
def wrapText (t : List Char) : List (List Char) :=
  wrapGo (chunkMsr (splitChunks (munge t)) + 1) (splitChunks (munge t)) false

/-! ### The help-text derivation of `Command.__init__` -/

/-- `Command._justifyLines`: join the paragraph's lines with single
spaces and wrap the result (the `columns` parameter of the source is
ignored; `textwrap.wrap(string, 80)` is hardcoded). -/
def justifyLines (lines : List (List Char)) : List (List Char) :=
  wrapText (joinWith [' '] lines)

/-- The stripped, leading-blank-free line list of a docstring. -/
def strippedLines (doc : List Char) : List (List Char) :=
  collectLines (splitOnNl doc)

/-- Render one paragraph: a blank paragraph becomes the single-space
string, a non-blank one its justified lines joined by newlines. -/
def renderPara (p : List (List Char)) : List Char :=
  if p.isEmpty then [' '] else joinWith ['\n'] (justifyLines p)

/-- `descriptionParagraphs` of `Command.__init__` for a docstring.  The
source initialises `paragraphStart = 0` before the loop, so the scan
begins with a paragraph already in progress holding no lines yet
(`some []`): with no collected lines at all the post-loop append yields
`paragraphs == [[]]` (one empty paragraph, rendered as a space). -/
def descriptionParagraphsOf (doc : List Char) : List (List Char) :=
  (paraScan (strippedLines doc) (some [], 0)).map renderPara

/-- The auto-generated long description: the rendered paragraphs joined
by newlines. -/
def reflowDescription (doc : List Char) : List Char :=
  joinWith ['\n'] (descriptionParagraphsOf doc)

/-- Errors `Command.__init__` can raise while deriving help text:
`AttributeError` when `self.__doc__` is `None`, `IndexError` when
`descriptionParagraphs[0]` is taken from an empty list. -/
inductive InitErr where
  | attributeError
  | indexError
deriving DecidableEq, Repr

/-- The help/description derivation of `Command.__init__`: when either
is missing, the docstring (`none` models an absent `__doc__`) is
reflowed; missing help becomes the first rendered paragraph, missing
description the newline-join of all of them. -/
def deriveHelp (doc : Option (List Char)) (help descr : Option (List Char)) :
    Except InitErr (List Char × List Char) :=
  match help, descr with
  | some h, some d => .ok (h, d)
  | _, _ =>
    match doc with
    | none => .error .attributeError
    | some dtext =>
      let dps := descriptionParagraphsOf dtext
      match help with
      | none =>
        match dps with
        | [] => .error .indexError
        | p :: _ =>
          .ok (p, match descr with
                  | some d => d
                  | none => joinWith ['\n'] dps)
      | some h =>
        .ok (h, match descr with
                | some d => d
                | none => joinWith ['\n'] dps)

/-! ### The dispatch walk (`Command._runCommand`)

A command node carries its name, its own handler (`runCommand`, which in
Python returns `None` or an `int`, and may raise `KeyboardInterrupt` at
any point — modelled as `Except Unit (Option Int)`), and its
sub-commands.  The parsed arguments are modelled as the map from
attribute names to the selected sub-command strings: `args` maps each
`"_<name>SubCommandName"` attribute to `none` (Python `None`) or the
selected name.  Sub-commands are a mutual inductive list so that the
dispatch recursion is structural. -/

/-- Parsed arguments: attribute name to sub-command selection. -/
def Args : Type := String → Option String

mutual
/-- A command node (`Command`). -/
inductive Cmd where
  | mk (name : String) (handler : Args → Except Unit (Option Int))
      (subCommands : CmdList)

/-- The sub-command list of a node. -/
inductive CmdList where
  | nil
  | cons (c : Cmd) (cs : CmdList)
end

/-- The node's name. -/
def Cmd.name : Cmd → String
  | .mk n _ _ => n

/-- `len(self._subCommands)`. -/
def CmdList.length : CmdList → Nat
  | .nil => 0
  | .cons _ cs => cs.length + 1

/-- Membership in a sub-command list. -/
def CmdList.Mem (c : Cmd) : CmdList → Prop
  | .nil => False
  | .cons c' cs => c = c' ∨ cs.Mem c

/-- `logger.error("Please select one of the available sub-commands")`. -/
def selectMsg : String := "Please select one of the available sub-commands"

/-- `logger.error(f"Couldn't find sub-command")`. -/
def notFoundMsg : String := "Couldn't find sub-command"

mutual
/-- `Command._runCommand`: give the node's own handler a chance; a
non-`None` result is final.  Without sub-commands, return 0.  With
sub-commands but no selection (attribute `None` or empty), report the
error and return -1.  Otherwise scan the sub-commands for the selected
name and recurse; a missing match (defensive) reports an error and
returns -1.  The result collects the `logger.error` messages emitted. -/
def runCmdE (c : Cmd) (a : Args) : Except Unit (Int × List String) :=
  match c with
  | .mk n h subs =>
    match h a with
    | .error e => .error e
    | .ok (some r) => .ok (r, [])
    | .ok none =>
      if subs.length < 1 then .ok (0, [])
      else
        match a ("_" ++ n ++ "SubCommandName") with
        | none => .ok (-1, [selectMsg])
        | some s =>
          if s = "" then .ok (-1, [selectMsg])
          else findRun subs s a

/-- The `for subCommand in self._subCommands` search loop. -/
def findRun (subs : CmdList) (s : String) (a : Args) :
    Except Unit (Int × List String) :=
  match subs with
  | .nil => .ok (-1, [notFoundMsg])
  | .cons c rest => if c.name = s then runCmdE c a else findRun rest s a
end

/-! ### `Command.run`: logging setup, dispatch, interrupt, teardown

`run` is modelled from the point where `argparse` has produced the
verbosity count `v` and the `--logger` list.  The `list(set(...))`
defaulting of `args.logger` (whose order Python leaves unspecified) is
represented by the parameter `dflt`, standing for the de-duplicated
union of the framework's module and the tree's log modules.  Logger
state maps a logger key (`none` is the root logger) to its level and its
handler list; handlers created by `run` are numbered in creation
order. -/

/-- Python logging levels. -/
def DEBUG : Nat := 10
def INFO : Nat := 20
def WARNING : Nat := 30
def ERROR : Nat := 40
def CRITICAL : Nat := 50

/-- The process-wide logging state: per-logger level (0 = `NOTSET`) and
handler list. -/
structure LogState where
  level : Option String → Nat
  handlers : Option String → List Nat

/-- The level chosen by `run`'s verbosity ladder. -/
def levelFor (v : Nat) : Nat :=
  if 4 ≤ v then DEBUG
  else if 3 ≤ v then INFO
  else if 2 ≤ v then WARNING
  else if 1 ≤ v then ERROR
  else CRITICAL

/-- The loggers `run` configures: the root logger alone when
`args.verbose >= 5`, otherwise the named loggers. -/
def selectedKeys (v : Nat) (names : List String) : List (Option String) :=
  if 5 ≤ v then [none] else names.map some

/-- `logger.setLevel(...)`. -/
def setLevel (st : LogState) (k : Option String) (lv : Nat) : LogState :=
  { st with level := fun k' => if k' = k then lv else st.level k' }

/-- `logger.addHandler(logging.StreamHandler())`: handlers are appended. -/
def addHandler (st : LogState) (k : Option String) (id : Nat) : LogState :=
  { st with
    handlers := fun k' =>
      if k' = k then st.handlers k' ++ [id] else st.handlers k' }

/-- The setup loop of `run`: set each selected logger's level and attach
a fresh stream handler. -/
def setupLoggers (v : Nat) (keys : List (Option String)) (st : LogState) :
    LogState :=
  (keys.enum).foldl (fun acc ki => addHandler (setLevel acc ki.2 (levelFor v)) ki.2 ki.1) st

/-- The teardown loop of `run`:
`logger.removeHandler(logger.handlers[0])` removes the *first* handler of
each selected logger (the list is non-empty on this path because setup
just appended one). -/
def teardownLoggers (keys : List (Option String)) (st : LogState) : LogState :=
  keys.foldl
    (fun acc k =>
      { acc with
        handlers := fun k' => if k' = k then (acc.handlers k').tail else acc.handlers k' })
    st

/-- `Command.run` after argument parsing: default the `--logger` list,
select the loggers, set levels and add handlers, dispatch, catch
`KeyboardInterrupt` (print `"^C"`, return 1, *without* reaching the
teardown loop), and on normal return remove `logger.handlers[0]` from
each selected logger.  The result is
`(exit status, logging state, terminal output)`. -/
def runModel (c : Cmd) (a : Args) (v : Nat) (loggersArg dflt : List String)
    (st : LogState) : Int × LogState × List String :=
  let names := if loggersArg.isEmpty then dflt else loggersArg
  let keys := selectedKeys v names
  let st1 := setupLoggers v keys st
  match runCmdE c a with
  | .error _ => (1, st1, ["^C"])
  | .ok (r, _) => (r, teardownLoggers keys st1, [])

/-- The dotted names Python's logging hierarchy walks for a logger name:
the name itself, then each proper dotted parent, longest first. -/
def chainNames (name : String) : List String :=
  let parts := name.splitOn "."
  ((List.range parts.length).reverse).map
    (fun k => String.intercalate "." (parts.take (k + 1)))

/-- `Logger.getEffectiveLevel`: the first explicitly set level walking up
the hierarchy, the root logger's level last (`NOTSET` if nothing is
set). -/
def effectiveLevel (st : LogState) (name : String) : Nat :=
  match (chainNames name).find? (fun n => st.level (some n) ≠ 0) with
  | some n => st.level (some n)
  | none => st.level none

/-! ### Plugin loading (`libs/command/__init__.py`, `run`)

An entry point has a name, a group and a value; the environment maps a
module name to its attribute table (`none`: the module does not exist
and `importlib.import_module` raises `ModuleNotFoundError`, which the
source does *not* catch).  An attribute is absent (`hasattr` false),
`None`, or a command class, modelled by the `Cmd` its instantiation
produces.  `io.error` messages are recorded as tagged values carrying
the same data as the f-strings of the source. -/

/-- A registered entry point. -/
structure EntryPoint where
  epName : String
  group : String
  value : String
deriving DecidableEq, Repr

/-- Exceptions the loading loop can raise (uncaught). -/
inductive PyExn where
  | moduleNotFound (module : List Char)
deriving DecidableEq, Repr

/-- The `io.error` messages of the loading loop. -/
inductive PluginMsg where
  | invalidFormat (ep : EntryPoint)
  | classNotFound (ep : EntryPoint) (cls : List Char)
  | classNotImported (ep : EntryPoint) (cls : List Char)
deriving DecidableEq, Repr

/-- The import environment: module name → attribute table, attribute
name → absent / `None` / command class. -/
def PyEnv : Type := List Char → Option (List Char → Option (Option Cmd))

/-- The entry-point loop of `run`: split each value on `":"`, abort with
-1 and an error message on a malformed value, a missing attribute or a
`None` attribute; a missing module raises.  On success the instantiated
sub-commands are returned (the caller then builds and runs the root
command). -/
def loadPlugins (eps : List EntryPoint) (ns : String) (env : PyEnv) :
    Except PyExn (Sum (Int × List PluginMsg) (List Cmd)) :=
  go (eps.filter (fun ep => ep.group = ns)) []
where
  /-- The `for entryPoint in entryPoints` body. -/
  go : List EntryPoint → List Cmd → Except PyExn (Sum (Int × List PluginMsg) (List Cmd))
  | [], acc => .ok (.inr acc)
  | ep :: rest, acc =>
    match splitOnColon ep.value.data with
    | [m, cls] =>
      match env m with
      | none => .error (.moduleNotFound m)
      | some attrs =>
        match attrs cls with
        | none => .ok (.inl (-1, [.classNotFound ep cls]))
        | some none => .ok (.inl (-1, [.classNotImported ep cls]))
        | some (some cmd) => go rest (acc ++ [cmd])
    | _ => .ok (.inl (-1, [.invalidFormat ep]))

/-! ## Dispatch theorems -/

/-- Claim C1: if a node's own handler (`runCommand`) returns a non-null
integer during dispatch, that integer is the final dispatch result and
the node's children are never consulted — the result is the same for any
sub-command list and any parsed selection. -/
theorem handler_result_short_circuits (n : String)
    (h : Args → Except Unit (Option Int)) (subs : CmdList) (a : Args)
    (r : Int) (hh : h a = .ok (some r)) :
    runCmdE (Cmd.mk n h subs) a = .ok (r, []) ∧
      ∀ subs', runCmdE (Cmd.mk n h subs') a = .ok (r, []) := by
  constructor
  · rw [runCmdE, hh]
  · intro subs'
    rw [runCmdE, hh]

/-- Witness for C1 at a concrete node and argument map. -/
theorem handler_result_short_circuits_witness :
    runCmdE (Cmd.mk "root" (fun _ => .ok (some 7)) CmdList.nil)
        (fun _ => none) = .ok (7, []) :=
  (handler_result_short_circuits "root" (fun _ => .ok (some 7)) CmdList.nil
    (fun _ => none) 7 rfl).1

/-- Claim C2: a node whose handler returns null and that has at least one
child, given parsed arguments with no selected sub-command (`None` or the
empty string), logs the selection error and returns the negative status
-1. -/
theorem missing_subcommand_selection_errors (n : String)
    (h : Args → Except Unit (Option Int)) (subs : CmdList) (a : Args)
    (hh : h a = .ok none) (hs : 1 ≤ subs.length)
    (hsel : a ("_" ++ n ++ "SubCommandName") = none ∨
      a ("_" ++ n ++ "SubCommandName") = some "") :
    runCmdE (Cmd.mk n h subs) a = .ok (-1, [selectMsg]) ∧ (-1 : Int) < 0 := by
  refine ⟨?_, by norm_num⟩
  rw [runCmdE, hh]
  have hlen : ¬ subs.length < 1 := by omega
  rcases hsel with hsel | hsel <;> simp [hlen, hsel]

/-- Witness for C2 at a concrete one-child node with no selection. -/
theorem missing_subcommand_selection_errors_witness :
    runCmdE
        (Cmd.mk "root" (fun _ => .ok none)
          (CmdList.cons (Cmd.mk "child" (fun _ => .ok none) CmdList.nil)
            CmdList.nil))
        (fun _ => none) = .ok (-1, [selectMsg]) ∧ (-1 : Int) < 0 :=
  missing_subcommand_selection_errors "root" (fun _ => .ok none)
    (CmdList.cons (Cmd.mk "child" (fun _ => .ok none) CmdList.nil)
      CmdList.nil)
    (fun _ => none) rfl (by decide) (Or.inl rfl)

/-- Claim C3: a `KeyboardInterrupt` raised anywhere in the dispatch walk
surfaces as an exceptional dispatch result, which `run` catches at its
single top-level handler: it prints the `"^C"` acknowledgment and
returns status 1 (no exception escapes — `runModel` is total). -/
theorem interrupt_caught_at_top (c : Cmd) (a : Args) (v : Nat)
    (loggersArg dflt : List String) (st : LogState)
    (hd : runCmdE c a = .error ()) :
    (runModel c a v loggersArg dflt st).1 = 1 ∧
      (runModel c a v loggersArg dflt st).2.2 = ["^C"] := by
  rw [runModel]
  rw [hd]
  exact ⟨rfl, rfl⟩

/-- Witness for C3: a root whose handler raises the interrupt. -/
theorem interrupt_caught_at_top_witness :
    (runModel (Cmd.mk "root" (fun _ => .error ()) CmdList.nil)
        (fun _ => none) 0 ["app"] [] ⟨fun _ => 0, fun _ => []⟩).1 = 1 ∧
      (runModel (Cmd.mk "root" (fun _ => .error ()) CmdList.nil)
        (fun _ => none) 0 ["app"] [] ⟨fun _ => 0, fun _ => []⟩).2.2 = ["^C"] :=
  interrupt_caught_at_top _ _ 0 ["app"] [] ⟨fun _ => 0, fun _ => []⟩ rfl

/-- Claim C4 is false of the code: on the `KeyboardInterrupt` path `run`
returns before the teardown loop, so the stream handler added during
setup stays attached.  Evaluating the model: a logger starting with no
handlers ends the call with the freshly added handler `0` still in its
list. -/
theorem run_teardown_skipped_on_interrupt :
    ((runModel (Cmd.mk "root" (fun _ => .error ()) CmdList.nil)
        (fun _ => none) 0 ["app"] []
        ⟨fun _ => 0, fun _ => []⟩).2.1).handlers (some "app") = [0] ∧
      (LogState.handlers ⟨fun _ => 0, fun _ => []⟩ (some "app") = []) := by
  constructor
  · rfl
  · rfl

/-! ## Logging-configuration theorems -/

/-- `addHandler` leaves levels alone. -/
theorem addHandler_level (st : LogState) (k : Option String) (id : Nat) :
    (addHandler st k id).level = st.level := rfl

/-- `setLevel` reads back as expected. -/
theorem setLevel_level (st : LogState) (k k' : Option String) (lv : Nat) :
    (setLevel st k lv).level k' = if k' = k then lv else st.level k' := rfl

/-- The level assignment after the setup fold over indexed keys. -/
theorem foldl_setup_level (v : Nat) (l : List (Nat × Option String))
    (st : LogState) (k : Option String) :
    (l.foldl
        (fun acc ki => addHandler (setLevel acc ki.2 (levelFor v)) ki.2 ki.1)
        st).level k =
      if k ∈ l.map Prod.snd then levelFor v else st.level k := by
  induction l generalizing st with
  | nil => simp
  | cons p l ih =>
    simp only [List.foldl_cons, ih, List.map_cons, List.mem_cons]
    by_cases hk : k ∈ l.map Prod.snd
    · simp [hk]
    · by_cases hkp : k = p.2 <;> simp [hk, hkp, addHandler, setLevel]

/-- The level assignment after `setupLoggers`. -/
theorem setupLoggers_level (v : Nat) (keys : List (Option String))
    (st : LogState) (k : Option String) :
    (setupLoggers v keys st).level k =
      if k ∈ keys then levelFor v else st.level k := by
  rw [setupLoggers, foldl_setup_level, List.enum_map_snd]

/-- Teardown touches only handler lists. -/
theorem teardownLoggers_level (keys : List (Option String)) (st : LogState) :
    (teardownLoggers keys st).level = st.level := by
  induction keys generalizing st with
  | nil => rfl
  | cons k keys ih => simpa [teardownLoggers] using ih _

/-- The level function of the state `run` leaves behind equals the one
after setup (teardown only removes handlers). -/
theorem runModel_level (c : Cmd) (a : Args) (v : Nat)
    (loggersArg dflt : List String) (st : LogState) :
    ((runModel c a v loggersArg dflt st).2.1).level =
      (setupLoggers v
        (selectedKeys v (if loggersArg.isEmpty then dflt else loggersArg))
        st).level := by
  rw [runModel]
  cases runCmdE c a with
  | error e => rfl
  | ok p => simpa using teardownLoggers_level _ _

/-- Claim C9: with verbosity 5 or more, the root logger is set to debug,
so every logging namespace with no explicitly set level along its chain
has effective level `DEBUG` — including namespaces unrelated to the
command tree; with verbosity 0 every selected logger is set to
`CRITICAL`. -/
theorem verbosity_level_configuration (c : Cmd) (a : Args) (v : Nat)
    (loggersArg dflt : List String) (st : LogState) :
    (5 ≤ v → ∀ name : String,
      (∀ s ∈ chainNames name, st.level (some s) = 0) →
      effectiveLevel (runModel c a v loggersArg dflt st).2.1 name = DEBUG) ∧
    (v = 0 → ∀ nm ∈ (if loggersArg.isEmpty then dflt else loggersArg),
      ((runModel c a v loggersArg dflt st).2.1).level (some nm) = CRITICAL) := by
  constructor
  · intro hv name hchain
    have hkeys : selectedKeys v (if loggersArg.isEmpty then dflt else loggersArg)
        = [none] := by simp [selectedKeys, hv]
    have hlv : ∀ k, ((runModel c a v loggersArg dflt st).2.1).level k =
        if k = none then levelFor v else st.level k := by
      intro k
      rw [runModel_level, setupLoggers_level, hkeys]
      simp
    rw [effectiveLevel]
    have hfind : (chainNames name).find?
        (fun n => decide (((runModel c a v loggersArg dflt st).2.1).level (some n) ≠ 0)) = none := by
      apply List.find?_eq_none.mpr
      intro s hs
      simp [hlv, hchain s hs]
    rw [hfind, hlv]
    simp [levelFor, le_trans (by norm_num : (4:Nat) ≤ 5) hv]
  · intro hv nm hnm
    have hvlt : ¬ 5 ≤ v := by omega
    rw [runModel_level, setupLoggers_level]
    simp only [selectedKeys, hvlt, if_false]
    rw [if_pos (List.mem_map_of_mem _ hnm)]
    simp [levelFor, hv]

/-! ## Plugin-loading theorems -/

/-- An entry point the loading loop accepts: two `":"`-separated fields,
an importable module, and a class attribute that is present and
non-`None`. -/
def goodEntry (env : PyEnv) (ep : EntryPoint) : Prop :=
  ∃ m cls attrs cmd, splitOnColon ep.value.data = [m, cls] ∧
    env m = some attrs ∧ attrs cls = some (some cmd)

/-- An entry point the loading loop rejects *itself* (as opposed to a
missing module, which raises): malformed value, missing class attribute,
or `None` class attribute. -/
def badEntry (env : PyEnv) (ep : EntryPoint) : Prop :=
  (splitOnColon ep.value.data).length ≠ 2 ∨
    ∃ m cls attrs, splitOnColon ep.value.data = [m, cls] ∧
      env m = some attrs ∧ (attrs cls = none ∨ attrs cls = some none)

/-- A good entry is consumed by the loop, extending the accumulator. -/
theorem loadPluginsGo_good (env : PyEnv) (ep : EntryPoint)
    (rest : List EntryPoint) (acc : List Cmd) (hg : goodEntry env ep) :
    ∃ cmd, loadPlugins.go env (ep :: rest) acc =
      loadPlugins.go env rest (acc ++ [cmd]) := by
  obtain ⟨m, cls, attrs, cmd, h1, h2, h3⟩ := hg
  refine ⟨cmd, ?_⟩
  simp only [loadPlugins.go, h1, h2, h3]

/-- A prefix of good entries only grows the accumulator. -/
theorem loadPluginsGo_good_prefix (env : PyEnv) (pre l : List EntryPoint)
    (hpre : ∀ p ∈ pre, goodEntry env p) (acc : List Cmd) :
    ∃ acc', loadPlugins.go env (pre ++ l) acc = loadPlugins.go env l acc' := by
  induction pre generalizing acc with
  | nil => exact ⟨acc, rfl⟩
  | cons p pre ih =>
    obtain ⟨cmd, hc⟩ :=
      loadPluginsGo_good env p (pre ++ l) acc (hpre p (by simp))
    obtain ⟨acc', ha⟩ := ih (fun q hq => hpre q (by simp [hq])) (acc ++ [cmd])
    exact ⟨acc', by rw [List.cons_append, hc, ha]⟩

/-- A bad entry makes the loop return -1 with one error message. -/
theorem loadPluginsGo_bad (env : PyEnv) (ep : EntryPoint)
    (rest : List EntryPoint) (acc : List Cmd) (hb : badEntry env ep) :
    ∃ msg, loadPlugins.go env (ep :: rest) acc = .ok (.inl (-1, [msg])) := by
  rcases hb with hb | ⟨m, cls, attrs, h1, h2, h3⟩
  · rcases hfs : splitOnColon ep.value.data with _ | ⟨a, _ | ⟨b, _ | ⟨c, t⟩⟩⟩
    · exact ⟨.invalidFormat ep, by simp only [loadPlugins.go, hfs]⟩
    · exact ⟨.invalidFormat ep, by simp only [loadPlugins.go, hfs]⟩
    · exact absurd (by rw [hfs]; rfl) hb
    · exact ⟨.invalidFormat ep, by simp only [loadPlugins.go, hfs]⟩
  · rcases h3 with h3 | h3
    · exact ⟨.classNotFound ep cls, by simp only [loadPlugins.go, h1, h2, h3]⟩
    · exact ⟨.classNotImported ep cls,
        by simp only [loadPlugins.go, h1, h2, h3]⟩

/-- Claim C8, corrected: when the first offending entry point in the
namespace is malformed or names a missing or `None` class (after a
prefix of well-formed entries), the plugin-loading `run` reports one
descriptive error and aborts the whole run with status -1.  (A missing
*module*, by contrast, raises — see the counterexample.) -/
theorem plugin_bad_entry_aborts (eps : List EntryPoint) (ns : String)
    (env : PyEnv) (pre : List EntryPoint) (ep : EntryPoint)
    (post : List EntryPoint)
    (hsplit : eps.filter (fun e => e.group = ns) = pre ++ ep :: post)
    (hpre : ∀ p ∈ pre, goodEntry env p) (hbad : badEntry env ep) :
    ∃ msg, loadPlugins eps ns env = .ok (.inl (-1, [msg])) := by
  rw [loadPlugins, hsplit]
  obtain ⟨acc', ha⟩ := loadPluginsGo_good_prefix env pre (ep :: post) hpre []
  rw [ha]
  exact loadPluginsGo_bad env ep post acc' hbad

/-- Witness for C8 (amended): after one well-formed entry, an entry whose
class is absent from its module aborts the run with -1. -/
theorem plugin_bad_entry_aborts_witness :
    ∃ msg, loadPlugins
        [⟨"e1", "pyer.commands", "mod:Good"⟩,
         ⟨"e2", "pyer.commands", "mod:Missing"⟩]
        "pyer.commands"
        (fun m =>
          if m = txt "mod" then
            some (fun cls =>
              if cls = txt "Good" then
                some (some (Cmd.mk "good" (fun _ => .ok none) CmdList.nil))
              else none)
          else none) = .ok (.inl (-1, [msg])) :=
  plugin_bad_entry_aborts _ _ _
    [⟨"e1", "pyer.commands", "mod:Good"⟩] ⟨"e2", "pyer.commands", "mod:Missing"⟩
    [] rfl
    (fun p hp => by
      have hp1 : p = ⟨"e1", "pyer.commands", "mod:Good"⟩ := by
        simpa using hp
      exact ⟨txt "mod", txt "Good", _,
        Cmd.mk "good" (fun _ => .ok none) CmdList.nil, by rw [hp1]; rfl,
        rfl, rfl⟩)
    (Or.inr ⟨txt "mod", txt "Missing", _, rfl, rfl, Or.inl rfl⟩)

/-- Counterexample to claim C8 as stated: an entry point naming a module
that does not exist makes the load raise `ModuleNotFoundError` (the
source never wraps `importlib.import_module`), so nothing is reported to
the output stream and no negative status is returned. -/
theorem missing_module_raises_counterexample :
    loadPlugins [⟨"broken", "pyer.commands", "nosuchmodule:Cls"⟩]
        "pyer.commands" (fun _ => none) =
      .error (.moduleNotFound (txt "nosuchmodule")) ∧
    ∀ r, loadPlugins [⟨"broken", "pyer.commands", "nosuchmodule:Cls"⟩]
        "pyer.commands" (fun _ => none) ≠ .ok r := by
  refine ⟨rfl, fun r hr => ?_⟩
  rw [show loadPlugins [⟨"broken", "pyer.commands", "nosuchmodule:Cls"⟩]
      "pyer.commands" (fun _ => none) =
      .error (.moduleNotFound (txt "nosuchmodule")) from rfl] at hr
  exact Except.noConfusion hr

/-! ## Paragraph-scan lemmas -/

/-- The scan output splits over list concatenation. -/
theorem scanOut_append (xs ys : List (List Char))
    (s : Option (List (List Char)) × Nat) :
    scanOut (xs ++ ys) s = scanOut xs s ++ scanOut ys (scanSt xs s) := by
  induction xs generalizing s with
  | nil => simp [scanOut, scanSt]
  | cons l xs ih => simp [scanOut, scanSt, ih, List.append_assoc]

/-- The scan state splits over list concatenation. -/
theorem scanSt_append (xs ys : List (List Char))
    (s : Option (List (List Char)) × Nat) :
    scanSt (xs ++ ys) s = scanSt ys (scanSt xs s) := by
  induction xs generalizing s with
  | nil => simp [scanSt]
  | cons l xs ih => simp [scanSt, ih]

/-- The paragraph list splits over list concatenation. -/
theorem paraScan_append (xs ys : List (List Char))
    (s : Option (List (List Char)) × Nat) :
    paraScan (xs ++ ys) s = scanOut xs s ++ paraScan ys (scanSt xs s) := by
  rw [paraScan, paraScan, scanOut_append, scanSt_append, List.append_assoc]

/-- Scanning blank lines with no paragraph in progress emits nothing. -/
theorem scanOut_blanks_none (n k : Nat) :
    scanOut (List.replicate n []) (none, k) = [] := by
  induction n generalizing k with
  | zero => rfl
  | succ n ih => simpa [scanOut, scanStep] using ih (k + 1)

/-- Scanning blank lines with no paragraph in progress only counts. -/
theorem scanSt_blanks_none (n k : Nat) :
    scanSt (List.replicate n []) (none, k) = (none, k + n) := by
  induction n generalizing k with
  | zero => rfl
  | succ n ih =>
    rw [List.replicate_succ]
    show scanSt (List.replicate n []) (none, k + 1) = (none, k + (n + 1))
    rw [ih]
    congr 1
    omega

/-- A blank-line run closes the paragraph in progress. -/
theorem scanOut_blanks_some (n k : Nat) (p : List (List Char)) (hn : 1 ≤ n) :
    scanOut (List.replicate n []) (some p, k) = [p] := by
  obtain ⟨m, rfl⟩ : ∃ m, n = m + 1 := ⟨n - 1, by omega⟩
  simp [List.replicate_succ, scanOut, scanStep, scanOut_blanks_none]

/-- After a blank-line run the scan is between paragraphs, with the run
length pending. -/
theorem scanSt_blanks_some (n k : Nat) (p : List (List Char)) (hn : 1 ≤ n) :
    scanSt (List.replicate n []) (some p, k) = (none, n) := by
  obtain ⟨m, rfl⟩ : ∃ m, n = m + 1 := ⟨n - 1, by omega⟩
  rw [List.replicate_succ]
  show scanSt (List.replicate m []) (none, 1) = (none, m + 1)
  rw [scanSt_blanks_none]
  congr 1
  omega

/-- Trailing blank lines produce nothing: scanning them is the same as
finalizing directly. -/
theorem paraScan_blanks (n : Nat) (s : Option (List (List Char)) × Nat) :
    paraScan (List.replicate n []) s = finalize s := by
  obtain ⟨c, k⟩ := s
  cases c with
  | none => rw [paraScan, scanOut_blanks_none, scanSt_blanks_none]; rfl
  | some p =>
    cases n with
    | zero => rfl
    | succ m =>
      rw [paraScan, scanOut_blanks_some _ _ _ (by omega),
        scanSt_blanks_some _ _ _ (by omega)]
      rfl

/-- A list ending in a non-blank line leaves a paragraph in progress. -/
theorem scanSt_last_nonblank (A : List (List Char)) (la : List Char)
    (hA : A.getLast? = some la) (hla : la ≠ []) :
    ∀ s, ∃ p k, scanSt A s = (some p, k) := by
  induction A with
  | nil => simp at hA
  | cons a A ih =>
    intro s
    cases A with
    | nil =>
      obtain rfl : a = la := by simpa using hA
      obtain ⟨cur, k⟩ := s
      rcases a with _ | ⟨c, t⟩
      · exact absurd rfl hla
      · cases cur <;> exact ⟨_, _, rfl⟩
    | cons b B =>
      rw [List.getLast?_cons_cons] at hA
      exact ih hA _

/-- Starting between paragraphs with `k` pending blanks and hitting a
non-blank line first emits the `k` blank paragraphs. -/
theorem paraScan_pending (B : List (List Char)) (hb : List Char)
    (hB : B.head? = some hb) (hhb : hb ≠ []) (k : Nat) :
    paraScan B (none, k) = List.replicate k [] ++ paraScan B (none, 0) := by
  cases B with
  | nil => simp at hB
  | cons b B =>
    obtain rfl : b = hb := by simpa using hB
    rcases b with _ | ⟨c, t⟩
    · exact absurd rfl hhb
    · simp [paraScan, scanOut, scanSt, scanStep, List.append_assoc]

/-- When the first line is non-blank, starting with the empty paragraph
in progress (`paragraphStart = 0`) and starting between paragraphs agree:
the line joins the empty paragraph exactly as it would open a fresh
one. -/
theorem paraScan_init_zero (ls : List (List Char)) (hb : List Char)
    (h : ls.head? = some hb) (hhb : hb ≠ []) :
    paraScan ls (some [], 0) = paraScan ls (none, 0) := by
  cases ls with
  | nil => simp at h
  | cons l t =>
    obtain rfl : l = hb := by simpa using h
    rcases l with _ | ⟨c, cs⟩
    · exact absurd rfl hhb
    · rfl

/-- With no collected lines at all, the post-loop append produces the
single empty paragraph (`paragraphs == [[]]`). -/
theorem paraScan_nil_init : paraScan [] (some [], 0) = [[]] := rfl

/-- Dropping leading blanks from an all-blank line list leaves nothing. -/
theorem dropWhile_blank_all (L : List (List Char)) (h : ∀ l ∈ L, l = []) :
    L.dropWhile (· = []) = [] := by
  induction L with
  | nil => rfl
  | cons l t ih =>
    rw [List.dropWhile_cons]
    have hl : l = [] := h l (by simp)
    rw [if_pos (by simp [hl])]
    exact ih (fun x hx => h x (List.mem_cons_of_mem _ hx))

/-! ## Help-derivation theorems -/

/-- Counterexample to claim C7 as stated: with neither help nor
description given, an *empty* docstring raises nothing — because
`paragraphStart` is initialised to `0`, the post-loop append yields
`paragraphs == [[]]`, the empty paragraph renders as a space, and
`help == descriptionParagraphs[0]` silently becomes `" "`. -/
theorem empty_docstring_silent_counterexample :
    deriveHelp (some []) none none = .ok ([' '], [' ']) ∧
      ∀ e, deriveHelp (some []) none none ≠ .error e := by
  refine ⟨rfl, fun e he => ?_⟩
  rw [show deriveHelp (some []) none none = .ok ([' '], [' ']) from rfl] at he
  exact Except.noConfusion he

/-- Claim C7, corrected: an *absent* docstring (`self.__doc__ is None`)
raises `AttributeError` at `self.__doc__.split("\n")`, but an empty or
whitespace-only docstring raises nothing: every line strips to blank, the
collected line list is empty, the paragraph loop appends `[]` once, and
the help text silently becomes the single space `" "` (the
`IndexError` branch of `descriptionParagraphs[0]` is unreachable). -/
theorem missing_docstring_raises_blank_is_silent :
    deriveHelp none none none = .error .attributeError ∧
      ∀ doc : List Char, (∀ l ∈ splitOnNl doc, strip l = []) →
        deriveHelp (some doc) none none = .ok ([' '], [' ']) := by
  refine ⟨rfl, fun doc hall => ?_⟩
  have hlines : strippedLines doc = [] := by
    rw [strippedLines, collectLines]
    apply dropWhile_blank_all
    intro x hx
    obtain ⟨l, hl, rfl⟩ := List.mem_map.mp hx
    exact hall l hl
  have hdps : descriptionParagraphsOf doc = [[' ']] := by
    rw [descriptionParagraphsOf, hlines]
    rfl
  simp only [deriveHelp, hdps]
  rfl

/-- Witness for the corrected C7 at a whitespace-only docstring. -/
theorem missing_docstring_raises_blank_is_silent_witness :
    deriveHelp (some (txt "\n  \n\t")) none none = .ok ([' '], [' ']) :=
  missing_docstring_raises_blank_is_silent.2 (txt "\n  \n\t") (by decide)

/-! ## Reflow structure theorems -/

/-- `splitOnNl` never returns the empty list. -/
theorem splitOnNl_ne_nil (l : List Char) : splitOnNl l ≠ [] := by
  cases l with
  | nil => simp [splitOnNl]
  | cons c t =>
    rw [splitOnNl]
    by_cases hc : c = '\n'
    · simp [hc]
    · simp only [hc, if_false]
      rcases h : splitOnNl t with _ | ⟨x, r⟩ <;> simp

/-- Appending a newline appends an empty line to the split. -/
theorem splitOnNl_append_nl (l : List Char) :
    splitOnNl (l ++ ['\n']) = splitOnNl l ++ [[]] := by
  induction l with
  | nil => rfl
  | cons c t ih =>
    by_cases hc : c = '\n'
    · simp [splitOnNl, hc, ih]
    · rcases h : splitOnNl t with _ | ⟨x, r⟩
      · exact absurd h (splitOnNl_ne_nil t)
      · simp [splitOnNl, hc, ih, h]

/-- Appending `n` newlines appends `n` empty lines to the split. -/
theorem splitOnNl_append_newlines (l : List Char) (n : Nat) :
    splitOnNl (l ++ List.replicate n '\n') = splitOnNl l ++ List.replicate n [] := by
  induction n generalizing l with
  | zero => simp
  | succ n ih =>
    have : l ++ List.replicate (n + 1) '\n' = (l ++ ['\n']) ++ List.replicate n '\n' := by
      simp [List.replicate_succ]
    rw [this, ih, splitOnNl_append_nl, List.replicate_succ]
    simp

/-- Claim C10: a run of blank lines at the very end of the documentation
text is discarded whole by the reflow — the rendered description is
unchanged, so trailing blank lines yield no single-space paragraphs. -/
theorem trailing_blank_lines_discarded (doc : List Char) (n : Nat) :
    descriptionParagraphsOf (doc ++ List.replicate n '\n') =
      descriptionParagraphsOf doc := by
  rw [descriptionParagraphsOf, descriptionParagraphsOf, strippedLines,
    strippedLines, collectLines, collectLines, splitOnNl_append_newlines,
    List.map_append]
  have hblank : (List.replicate n []).map strip = List.replicate n ([] : List Char) := by
    rw [List.map_replicate]
    rfl
  rw [hblank, List.dropWhile_append]
  by_cases hemp : ((splitOnNl doc).map strip).dropWhile (· = []) = []
  · simp only [hemp, List.isEmpty_nil, if_true]
    have : (List.replicate n ([] : List Char)).dropWhile (· = []) = [] := by
      induction n with
      | zero => rfl
      | succ m ih => simp [List.replicate_succ, List.dropWhile, ih]
    rw [this]
  · simp only [List.isEmpty_eq_true, hemp, if_false]
    rw [paraScan_append, paraScan_blanks, paraScan]

/-! ## Words, chunk groups, and the greedy packing behind `textwrap.wrap`

`_justifyLines` joins a paragraph's lines with single spaces.  When the
resulting text consists of whitespace-free words of at most 80 columns
separated by single spaces, its chunk list is the per-word chunk groups
(each word may split into several chunks at hyphenation points)
interleaved with single-space chunks.  `_wrap_chunks` then packs chunks
greedily, breaking lines at chunk boundaries — between words, or inside
a hyphenated word.  The development below proves the chunking
compositionality, characterises the greedy packing, and shows that
re-wrapping the rendered lines reproduces them (the amended claim C5). -/

/-- Python-like split on a single space, used to name the words of a
single-spaced paragraph. -/
def splitOnSpace : List Char → List (List Char)
  | [] => [[]]
  | c :: t =>
    if c = ' ' then [] :: splitOnSpace t
    else
      match splitOnSpace t with
      | h :: r => (c :: h) :: r
      | [] => [[c]]

/-- A word the amended claim C5 accepts: non-empty, at most 80 columns,
no whitespace characters. -/
def goodWordB (w : List Char) : Bool :=
  !w.isEmpty && w.length ≤ 80 && w.all (fun c => !(isPyWs c))

/-- The measure of a cons chunk list. -/
theorem chunkMsr_cons (c : List Char) (cs : List (List Char)) :
    chunkMsr (c :: cs) = c.length + 1 + chunkMsr cs := by
  simp [chunkMsr]

/-- The measure is additive. -/
theorem chunkMsr_append (xs ys : List (List Char)) :
    chunkMsr (xs ++ ys) = chunkMsr xs + chunkMsr ys := by
  simp [chunkMsr]

/-- A good word is not a whitespace chunk. -/
theorem goodWord_not_ws (w : List Char) (h : goodWordB w = true) :
    isWsChunk w = false := by
  rcases w with _ | ⟨c, t⟩
  · simp [goodWordB] at h
  · simp only [goodWordB, Bool.and_eq_true, List.all_cons] at h
    have hc : isPyWs c = false := by simpa using h.2.1
    simp [isWsChunk, hc]

/-- A good word is non-empty. -/
theorem goodWord_ne_nil (w : List Char) (h : goodWordB w = true) : w ≠ [] := by
  rcases w with _ | ⟨c, t⟩
  · simp [goodWordB] at h
  · simp

/-- A good word fits in 80 columns. -/
theorem goodWord_length (w : List Char) (h : goodWordB w = true) :
    w.length ≤ 80 := by
  simp only [goodWordB, Bool.and_eq_true] at h
  exact of_decide_eq_true h.1.2

/-- Exhausted chunks produce no more lines, whatever the fuel. -/
theorem wrapGo_nil (fuel : Nat) (b : Bool) : wrapGo fuel [] b = [] := by
  cases fuel <;> rfl

/-- The stepping equation of the wrap loop. -/
theorem wrapGo_succ_cons (fuel : Nat) (c : List Char) (cs : List (List Char))
    (b : Bool) :
    wrapGo (fuel + 1) (c :: cs) b =
      match buildLine b (c :: cs) with
      | (some l, rest) => l :: wrapGo fuel rest true
      | (none, rest) => wrapGo fuel rest b := rfl

/-- `buildLine` only looks at the chunks after the leading-whitespace
drop. -/
theorem buildLine_congr (b b' : Bool) (cs cs' : List (List Char))
    (h : dropLeadingWs b cs = dropLeadingWs b' cs') :
    buildLine b cs = buildLine b' cs' := by
  rw [buildLine, buildLine, h]

/-- `splitOnSpace` never returns the empty list. -/
theorem splitOnSpace_ne_nil (l : List Char) : splitOnSpace l ≠ [] := by
  cases l with
  | nil => simp [splitOnSpace]
  | cons c t =>
    rw [splitOnSpace]
    by_cases hc : c = ' '
    · simp [hc]
    · simp only [hc, if_false]
      rcases h : splitOnSpace t with _ | ⟨x, r⟩ <;> simp

/-- Joining the space-split pieces with single spaces restores the
string. -/
theorem joinWith_splitOnSpace (l : List Char) :
    joinWith [' '] (splitOnSpace l) = l := by
  induction l with
  | nil => rfl
  | cons c t ih =>
    rcases h : splitOnSpace t with _ | ⟨x, r⟩
    · exact absurd h (splitOnSpace_ne_nil t)
    · by_cases hc : c = ' '
      · subst hc
        rw [splitOnSpace, if_pos rfl, h]
        rw [show joinWith [' '] ([] :: x :: r) = [] ++ [' '] ++ joinWith [' '] (x :: r)
          from rfl]
        rw [← h, ih]
        rfl
      · rw [splitOnSpace]
        simp only [hc, if_false, h]
        rcases r with _ | ⟨y, r'⟩
        · rw [show joinWith [' '] [c :: x] = c :: x from rfl]
          rw [h] at ih
          rw [show joinWith [' '] [x] = x from rfl] at ih
          rw [ih]
        · rw [show joinWith [' '] ((c :: x) :: y :: r') =
            (c :: x) ++ [' '] ++ joinWith [' '] (y :: r') from rfl]
          rw [h] at ih
          rw [show joinWith [' '] (x :: y :: r') =
            x ++ [' '] ++ joinWith [' '] (y :: r') from rfl] at ih
          rw [← ih]
          rfl

/-- `joinWith` over a concatenation of non-empty piece lists. -/
theorem joinWith_append (sep : List Char) :
    ∀ (xs ys : List (List Char)), xs ≠ [] → ys ≠ [] →
    joinWith sep (xs ++ ys) = joinWith sep xs ++ sep ++ joinWith sep ys := by
  intro xs
  induction xs with
  | nil => intro ys h _; exact absurd rfl h
  | cons x xs ih =>
    intro ys _ hy
    cases xs with
    | nil =>
      rcases ys with _ | ⟨y, ys'⟩
      · exact absurd rfl hy
      · rfl
    | cons x2 t =>
      rw [show (x :: x2 :: t) ++ ys = x :: ((x2 :: t) ++ ys) from rfl]
      rw [show joinWith sep (x :: x2 :: t) = x ++ sep ++ joinWith sep (x2 :: t)
        from rfl]
      have hne : (x2 :: t) ++ ys ≠ [] := by simp
      rcases hcons : (x2 :: t) ++ ys with _ | ⟨z, zs⟩
      · exact absurd hcons hne
      · rw [show joinWith sep (x :: z :: zs) = x ++ sep ++ joinWith sep (z :: zs)
          from rfl]
        rw [← hcons, ih ys (by simp) hy]
        simp [List.append_assoc]

/-- Flattening non-empty groups commutes with joining. -/
theorem joinWith_flatten (sep : List Char) :
    ∀ (gs : List (List (List Char))), (∀ g ∈ gs, g ≠ []) →
    joinWith sep (gs.map (joinWith sep)) = joinWith sep gs.flatten := by
  intro gs
  induction gs with
  | nil => intro _; rfl
  | cons g gs ih =>
    intro hne
    cases gs with
    | nil => simp [joinWith]
    | cons g2 t =>
      have hg : g ≠ [] := hne g (by simp)
      have hflat : (g2 :: t).flatten ≠ [] := by
        have hg2 : g2 ≠ [] := hne g2 (by simp)
        rcases g2 with _ | ⟨x, g2'⟩
        · exact absurd rfl hg2
        · simp
      rw [show List.map (joinWith sep) (g :: g2 :: t) =
        joinWith sep g :: List.map (joinWith sep) (g2 :: t) from rfl]
      rcases hm : List.map (joinWith sep) (g2 :: t) with _ | ⟨z, zs⟩
      · simp at hm
      · rw [show joinWith sep (joinWith sep g :: z :: zs) =
          joinWith sep g ++ sep ++ joinWith sep (z :: zs) from rfl]
        rw [← hm, ih (fun x hx => hne x (List.mem_cons_of_mem _ hx))]
        rw [show (g :: g2 :: t).flatten = g ++ (g2 :: t).flatten from rfl]
        rw [joinWith_append sep g ((g2 :: t).flatten) hg hflat]

/-- A list whose first and last characters are not whitespace strips to
itself. -/
theorem strip_eq_self (l : List Char)
    (h1 : ∀ c, l.head? = some c → isPyWs c = false)
    (h2 : ∀ c, l.getLast? = some c → isPyWs c = false) : strip l = l := by
  rw [strip]
  have hd : l.dropWhile isPyWs = l := by
    cases l with
    | nil => rfl
    | cons c t => rw [List.dropWhile_cons, h1 c rfl]; simp
  rw [hd]
  have hr : l.reverse.dropWhile isPyWs = l.reverse := by
    cases hrev : l.reverse with
    | nil => rfl
    | cons c t =>
      have hc : l.getLast? = some c := by
        rw [← List.head?_reverse, hrev]
        rfl
      rw [List.dropWhile_cons, h2 c hc]
      simp
  rw [hr, List.reverse_reverse]

/-- Every character of a single-space join is a space or a character of
one of the pieces. -/
theorem mem_joinWith : ∀ (g : List (List Char)) (c : Char),
    c ∈ joinWith [' '] g → c = ' ' ∨ ∃ w ∈ g, c ∈ w := by
  intro g
  induction g with
  | nil => intro c hc; simp [joinWith] at hc
  | cons x g ih =>
    intro c hc
    cases g with
    | nil =>
      rw [show joinWith [' '] [x] = x from rfl] at hc
      exact Or.inr ⟨x, by simp, hc⟩
    | cons y t =>
      rw [show joinWith [' '] (x :: y :: t) = x ++ [' '] ++ joinWith [' '] (y :: t)
        from rfl] at hc
      rcases List.mem_append.mp hc with hc | hc
      · rcases List.mem_append.mp hc with hc | hc
        · exact Or.inr ⟨x, by simp, hc⟩
        · exact Or.inl (by simpa using hc)
      · rcases ih c hc with hc | ⟨w, hw, hcw⟩
        · exact Or.inl hc
        · exact Or.inr ⟨w, List.mem_cons_of_mem _ hw, hcw⟩

/-- The head of a single-space join of words is the first word's head. -/
theorem joinWith_head (x : List Char) (g : List (List Char)) (hx : x ≠ []) :
    (joinWith [' '] (x :: g)).head? = x.head? := by
  cases g with
  | nil => rfl
  | cons y t =>
    rw [show joinWith [' '] (x :: y :: t) = x ++ [' '] ++ joinWith [' '] (y :: t)
      from rfl]
    rcases x with _ | ⟨c, x'⟩
    · exact absurd rfl hx
    · rfl

/-- The last element of a single-space join of non-empty words is the
last word's last element. -/
theorem joinWith_getLast : ∀ (g : List (List Char)) (x : List Char),
    (∀ w ∈ x :: g, w ≠ []) →
    (joinWith [' '] (x :: g)).getLast? = (g.getLastD x).getLast? := by
  intro g
  induction g with
  | nil => intro x _; rfl
  | cons y t ih =>
    intro x hne
    rw [show joinWith [' '] (x :: y :: t) = (x ++ [' ']) ++ joinWith [' '] (y :: t)
      from by simp [joinWith]]
    have hjy : joinWith [' '] (y :: t) ≠ [] := by
      have hy : y ≠ [] := hne y (by simp)
      cases t with
      | nil => exact hy
      | cons z t' =>
        rw [show joinWith [' '] (y :: z :: t') =
          y ++ [' '] ++ joinWith [' '] (z :: t') from rfl]
        rcases y with _ | ⟨c, y'⟩
        · exact absurd rfl hy
        · simp
    rw [List.getLast?_append_of_ne_nil _ hjy,
      ih y (fun w hw => hne w (List.mem_cons_of_mem _ hw)), List.getLastD_cons]

/-- Splitting a string with no newline yields the single line. -/
theorem splitOnNl_no_nl (x : List Char) (h : '\n' ∉ x) : splitOnNl x = [x] := by
  induction x with
  | nil => rfl
  | cons c t ih =>
    have hc : c ≠ '\n' := fun hc => h (hc ▸ List.mem_cons_self _ _)
    rw [splitOnNl]
    simp only [hc, if_false]
    rw [ih (fun hm => h (List.mem_cons_of_mem _ hm))]

/-- Splitting after a newline-free prefix peels off one line. -/
theorem splitOnNl_append_cons (x rest : List Char) (h : '\n' ∉ x) :
    splitOnNl (x ++ '\n' :: rest) = x :: splitOnNl rest := by
  induction x with
  | nil =>
    rw [List.nil_append, splitOnNl]
    simp
  | cons c t ih =>
    have hc : c ≠ '\n' := fun hc => h (hc ▸ List.mem_cons_self _ _)
    rw [List.cons_append, splitOnNl]
    simp only [hc, if_false]
    rw [ih (fun hm => h (List.mem_cons_of_mem _ hm))]

/-- Splitting a newline-join of newline-free lines restores the lines. -/
theorem splitOnNl_joinWith : ∀ (L : List (List Char)), L ≠ [] →
    (∀ l ∈ L, '\n' ∉ l) → splitOnNl (joinWith ['\n'] L) = L := by
  intro L
  induction L with
  | nil => intro h _; exact absurd rfl h
  | cons x t ih =>
    intro _ hnl
    cases t with
    | nil => exact splitOnNl_no_nl x (hnl x (by simp))
    | cons y t' =>
      rw [show joinWith ['\n'] (x :: y :: t') =
        x ++ '\n' :: joinWith ['\n'] (y :: t') from by simp [joinWith]]
      rw [splitOnNl_append_cons _ _ (hnl x (by simp)),
        ih (by simp) (fun l hl => hnl l (List.mem_cons_of_mem _ hl))]

/-- Unfolding one line of the paragraph scan. -/
theorem paraScan_cons (l : List Char) (ls : List (List Char))
    (s : Option (List (List Char)) × Nat) :
    paraScan (l :: ls) s = (scanStep s l).1 ++ paraScan ls (scanStep s l).2 := by
  rw [paraScan, paraScan, scanOut, scanSt, List.append_assoc]

/-- Scanning non-blank lines inside a paragraph only extends it. -/
theorem scan_nonblank_some : ∀ (L : List (List Char))
    (p : List (List Char)) (k : Nat), (∀ l ∈ L, l ≠ []) →
    scanOut L (some p, k) = [] ∧ scanSt L (some p, k) = (some (p ++ L), k) := by
  intro L
  induction L with
  | nil => intro p k _; exact ⟨rfl, by simp [scanSt]⟩
  | cons l L ih =>
    intro p k hne
    have hl : l ≠ [] := hne l (by simp)
    obtain ⟨c, t, rfl⟩ : ∃ c t, l = c :: t := by
      rcases l with _ | ⟨c, t⟩
      · exact absurd rfl hl
      · exact ⟨c, t, rfl⟩
    have hstep : scanStep (some p, k) (c :: t) = ([], (some (p ++ [c :: t]), k)) := rfl
    obtain ⟨h1, h2⟩ := ih (p ++ [c :: t]) k
      (fun x hx => hne x (List.mem_cons_of_mem _ hx))
    refine ⟨?_, ?_⟩
    · rw [scanOut, hstep]
      simpa using h1
    · rw [scanSt, hstep]
      simpa [List.append_assoc] using h2

/-- A non-empty run of non-blank lines is one paragraph. -/
theorem paraScan_all_nonblank (L : List (List Char)) (hL : L ≠ [])
    (hne : ∀ l ∈ L, l ≠ []) : paraScan L (none, 0) = [L] := by
  obtain ⟨l, L', rfl⟩ : ∃ l L', L = l :: L' := by
    rcases L with _ | ⟨l, L'⟩
    · exact absurd rfl hL
    · exact ⟨l, L', rfl⟩
  have hl : l ≠ [] := hne l (by simp)
  obtain ⟨c, t, rfl⟩ : ∃ c t, l = c :: t := by
    rcases l with _ | ⟨c, t⟩
    · exact absurd rfl hl
    · exact ⟨c, t, rfl⟩
  rw [paraScan_cons]
  have hstep : scanStep (none, 0) (c :: t) = ([], (some [c :: t], 0)) := rfl
  rw [hstep]
  obtain ⟨h1, h2⟩ := scan_nonblank_some L' [c :: t] 0
    (fun x hx => hne x (List.mem_cons_of_mem _ hx))
  rw [paraScan, h1, h2]
  rfl

/-- The shape of the paragraph lists `Command.__init__` produces: a
non-empty paragraph, then alternating runs of blank paragraphs (length at
least 1) and non-empty paragraphs, never ending blank. -/
inductive ParaShape : List (List (List Char)) → Prop where
  | nil : ParaShape []
  | single (P : List (List Char)) (hP : P ≠ []) : ParaShape [P]
  | cons (P : List (List Char)) (k : Nat) (rest : List (List (List Char)))
      (hP : P ≠ []) (hk : 1 ≤ k) (hrest : ParaShape rest) (hne : rest ≠ []) :
      ParaShape (P :: (List.replicate k [] ++ rest))

/-- A non-empty shaped list starts with a non-empty paragraph. -/
theorem ParaShape.head_ne_nil {ps : List (List (List Char))}
    (h : ParaShape ps) (hne : ps ≠ []) :
    ∃ P t, ps = P :: t ∧ P ≠ [] := by
  cases h with
  | nil => exact absurd rfl hne
  | single P hP => exact ⟨P, [], rfl, hP⟩
  | cons P k rest hP hk hrest hne2 => exact ⟨P, _, rfl, hP⟩

/-- The paragraph scan always produces a shaped list: the paired strong
induction over the remaining lines, for the in-paragraph state and for
the between-paragraphs state. -/
theorem paraScan_shape_main : ∀ (N : Nat) (ls : List (List Char)),
    ls.length ≤ N →
    ((∀ p : List (List Char), p ≠ [] →
      ParaShape (paraScan ls (some p, 0)) ∧ paraScan ls (some p, 0) ≠ []) ∧
     (∀ k, 1 ≤ k → paraScan ls (none, k) = [] ∨
      ∃ j rest, paraScan ls (none, k) = List.replicate j [] ++ rest ∧
        1 ≤ j ∧ ParaShape rest ∧ rest ≠ [])) := by
  intro N
  induction N with
  | zero =>
    intro ls hl
    obtain rfl : ls = [] := List.length_eq_zero.mp (by omega)
    constructor
    · intro p hp
      exact ⟨ParaShape.single p hp, by simp [paraScan, scanOut, scanSt, finalize]⟩
    · intro k _
      left
      rfl
  | succ N ih =>
    intro ls hl
    cases ls with
    | nil =>
      constructor
      · intro p hp
        exact ⟨ParaShape.single p hp,
          by simp [paraScan, scanOut, scanSt, finalize]⟩
      · intro k _
        left
        rfl
    | cons l ls =>
      have hlen : ls.length ≤ N := by simp at hl; omega
      constructor
      · intro p hp
        rcases l with _ | ⟨c, t⟩
        · -- blank line closes the paragraph
          rw [paraScan_cons]
          rw [show scanStep (some p, 0) [] = ([p], (none, 1)) from rfl]
          rcases (ih ls hlen).2 1 le_rfl with h | ⟨j, rest, heq, hj, hsh, hrne⟩
          · rw [h]
            exact ⟨ParaShape.single p hp, by simp⟩
          · rw [heq]
            exact ⟨ParaShape.cons p j rest hp hj hsh hrne, by simp⟩
        · -- non-blank line extends the paragraph
          rw [paraScan_cons]
          rw [show scanStep (some p, 0) (c :: t) = ([], (some (p ++ [c :: t]), 0))
            from rfl]
          have h := (ih ls hlen).1 (p ++ [c :: t]) (by simp)
          exact ⟨by simpa using h.1, by simpa using h.2⟩
      · intro k hk
        rcases l with _ | ⟨c, t⟩
        · -- one more blank line
          rw [paraScan_cons]
          rw [show scanStep (none, k) [] = ([], (none, k + 1)) from rfl]
          rcases (ih ls hlen).2 (k + 1) (by omega) with h | ⟨j, rest, heq, hj, hsh, hrne⟩
          · left
            simpa using h
          · right
            exact ⟨j, rest, by simpa using heq, hj, hsh, hrne⟩
        · -- a non-blank line flushes the pending blanks
          rw [paraScan_cons]
          rw [show scanStep (none, k) (c :: t) =
            (List.replicate k [], (some [c :: t], 0)) from rfl]
          have h := (ih ls hlen).1 [c :: t] (by simp)
          exact Or.inr ⟨k, paraScan ls (some [c :: t], 0), rfl, hk, h.1, h.2⟩

/-- The paragraph scan of leading-blank-free lines is shaped. -/
theorem paraScan_shape (ls : List (List Char))
    (hhead : ∀ hb, ls.head? = some hb → hb ≠ []) :
    ParaShape (paraScan ls (none, 0)) := by
  cases ls with
  | nil => exact ParaShape.nil
  | cons l ls =>
    have hl : l ≠ [] := hhead l rfl
    obtain ⟨c, t, rfl⟩ : ∃ c t, l = c :: t := by
      rcases l with _ | ⟨c, t⟩
      · exact absurd rfl hl
      · exact ⟨c, t, rfl⟩
    rw [paraScan_cons]
    rw [show scanStep (none, 0) (c :: t) = ([], (some [c :: t], 0)) from rfl]
    have h := (paraScan_shape_main ls.length ls le_rfl).1 [c :: t] (by simp)
    simpa using h.1

/-- Scanning a run of non-blank lines from the between-paragraphs state
with nothing pending opens and fills one paragraph. -/
theorem scan_nonblank_none (L : List (List Char)) (hL : L ≠ [])
    (hne : ∀ l ∈ L, l ≠ []) :
    scanOut L (none, 0) = [] ∧ scanSt L (none, 0) = (some L, 0) := by
  obtain ⟨l, L', rfl⟩ : ∃ l L', L = l :: L' := by
    rcases L with _ | ⟨l, L'⟩
    · exact absurd rfl hL
    · exact ⟨l, L', rfl⟩
  have hl : l ≠ [] := hne l (by simp)
  obtain ⟨c, t, rfl⟩ : ∃ c t, l = c :: t := by
    rcases l with _ | ⟨c, t⟩
    · exact absurd rfl hl
    · exact ⟨c, t, rfl⟩
  obtain ⟨h1, h2⟩ := scan_nonblank_some L' [c :: t] 0
    (fun x hx => hne x (List.mem_cons_of_mem _ hx))
  rw [scanOut, scanSt]
  rw [show scanStep (none, 0) (c :: t) = ([], (some [c :: t], 0)) from rfl]
  exact ⟨by simpa using h1, by simpa using h2⟩

/-- Replicated blank pieces flatten to replicated blank lines. -/
theorem flatten_replicate_blank (k : Nat) :
    (List.replicate k [([] : List Char)]).flatten =
      List.replicate k ([] : List Char) := by
  induction k with
  | zero => rfl
  | succ k ih => simp [List.replicate_succ, ih]

/-! ### Chunk groups

A whitespace-free word tokenises into a non-empty group of chunks
(hyphenated words split at their hyphenation points); the chunk list of a
single-spaced word sequence is the groups interleaved with single-space
chunks. -/

/-- The trailing groups of a chunk stream, each preceded by its
single-space separator chunk. -/
def sepG : List (List (List Char)) → List (List Char)
  | [] => []
  | g :: gs => [' '] :: (g ++ sepG gs)

/-- The chunk stream of word groups separated by single-space chunks. -/
def interG : List (List (List Char)) → List (List Char)
  | [] => []
  | g :: gs => g ++ sepG gs

/-- Total character count of a chunk list. -/
def glen (g : List (List Char)) : Nat := (g.map List.length).sum

/-- The separated stream is the space chunk followed by the plain
stream. -/
theorem sepG_cons (g : List (List Char)) (gs : List (List (List Char))) :
    sepG (g :: gs) = [' '] :: interG (g :: gs) := rfl

/-- `sepG` is a homomorphism for append. -/
theorem sepG_append (xs ys : List (List (List Char))) :
    sepG (xs ++ ys) = sepG xs ++ sepG ys := by
  induction xs with
  | nil => rfl
  | cons g xs ih => simp [sepG, ih]

/-- Splitting a non-empty stream of groups. -/
theorem interG_append (xs ys : List (List (List Char))) (hx : xs ≠ []) :
    interG (xs ++ ys) = interG xs ++ sepG ys := by
  cases xs with
  | nil => exact absurd rfl hx
  | cons g xs => simp [interG, sepG_append]

/-- The measure of a cons chunk list. -/
theorem glen_cons (c : List Char) (cs : List (List Char)) :
    glen (c :: cs) = c.length + glen cs := by
  simp [glen]

/-- The character measure is additive. -/
theorem glen_append (xs ys : List (List Char)) :
    glen (xs ++ ys) = glen xs + glen ys := by
  simp [glen]

/-- The character measure is the flattened length. -/
theorem glen_eq_flatten (g : List (List Char)) : glen g = g.flatten.length := by
  induction g with
  | nil => rfl
  | cons c g ih => rw [glen_cons, List.flatten_cons, List.length_append, ih]

/-- Each chunk is at most the group's total width. -/
theorem chunk_le_glen (c : List Char) (g : List (List Char)) (h : c ∈ g) :
    c.length ≤ glen g := by
  induction g with
  | nil => simp at h
  | cons x g ih =>
    rw [glen_cons]
    rcases List.mem_cons.mp h with h | h
    · subst h
      omega
    · have := ih h
      omega

/-- A non-empty chunk of non-whitespace characters is not a whitespace
chunk. -/
theorem isWsChunk_false_of (c : List Char) (hne : c ≠ [])
    (h : ∀ x ∈ c, isPyWs x = false) : isWsChunk c = false := by
  rcases c with _ | ⟨x, t⟩
  · exact absurd rfl hne
  · simp [isWsChunk, h x (by simp)]

/-- Flattening a group stream is the single-space join of the group
flattens. -/
theorem flatten_interG : ∀ gs : List (List (List Char)),
    (interG gs).flatten = joinWith [' '] (gs.map (fun g => g.flatten)) := by
  intro gs
  induction gs with
  | nil => rfl
  | cons g gs ih =>
    cases gs with
    | nil => simp [interG, sepG, joinWith]
    | cons g2 t =>
      rw [show interG (g :: g2 :: t) = g ++ [' '] :: interG (g2 :: t) from rfl,
        List.flatten_append, List.flatten_cons, ih]
      rw [show List.map (fun g => g.flatten) (g :: g2 :: t) =
        g.flatten :: g2.flatten :: List.map (fun g => g.flatten) t from rfl]
      rw [show joinWith [' ']
          (g.flatten :: g2.flatten :: List.map (fun g => g.flatten) t) =
        g.flatten ++ [' '] ++
          joinWith [' '] (g2.flatten :: List.map (fun g => g.flatten) t) from rfl,
        List.append_assoc]
      rfl

/-! ### `_munge_whitespace` is the identity on single-spaced text -/

/-- Tab expansion does nothing to tab-free text. -/
theorem expandTabsGo_no_tab : ∀ (t : List Char), (∀ c ∈ t, c ≠ '\t') →
    ∀ col, expandTabsGo t col = t := by
  intro t
  induction t with
  | nil => intro _ _; rfl
  | cons c t ih =>
    intro h col
    rw [expandTabsGo, if_neg (h c (by simp))]
    by_cases hnr : c = '\n' ∨ c = '\r'
    · rw [if_pos hnr, ih (fun x hx => h x (List.mem_cons_of_mem _ hx)) 0]
    · rw [if_neg hnr, ih (fun x hx => h x (List.mem_cons_of_mem _ hx)) (col + 1)]

/-- Whitespace munging does nothing when the only whitespace characters
are already single spaces. -/
theorem munge_id (t : List Char) (h : ∀ c ∈ t, c = ' ' ∨ isPyWs c = false) :
    munge t = t := by
  have ht : ∀ c ∈ t, c ≠ '\t' := by
    intro c hc he
    rcases h c hc with h1 | h1
    · rw [he] at h1
      exact absurd h1 (by decide)
    · rw [he] at h1
      exact absurd h1 (by decide)
  rw [munge, expandTabsGo_no_tab t ht 0]
  have hpt : ∀ c ∈ t, (if isPyWs c then ' ' else c) = c := by
    intro c hc
    rcases h c hc with h1 | h1
    · subst h1
      rfl
    · rw [if_neg (by simp [h1])]
  rw [List.map_congr_left hpt, List.map_id']

/-! ### Lookup and word-scan basics -/

/-- Looking inside the left part of an append. -/
theorem get?_append_lt {α : Type} (a b : List α) (k : Nat) (h : k < a.length) :
    (a ++ b).get? k = a.get? k := by
  induction a generalizing k with
  | nil => simp at h
  | cons x a ih =>
    cases k with
    | zero => rfl
    | succ k =>
      rw [List.cons_append, List.get?_cons_succ, List.get?_cons_succ]
      exact ih k (by simpa using h)

/-- Looking past the end of a list. -/
theorem get?_none_of_le {α : Type} (a : List α) (k : Nat) (h : a.length ≤ k) :
    a.get? k = none := by
  induction a generalizing k with
  | nil => cases k <;> rfl
  | cons x a ih =>
    cases k with
    | zero => simp at h
    | succ k =>
      rw [List.get?_cons_succ]
      exact ih k (by simpa using h)

/-- Looking at the junction of an append. -/
theorem get?_append_mid {α : Type} (a : List α) (x : α) (b : List α) :
    (a ++ x :: b).get? a.length = some x := by
  induction a with
  | nil => rfl
  | cons y a ih => simpa using ih

/-- A successful lookup is in bounds. -/
theorem get?_some_lt {α : Type} (l : List α) (k : Nat) (x : α)
    (h : l.get? k = some x) : k < l.length := by
  induction l generalizing k with
  | nil => cases k <;> simp at h
  | cons y l ih =>
    cases k with
    | zero => simp
    | succ k =>
      rw [List.get?_cons_succ] at h
      have := ih k h
      simpa using Nat.succ_lt_succ this

/-- Inside the prefix, `take` does not change lookups. -/
theorem get?_take_lt {α : Type} (l : List α) (L k : Nat) (h : k < L) :
    (l.take L).get? k = l.get? k := by
  induction l generalizing L k with
  | nil => simp
  | cons x l ih =>
    cases L with
    | zero => omega
    | succ L =>
      cases k with
      | zero => rfl
      | succ k =>
        rw [List.take_succ_cons, List.get?_cons_succ, List.get?_cons_succ]
        exact ih L k (by omega)

/-- The word scan never moves backwards. -/
theorem wordEndGo_ge (t : List Char) : ∀ (fuel k : Nat),
    k ≤ wordEndGo t k fuel := by
  intro fuel
  induction fuel with
  | zero => intro k; exact le_rfl
  | succ fuel ih =>
    intro k
    rw [wordEndGo]
    split
    · exact le_rfl
    · split
      · omega
      · split
        · exact le_rfl
        · split
          · exact le_rfl
          · exact le_trans (by omega) (ih (k + 1))

/-- A firing hyphen split has a following letter, hence room. -/
theorem hyphenSplitAt_succ_lt (t : List Char) (k : Nat)
    (h : hyphenSplitAt t k = true) : k + 1 < t.length := by
  rw [hyphenSplitAt] at h
  simp only [Bool.and_eq_true] at h
  have hC := h.1.2
  rcases hg : t.get? (k + 1) with _ | c
  · rw [hg] at hC
    simp at hC
  · exact get?_some_lt t (k + 1) c hg

/-- The word scan stays within the text. -/
theorem wordEndGo_le (t : List Char) : ∀ (fuel k : Nat), k ≤ t.length →
    wordEndGo t k fuel ≤ t.length := by
  intro fuel
  induction fuel with
  | zero => intro k hk; exact hk
  | succ fuel ih =>
    intro k hk
    rw [wordEndGo]
    split
    · exact hk
    · split
      · rename_i h1 h2
        have := hyphenSplitAt_succ_lt t k h2
        omega
      · split
        · exact hk
        · split
          · exact hk
          · rename_i h1 _ _ _
            exact ih (k + 1) (by omega)

/-- The word scan is fuel-independent once the fuel covers the text. -/
theorem wordEndGo_fuel_eq (t : List Char) : ∀ (f1 f2 k : Nat),
    t.length < k + f1 → t.length < k + f2 →
    wordEndGo t k f1 = wordEndGo t k f2 := by
  intro f1
  induction f1 with
  | zero =>
    intro f2 k h1 h2
    cases f2 with
    | zero => rfl
    | succ f2 =>
      rw [wordEndGo, wordEndGo, if_pos (by omega : t.length ≤ k)]
  | succ f1 ih =>
    intro f2 k h1 h2
    cases f2 with
    | zero =>
      rw [wordEndGo, wordEndGo, if_pos (by omega : t.length ≤ k)]
    | succ f2 =>
      rw [wordEndGo, wordEndGo]
      by_cases hk : t.length ≤ k
      · rw [if_pos hk, if_pos hk]
      · rw [if_neg hk, if_neg hk]
        by_cases hh : hyphenSplitAt t k = true
        · rw [if_pos hh, if_pos hh]
        · rw [if_neg hh, if_neg hh]
          by_cases hw : ((t.get? k).any isPyWs) = true
          · rw [if_pos hw, if_pos hw]
          · rw [if_neg hw, if_neg hw]
            by_cases he :
                ((t.get? (k - 1)).any isWordPunct && emDashAhead (t.drop k)) = true
            · rw [if_pos he, if_pos he]
            · rw [if_neg he, if_neg he]
              exact ih f2 (k + 1) (by omega) (by omega)

/-! ### The tokenizer at a single-space boundary

Every lookahead of `wordsep_re` treats the separating space exactly like
the end of the text, so the chunks of a whitespace-free word do not
depend on what follows the next space. -/

/-- A space and a missing character agree on the letter test. -/
theorem any_letter_none_sp :
    (some ' ').any isLetterChar = (none : Option Char).any isLetterChar := by
  decide

/-- A space and a missing character agree on the hyphen test. -/
theorem dash_none_sp :
    (decide ((some ' ' : Option Char) = some '-')) =
      (decide ((none : Option Char) = some '-')) := by
  decide

/-- A hyphen split cannot fire on a non-hyphen character. -/
theorem hyphenSplitAt_false_of (t : List Char) (k : Nat) (c : Char)
    (hg : t.get? k = some c) (hc : c ≠ '-') : hyphenSplitAt t k = false := by
  rw [hyphenSplitAt, hg]
  have h1 : (decide ((some c : Option Char) = some '-')) = false := by
    simp [hc]
  rw [h1]
  simp

/-- A hyphen split cannot fire past the end of the text. -/
theorem hyphenSplitAt_false_of_none (t : List Char) (k : Nat)
    (hg : t.get? k = none) : hyphenSplitAt t k = false := by
  rw [hyphenSplitAt, hg]
  simp

/-- The hyphen-split test inside a word does not look across the
following space. -/
theorem hyphenSplitAt_append_sp (a b : List Char) (k : Nat)
    (hk : k < a.length) :
    hyphenSplitAt (a ++ ' ' :: b) k = hyphenSplitAt a k := by
  rw [hyphenSplitAt, hyphenSplitAt]
  rw [get?_append_lt a _ k hk, get?_append_lt a _ (k - 1) (by omega),
    get?_append_lt a _ (k - 2) (by omega), get?_append_lt a _ (k - 3) (by omega)]
  by_cases h3 : k + 3 < a.length
  · rw [get?_append_lt a _ (k + 1) (by omega), get?_append_lt a _ (k + 2) (by omega),
      get?_append_lt a _ (k + 3) h3]
  · by_cases h2 : k + 2 < a.length
    · rw [get?_append_lt a _ (k + 1) (by omega), get?_append_lt a _ (k + 2) h2]
      rw [show k + 3 = a.length from by omega, get?_append_mid,
        get?_none_of_le a a.length le_rfl, any_letter_none_sp]
    · by_cases h1 : k + 1 < a.length
      · rw [get?_append_lt a _ (k + 1) h1]
        rw [show k + 2 = a.length from by omega, get?_append_mid,
          get?_none_of_le a a.length le_rfl, any_letter_none_sp, dash_none_sp]
        have hd : (decide ((none : Option Char) = some '-')) = false := by decide
        rw [hd]
        rw [get?_none_of_le a (k + 3) (by omega)]
        simp
      · rw [show k + 1 = a.length from by omega, get?_append_mid,
          get?_none_of_le a a.length le_rfl, any_letter_none_sp]
        have hno : (none : Option Char).any isLetterChar = false := by decide
        rw [hno]
        simp

/-- Whitespace-free text to the left of a space keeps its em-dash
lookahead. -/
theorem takeWhile_append_of_mem_neg {p : Char → Bool} :
    ∀ (a b : List Char), (∃ c ∈ a, p c = false) →
    (a ++ b).takeWhile p = a.takeWhile p ∧
      (a ++ b).dropWhile p = a.dropWhile p ++ b := by
  intro a
  induction a with
  | nil =>
    intro b h
    simp at h
  | cons x a ih =>
    intro b h
    by_cases hx : p x = true
    · have h' : ∃ c ∈ a, p c = false := by
        obtain ⟨c, hc, hpc⟩ := h
        rcases List.mem_cons.mp hc with rfl | hc
        · rw [hx] at hpc
          cases hpc
        · exact ⟨c, hc, hpc⟩
      obtain ⟨h1, h2⟩ := ih b h'
      constructor
      · rw [List.cons_append, List.takeWhile_cons, List.takeWhile_cons, hx]
        simp [h1]
      · rw [List.cons_append, List.dropWhile_cons, List.dropWhile_cons, hx]
        simp [h2]
    · constructor
      · rw [List.cons_append, List.takeWhile_cons, List.takeWhile_cons]
        simp [hx]
      · rw [List.cons_append, List.dropWhile_cons, List.dropWhile_cons]
        simp [hx]

/-- Walking an append whose left part satisfies the predicate
throughout. -/
theorem takeWhile_append_of_all {p : Char → Bool} :
    ∀ (a b : List Char), (∀ c ∈ a, p c = true) →
    (a ++ b).takeWhile p = a ++ b.takeWhile p ∧
      (a ++ b).dropWhile p = b.dropWhile p := by
  intro a
  induction a with
  | nil =>
    intro b _
    exact ⟨rfl, rfl⟩
  | cons x a ih =>
    intro b h
    have hx := h x (by simp)
    obtain ⟨h1, h2⟩ := ih b (fun c hc => h c (List.mem_cons_of_mem _ hc))
    constructor
    · rw [List.cons_append, List.takeWhile_cons, hx]
      simp [h1]
    · rw [List.cons_append, List.dropWhile_cons, hx]
      simp [h2]

/-- The em-dash lookahead does not look across a following space. -/
theorem emDashAhead_append_sp (a b : List Char) (ha : a ≠ []) :
    emDashAhead (a ++ ' ' :: b) = emDashAhead a := by
  by_cases hall : ∀ c ∈ a, c = '-'
  · have hallb : ∀ c ∈ a, (fun c => decide (c = '-')) c = true := by
      intro c hc
      simp [hall c hc]
    obtain ⟨h1, h2⟩ := takeWhile_append_of_all a (' ' :: b) hallb
    have h1a : a.takeWhile (fun c => decide (c = '-')) = a := by
      have := (takeWhile_append_of_all a [] hallb).1
      simpa using this
    have h2a : a.dropWhile (fun c => decide (c = '-')) = [] := by
      have := (takeWhile_append_of_all a [] hallb).2
      simpa using this
    rw [emDashAhead, emDashAhead, h1, h2, h1a, h2a]
    rw [show (' ' :: b).takeWhile (fun c => decide (c = '-')) = [] from by
      rw [List.takeWhile_cons]
      simp]
    rw [show (' ' :: b).dropWhile (fun c => decide (c = '-')) = ' ' :: b from by
      rw [List.dropWhile_cons]
      simp]
    have hwc : isWordChar ' ' = false := by decide
    simp [hwc]
  · have hne : ∃ c ∈ a, (fun c => decide (c = '-')) c = false := by
      push_neg at hall
      obtain ⟨c, hc, hcd⟩ := hall
      exact ⟨c, hc, by simp [hcd]⟩
    obtain ⟨h1, h2⟩ := takeWhile_append_of_mem_neg a (' ' :: b) hne
    rw [emDashAhead, emDashAhead, h1, h2]
    have hd : a.dropWhile (fun c => decide (c = '-')) ≠ [] := by
      intro hdn
      apply absurd _ hall
      intro c hc
      have hsplit := List.takeWhile_append_dropWhile
        (p := fun c => decide (c = '-')) (l := a)
      rw [hdn, List.append_nil] at hsplit
      have hcm : c ∈ a.takeWhile (fun c => decide (c = '-')) := by
        rw [hsplit]
        exact hc
      have := List.mem_takeWhile_imp hcm
      simpa using this
    rcases hdrop : a.dropWhile (fun c => decide (c = '-')) with _ | ⟨d, ds⟩
    · exact absurd hdrop hd
    · rfl

/-- The word scan inside a whitespace-free word does not look across the
following space. -/
theorem wordEndGo_append_sp (a b : List Char)
    (hws : ∀ c ∈ a, isPyWs c = false) :
    ∀ (fuel k : Nat), k ≤ a.length →
    wordEndGo (a ++ ' ' :: b) k fuel = wordEndGo a k fuel := by
  intro fuel
  induction fuel with
  | zero =>
    intro k _
    rfl
  | succ fuel ih =>
    intro k hk
    rw [wordEndGo, wordEndGo]
    rcases Nat.lt_or_ge k a.length with hlt | hge
    · rw [if_neg (by simp [List.length_append]; omega :
        ¬ (a ++ ' ' :: b).length ≤ k)]
      rw [if_neg (by omega : ¬ a.length ≤ k)]
      rw [hyphenSplitAt_append_sp a b k hlt]
      by_cases hh : hyphenSplitAt a k = true
      · rw [if_pos hh, if_pos hh]
      · rw [if_neg hh, if_neg hh]
        rw [get?_append_lt a _ k hlt]
        by_cases hw : ((a.get? k).any isPyWs) = true
        · rw [if_pos hw, if_pos hw]
        · rw [if_neg hw, if_neg hw]
          rw [get?_append_lt a _ (k - 1) (by omega)]
          have hdk : a.drop k ≠ [] := by
            intro hdn
            have := congrArg List.length hdn
            simp at this
            omega
          rw [show (a ++ ' ' :: b).drop k = a.drop k ++ ' ' :: b from
            List.drop_append_of_le_length (by omega)]
          rw [emDashAhead_append_sp (a.drop k) b hdk]
          by_cases he :
              ((a.get? (k - 1)).any isWordPunct && emDashAhead (a.drop k)) = true
          · rw [if_pos he, if_pos he]
          · rw [if_neg he, if_neg he]
            exact ih (k + 1) (by omega)
    · have hka : k = a.length := by omega
      rw [if_neg (by simp [List.length_append]; omega :
        ¬ (a ++ ' ' :: b).length ≤ k)]
      rw [if_pos (by omega : a.length ≤ k)]
      rw [hyphenSplitAt_false_of (a ++ ' ' :: b) k ' '
        (by rw [hka]; exact get?_append_mid a ' ' b) (by decide)]
      rw [if_neg (by simp)]
      rw [show (a ++ ' ' :: b).get? k = some ' ' from by
        rw [hka]; exact get?_append_mid a ' ' b]
      rw [if_pos (by decide : ((some ' ').any isPyWs) = true)]

/-- The lazy word token inside a whitespace-free word does not depend on
what follows the next space. -/
theorem wordEnd_append_sp (a b : List Char) (hws : ∀ c ∈ a, isPyWs c = false)
    (k : Nat) (hk : k ≤ a.length) :
    wordEnd (a ++ ' ' :: b) k = wordEnd a k := by
  rw [wordEnd, wordEnd, wordEndGo_append_sp a b hws _ k hk]
  exact wordEndGo_fuel_eq a _ _ k (by simp [List.length_append]; omega)
    (by omega)

/-- Unfolding one step of the chunk scan on a cons cell. -/
theorem splitChunksGo_succ (fuel : Nat) (p : Bool) (c : Char) (ts : List Char) :
    splitChunksGo (fuel + 1) p (c :: ts) =
      if isPyWs c then
        ((c :: ts).takeWhile isPyWs) ::
          splitChunksGo fuel false
            ((c :: ts).drop ((c :: ts).takeWhile isPyWs).length)
      else if p && emDashAhead (c :: ts) then
        ((c :: ts).takeWhile (· = '-')) ::
          splitChunksGo fuel false
            ((c :: ts).drop ((c :: ts).takeWhile (· = '-')).length)
      else
        ((c :: ts).take (wordEnd (c :: ts) 1)) ::
          splitChunksGo fuel
            (((c :: ts).get? (wordEnd (c :: ts) 1 - 1)).any isWordPunct)
            ((c :: ts).drop (wordEnd (c :: ts) 1)) := rfl

/-- The chunk scan of nothing is nothing. -/
theorem splitChunksGo_nil (fuel : Nat) (p : Bool) :
    splitChunksGo fuel p [] = [] := by
  cases fuel <;> rfl

/-- Dropping a `takeWhile` worth of elements is `dropWhile`. -/
theorem drop_takeWhile_len {p : Char → Bool} (l : List Char) :
    l.drop (l.takeWhile p).length = l.dropWhile p := by
  induction l with
  | nil => rfl
  | cons x l ih =>
    rw [List.takeWhile_cons, List.dropWhile_cons]
    by_cases hx : p x = true
    · rw [if_pos hx, if_pos hx]
      simpa using ih
    · rw [if_neg hx, if_neg hx]
      rfl

/-- A firing em-dash lookahead has a hyphen run of length at least 2. -/
theorem emDashAhead_run_ge_two (t : List Char) (h : emDashAhead t = true) :
    2 ≤ (t.takeWhile (fun c => decide (c = '-'))).length := by
  rw [emDashAhead] at h
  simp only [Bool.and_eq_true] at h
  exact of_decide_eq_true h.1

/-- After a firing em-dash lookahead the hyphen run ends at a word
character. -/
theorem emDashAhead_dropWhile_head (t : List Char) (h : emDashAhead t = true) :
    ∃ x xs, t.dropWhile (fun c => decide (c = '-')) = x :: xs ∧
      isWordChar x = true := by
  rw [emDashAhead] at h
  simp only [Bool.and_eq_true] at h
  have h2 := h.2
  rcases hd : t.dropWhile (fun c => decide (c = '-')) with _ | ⟨x, xs⟩
  · rw [hd] at h2
    simp at h2
  · rw [hd] at h2
    exact ⟨x, xs, rfl, h2⟩

/-- The word token is non-trivial. -/
theorem wordEnd_one_ge (t : List Char) : 1 ≤ wordEnd t 1 :=
  wordEndGo_ge t _ 1

/-- The word token stays within the text. -/
theorem wordEnd_one_le (t : List Char) (h : t ≠ []) : wordEnd t 1 ≤ t.length := by
  apply wordEndGo_le
  rcases t with _ | ⟨c, ts⟩
  · exact absurd rfl h
  · simp

/-- The chunk scan is fuel-independent once the fuel covers the text. -/
theorem splitChunksGo_fuel : ∀ (f1 f2 : Nat) (p : Bool) (t : List Char),
    t.length ≤ f1 → t.length ≤ f2 →
    splitChunksGo f1 p t = splitChunksGo f2 p t := by
  intro f1
  induction f1 with
  | zero =>
    intro f2 p t h1 _
    obtain rfl : t = [] := List.length_eq_zero.mp (by omega)
    rw [splitChunksGo_nil, splitChunksGo_nil]
  | succ f1 ih =>
    intro f2 p t h1 h2
    cases t with
    | nil => rw [splitChunksGo_nil, splitChunksGo_nil]
    | cons c ts =>
      obtain ⟨f2', rfl⟩ : ∃ f2', f2 = f2' + 1 := by
        cases f2
        · simp at h2
        · exact ⟨_, rfl⟩
      rw [splitChunksGo_succ, splitChunksGo_succ]
      by_cases hws : isPyWs c = true
      · rw [if_pos hws, if_pos hws]
        have hrun : 1 ≤ ((c :: ts).takeWhile isPyWs).length := by
          rw [List.takeWhile_cons, if_pos hws]
          simp
        have hd : ((c :: ts).drop ((c :: ts).takeWhile isPyWs).length).length
            ≤ ts.length := by
          rw [List.length_drop]
          simp only [List.length_cons]
          omega
        congr 1
        exact ih f2' false _ (by simp at h1; omega) (by simp at h2; omega)
      · rw [if_neg hws, if_neg hws]
        by_cases hem : (p && emDashAhead (c :: ts)) = true
        · rw [if_pos hem, if_pos hem]
          have hrun : 2 ≤ ((c :: ts).takeWhile (fun x => decide (x = '-'))).length :=
            emDashAhead_run_ge_two (c :: ts) (by
              have := hem
              simp only [Bool.and_eq_true] at this
              exact this.2)
          have hd : ((c :: ts).drop
              ((c :: ts).takeWhile (· = '-')).length).length ≤ ts.length := by
            rw [List.length_drop]
            simp only [List.length_cons]
            omega
          congr 1
          apply ih f2' false
          · calc ((c :: ts).drop ((c :: ts).takeWhile (· = '-')).length).length
                ≤ ts.length := hd
            _ ≤ f1 := by simp at h1; omega
          · calc ((c :: ts).drop ((c :: ts).takeWhile (· = '-')).length).length
                ≤ ts.length := hd
            _ ≤ f2' := by simp at h2; omega
        · rw [if_neg hem, if_neg hem]
          have hk1 : 1 ≤ wordEnd (c :: ts) 1 := wordEnd_one_ge _
          have hd : ((c :: ts).drop (wordEnd (c :: ts) 1)).length ≤ ts.length := by
            rw [List.length_drop]
            simp only [List.length_cons]
            omega
          congr 1
          apply ih f2' _
          · calc ((c :: ts).drop (wordEnd (c :: ts) 1)).length ≤ ts.length := hd
            _ ≤ f1 := by simp at h1; omega
          · calc ((c :: ts).drop (wordEnd (c :: ts) 1)).length ≤ ts.length := hd
            _ ≤ f2' := by simp at h2; omega

/-- Chunking compositionality: the chunks of `word ␣ rest` are the
word's chunks, the space chunk, and the chunks of the rest. -/
theorem splitChunksGo_append_sp : ∀ (n : Nat) (a b : List Char) (p : Bool)
    (fuel : Nat), a.length ≤ n → a ≠ [] → (∀ c ∈ a, isPyWs c = false) →
    b ≠ [] → (∀ x, b.head? = some x → isPyWs x = false) →
    (a ++ ' ' :: b).length ≤ fuel →
    splitChunksGo fuel p (a ++ ' ' :: b) =
      splitChunksGo a.length p a ++ [' '] :: splitChunks b := by
  intro n
  induction n with
  | zero =>
    intro a b p fuel hn ha _ _ _ _
    obtain rfl : a = [] := List.length_eq_zero.mp (by omega)
    exact absurd rfl ha
  | succ n ih =>
    intro a b p fuel hn ha hws hb hbh hfuel
    obtain ⟨c, ts, rfl⟩ : ∃ c ts, a = c :: ts := by
      rcases a with _ | ⟨c, ts⟩
      · exact absurd rfl ha
      · exact ⟨c, ts, rfl⟩
    have hlenf : ts.length + 1 + 1 + b.length ≤ fuel := by
      have := hfuel
      simp [List.length_append] at this
      omega
    obtain ⟨f, rfl⟩ : ∃ f, fuel = f + 1 := by
      cases fuel
      · omega
      · exact ⟨_, rfl⟩
    have hform : (c :: ts) ++ ' ' :: b = c :: (ts ++ ' ' :: b) := rfl
    rw [hform, splitChunksGo_succ, ← hform]
    have hwc : isPyWs c = false := hws c (by simp)
    rw [if_neg (by simp [hwc])]
    have hane : (c :: ts) ≠ [] := by simp
    rw [emDashAhead_append_sp (c :: ts) b hane]
    by_cases hem : (p && emDashAhead (c :: ts)) = true
    · rw [if_pos hem]
      rw [show (c :: ts).length = ts.length + 1 from rfl, splitChunksGo_succ,
        if_neg (by simp [hwc]), if_pos hem]
      have hemt : emDashAhead (c :: ts) = true := by
        simp only [Bool.and_eq_true] at hem
        exact hem.2
      obtain ⟨x, xs, hdw, hxw⟩ := emDashAhead_dropWhile_head (c :: ts) hemt
      have hrun2 : 2 ≤ ((c :: ts).takeWhile (fun ch => decide (ch = '-'))).length :=
        emDashAhead_run_ge_two (c :: ts) hemt
      have hxne : ∃ ch ∈ c :: ts, (fun ch => decide (ch = '-')) ch = false := by
        refine ⟨x, ?_, ?_⟩
        · have hsub := List.dropWhile_sublist (l := c :: ts)
            (p := fun ch => decide (ch = '-'))
          exact hsub.subset (by rw [hdw]; simp)
        · have hh := List.head?_dropWhile_not (fun ch => decide (ch = '-'))
            (c :: ts)
          rw [hdw] at hh
          simpa using hh
      obtain ⟨htw, hdr⟩ := takeWhile_append_of_mem_neg (c :: ts) (' ' :: b) hxne
      rw [drop_takeWhile_len, drop_takeWhile_len, hdr, htw]
      have hsplitlen : ((c :: ts).takeWhile (fun ch => decide (ch = '-'))).length +
          ((c :: ts).dropWhile (fun ch => decide (ch = '-'))).length =
          ts.length + 1 := by
        have h0 := congrArg List.length
          (List.takeWhile_append_dropWhile (p := fun ch => decide (ch = '-'))
            (l := c :: ts))
        rw [List.length_append] at h0
        simp only [List.length_cons] at h0
        omega
      have hdwlen : ((c :: ts).dropWhile (fun ch => decide (ch = '-'))).length ≤
          ts.length - 1 := by omega
      have hdwne : (c :: ts).dropWhile (fun ch => decide (ch = '-')) ≠ [] := by
        rw [hdw]
        simp
      have hdwws : ∀ ch ∈ (c :: ts).dropWhile (fun ch => decide (ch = '-')),
          isPyWs ch = false := by
        intro ch hch
        apply hws
        exact (List.dropWhile_sublist (l := c :: ts)
          (p := fun ch => decide (ch = '-'))).subset hch
      rw [ih _ b false f
        (by simp only [List.length_cons] at hn; omega) hdwne hdwws hb hbh
        (by simp [List.length_append]; omega)]
      rw [splitChunksGo_fuel ts.length
        ((c :: ts).dropWhile (fun ch => decide (ch = '-'))).length false _
        (by omega) le_rfl]
      rfl
    · rw [if_neg hem]
      rw [show (c :: ts).length = ts.length + 1 from rfl, splitChunksGo_succ,
        if_neg (by simp [hwc]), if_neg hem]
      have hke : wordEnd ((c :: ts) ++ ' ' :: b) 1 = wordEnd (c :: ts) 1 :=
        wordEnd_append_sp (c :: ts) b hws 1 (by simp)
      rw [hke]
      have hk1 : 1 ≤ wordEnd (c :: ts) 1 := wordEnd_one_ge _
      have hkle : wordEnd (c :: ts) 1 ≤ ts.length + 1 := by
        have := wordEnd_one_le (c :: ts) (by simp)
        simpa using this
      rw [List.take_append_of_le_length (by simpa using hkle)]
      rw [get?_append_lt (c :: ts) _ (wordEnd (c :: ts) 1 - 1)
        (by simp; omega)]
      rw [List.drop_append_of_le_length (by simpa using hkle)]
      rcases Nat.lt_or_ge (wordEnd (c :: ts) 1) (ts.length + 1) with hklt | hkge
      · have hdne : (c :: ts).drop (wordEnd (c :: ts) 1) ≠ [] := by
          intro hdn
          have := congrArg List.length hdn
          simp at this
          omega
        have hdws : ∀ ch ∈ (c :: ts).drop (wordEnd (c :: ts) 1),
            isPyWs ch = false := by
          intro ch hch
          exact hws ch (List.mem_of_mem_drop hch)
        have hdlen : ((c :: ts).drop (wordEnd (c :: ts) 1)).length ≤ n := by
          rw [List.length_drop]
          simp only [List.length_cons]
          simp only [List.length_cons] at hn
          omega
        rw [ih _ b _ f hdlen hdne hdws hb hbh
          (by simp [List.length_append, List.length_drop]; omega)]
        rw [splitChunksGo_fuel ts.length
          ((c :: ts).drop (wordEnd (c :: ts) 1)).length _ _
          (by rw [List.length_drop]; simp only [List.length_cons]; omega) le_rfl]
        rfl
      · have hkeq : wordEnd (c :: ts) 1 = ts.length + 1 := by omega
        have hdnil : (c :: ts).drop (wordEnd (c :: ts) 1) = [] := by
          rw [hkeq]
          simp
        rw [hdnil, List.nil_append, splitChunksGo_nil]
        obtain ⟨g, rfl⟩ : ∃ g, f = g + 1 := by
          cases f
          · omega
          · exact ⟨_, rfl⟩
        rw [splitChunksGo_succ]
        rw [if_pos (by decide : isPyWs ' ' = true)]
        obtain ⟨x, b', rfl⟩ : ∃ x b', b = x :: b' := by
          rcases b with _ | ⟨x, b'⟩
          · exact absurd rfl hb
          · exact ⟨x, b', rfl⟩
        have hxws : isPyWs x = false := hbh x rfl
        have hrun1 : (' ' :: x :: b').takeWhile isPyWs = [' '] := by
          rw [List.takeWhile_cons, if_pos (by decide : isPyWs ' ' = true),
            List.takeWhile_cons, if_neg (by simp [hxws])]
        rw [hrun1]
        rw [show ((' ' :: x :: b').drop ([' '] : List Char).length) = x :: b'
          from rfl]
        rw [splitChunksGo_fuel g (x :: b').length false _
          (by simp at hlenf ⊢; omega) le_rfl]
        rfl

/-- Chunking compositionality at the top level. -/
theorem splitChunks_append_sp (a b : List Char) (ha : a ≠ [])
    (hws : ∀ c ∈ a, isPyWs c = false) (hb : b ≠ [])
    (hbh : ∀ x, b.head? = some x → isPyWs x = false) :
    splitChunks (a ++ ' ' :: b) = splitChunks a ++ [' '] :: splitChunks b := by
  rw [splitChunks, splitChunks]
  exact splitChunksGo_append_sp a.length a b false _ le_rfl ha hws hb hbh le_rfl

/-- The chunk list of a single-spaced sequence of whitespace-free words
is the per-word chunk groups interleaved with space chunks. -/
theorem splitChunks_joinWith : ∀ ws : List (List Char), ws ≠ [] →
    (∀ w ∈ ws, w ≠ [] ∧ (∀ c ∈ w, isPyWs c = false)) →
    splitChunks (joinWith [' '] ws) = interG (ws.map splitChunks) := by
  intro ws
  induction ws with
  | nil =>
    intro h _
    exact absurd rfl h
  | cons w ws ih =>
    intro _ hgood
    cases ws with
    | nil =>
      show splitChunks w = interG [splitChunks w]
      simp [interG, sepG]
    | cons w2 t =>
      have hjoin : joinWith [' '] (w :: w2 :: t) =
          w ++ ' ' :: joinWith [' '] (w2 :: t) := by
        rw [show joinWith [' '] (w :: w2 :: t) =
          w ++ [' '] ++ joinWith [' '] (w2 :: t) from rfl]
        simp [List.append_assoc]
      rw [hjoin]
      have hw := hgood w (by simp)
      have hw2 := hgood w2 (by simp)
      have hbne : joinWith [' '] (w2 :: t) ≠ [] := by
        have hh := joinWith_head w2 t hw2.1
        intro hnil
        rw [hnil] at hh
        rcases w2 with _ | ⟨x, xs⟩
        · exact absurd rfl hw2.1
        · simp at hh
      have hbh : ∀ x, (joinWith [' '] (w2 :: t)).head? = some x →
          isPyWs x = false := by
        intro x hx
        rw [joinWith_head w2 t hw2.1] at hx
        rcases w2 with _ | ⟨y, ys⟩
        · exact absurd rfl hw2.1
        · obtain rfl : y = x := by simpa using hx
          exact hw2.2 y (by simp)
      rw [splitChunks_append_sp w _ hw.1 hw.2 hbne hbh]
      rw [ih (by simp) (fun q hq => hgood q (List.mem_cons_of_mem _ hq))]
      rw [show List.map splitChunks (w :: w2 :: t) =
        splitChunks w :: List.map splitChunks (w2 :: t) from rfl]
      rw [show interG (splitChunks w :: List.map splitChunks (w2 :: t)) =
        splitChunks w ++ sepG (List.map splitChunks (w2 :: t)) from rfl]
      rw [show List.map splitChunks (w2 :: t) =
        splitChunks w2 :: List.map splitChunks t from rfl, sepG_cons]

/-! ### Re-chunking a truncated word never splits it earlier

When `_wrap_chunks` breaks a line inside a hyphenated word, the next
line starts with a piece of that word.  Re-tokenising the piece on its
own can only merge chunks (every lookahead that made a split fire sees
the same characters or fewer), so the piece's first chunk is at least
as long as the original chunk at that position. -/

/-- Lookups inside a prefix carry over to the full text. -/
theorem get?_take_some {α : Type} (l : List α) (L j : Nat) (x : α)
    (h : (l.take L).get? j = some x) : l.get? j = some x := by
  have hj := get?_some_lt _ _ _ h
  rw [List.length_take] at hj
  rw [← get?_take_lt l L j (by omega)]
  exact h

/-- A satisfied character test inside a prefix carries over. -/
theorem any_take_imp {pr : Char → Bool} (l : List Char) (L j : Nat)
    (h : ((l.take L).get? j).any pr = true) : ((l.get? j).any pr) = true := by
  rcases hg : (l.take L).get? j with _ | x
  · rw [hg] at h
    simp at h
  · rw [get?_take_some l L j x hg]
    rw [hg] at h
    exact h

/-- A hyphen split that fires inside a prefix fires in the full text. -/
theorem hyphenSplitAt_take_imp (t : List Char) (L k : Nat)
    (h : hyphenSplitAt (t.take L) k = true) : hyphenSplitAt t k = true := by
  rw [hyphenSplitAt] at h ⊢
  simp only [Bool.and_eq_true, Bool.or_eq_true] at h ⊢
  obtain ⟨⟨⟨hA, hB⟩, hC⟩, hD⟩ := h
  refine ⟨⟨⟨?_, ?_⟩, ?_⟩, ?_⟩
  · exact decide_eq_true (get?_take_some t L k '-' (of_decide_eq_true hA))
  · rcases hB with ⟨⟨h2k, hb2⟩, hb1⟩ | ⟨⟨⟨h3k, hb3⟩, hb2⟩, hb1⟩
    · exact Or.inl ⟨⟨h2k, any_take_imp t L (k - 2) hb2⟩,
        any_take_imp t L (k - 1) hb1⟩
    · exact Or.inr ⟨⟨⟨h3k, any_take_imp t L (k - 3) hb3⟩,
        decide_eq_true (get?_take_some t L (k - 2) '-' (of_decide_eq_true hb2))⟩,
        any_take_imp t L (k - 1) hb1⟩
  · exact any_take_imp t L (k + 1) hC
  · rcases hD with hD | ⟨hd2, hd3⟩
    · exact Or.inl (any_take_imp t L (k + 2) hD)
    · exact Or.inr ⟨decide_eq_true
        (get?_take_some t L (k + 2) '-' (of_decide_eq_true hd2)),
        any_take_imp t L (k + 3) hd3⟩

/-- `takeWhile` commutes with `take`. -/
theorem takeWhile_take_comm {pr : Char → Bool} : ∀ (l : List Char) (m : Nat),
    (l.take m).takeWhile pr = (l.takeWhile pr).take m := by
  intro l
  induction l with
  | nil => intro m; simp
  | cons c l ih =>
    intro m
    cases m with
    | zero => simp
    | succ m =>
      rw [List.take_succ_cons, List.takeWhile_cons, List.takeWhile_cons]
      by_cases hc : pr c = true
      · rw [if_pos hc, if_pos hc, List.take_succ_cons, ih]
      · rw [if_neg hc, if_neg hc]
        simp

/-- `dropWhile` of a prefix is a prefix of `dropWhile`. -/
theorem dropWhile_take_comm {pr : Char → Bool} : ∀ (l : List Char) (m : Nat),
    (l.take m).dropWhile pr =
      (l.dropWhile pr).take (m - (l.takeWhile pr).length) := by
  intro l
  induction l with
  | nil => intro m; simp
  | cons c l ih =>
    intro m
    cases m with
    | zero => simp
    | succ m =>
      rw [List.take_succ_cons, List.dropWhile_cons, List.dropWhile_cons,
        List.takeWhile_cons]
      by_cases hc : pr c = true
      · rw [if_pos hc, if_pos hc, if_pos hc, ih]
        congr 1
        simp
      · rw [if_neg hc, if_neg hc, if_neg hc]
        simp

/-- An em-dash lookahead that fires inside a prefix fires in the full
text. -/
theorem emDashAhead_take_imp (u : List Char) (m : Nat)
    (h : emDashAhead (u.take m) = true) : emDashAhead u = true := by
  rw [emDashAhead] at h
  rw [takeWhile_take_comm, dropWhile_take_comm] at h
  rw [emDashAhead]
  simp only [Bool.and_eq_true] at h ⊢
  constructor
  · have h1 := of_decide_eq_true h.1
    rw [List.length_take] at h1
    exact decide_eq_true (by omega :
      2 ≤ (u.takeWhile (fun c => decide (c = '-'))).length)
  · have h2 := h.2
    rcases hd : u.dropWhile (fun c => decide (c = '-')) with _ | ⟨x, xs⟩
    · rw [hd] at h2
      simp at h2
    · rw [hd] at h2
      rcases hmr : m - (u.takeWhile (fun c => decide (c = '-'))).length with _ | q
      · rw [hmr] at h2
        simp at h2
      · rw [hmr, List.take_succ_cons] at h2
        exact h2

/-- Two initial elements of a long `takeWhile`. -/
theorem takeWhile_len_two {pr : Char → Bool} (u : List Char)
    (h : 2 ≤ (u.takeWhile pr).length) :
    ∃ c0 c1 rest, u = c0 :: c1 :: rest ∧ pr c0 = true ∧ pr c1 = true := by
  rcases u with _ | ⟨c0, _ | ⟨c1, rest⟩⟩
  · simp at h
  · rw [List.takeWhile_cons] at h
    by_cases h0 : pr c0 = true
    · rw [if_pos h0] at h
      simp at h
    · rw [if_neg h0] at h
      simp at h
  · rw [List.takeWhile_cons] at h
    by_cases h0 : pr c0 = true
    · rw [if_pos h0, List.takeWhile_cons] at h
      by_cases h1 : pr c1 = true
      · exact ⟨c0, c1, rest, rfl, h0, h1⟩
      · rw [if_neg h1] at h
        simp at h
    · rw [if_neg h0] at h
      simp at h

/-- The word scan of a prefix stops no earlier than the full word's scan
(clipped at the prefix end). -/
theorem wordEndGo_take_ge (t : List Char) : ∀ (fuel L k : Nat), k ≤ L →
    min (wordEndGo t k fuel) L ≤ wordEndGo (t.take L) k fuel := by
  intro fuel
  induction fuel with
  | zero =>
    intro L k _
    exact min_le_left k L
  | succ fuel ih =>
    intro L k hk
    by_cases hpre : (t.take L).length ≤ k
    · rw [show wordEndGo (t.take L) k (fuel + 1) = k from by
        rw [wordEndGo, if_pos hpre]]
      rcases Nat.lt_or_ge k t.length with hlt | hge
      · have hL : L ≤ k := by
          rw [List.length_take] at hpre
          omega
        have hmr : min (wordEndGo t k (fuel + 1)) L ≤ L := min_le_right _ _
        omega
      · rw [show wordEndGo t k (fuel + 1) = k from by
          rw [wordEndGo, if_pos hge]]
        exact min_le_left _ _
    · have hkL : k < L := by
        rw [List.length_take] at hpre
        omega
      have hkt : k < t.length := by
        rw [List.length_take] at hpre
        omega
      have ht_eq : wordEndGo t k (fuel + 1) =
          (if t.length ≤ k then k
           else if hyphenSplitAt t k then k + 1
           else if (t.get? k).any isPyWs then k
           else if (t.get? (k - 1)).any isWordPunct && emDashAhead (t.drop k)
           then k
           else wordEndGo t (k + 1) fuel) := by
        rw [wordEndGo]
      have hp_eq : wordEndGo (t.take L) k (fuel + 1) =
          (if (t.take L).length ≤ k then k
           else if hyphenSplitAt (t.take L) k then k + 1
           else if ((t.take L).get? k).any isPyWs then k
           else if ((t.take L).get? (k - 1)).any isWordPunct &&
             emDashAhead ((t.take L).drop k) then k
           else wordEndGo (t.take L) (k + 1) fuel) := by
        rw [wordEndGo]
      rw [ht_eq, hp_eq, if_neg (by omega : ¬ t.length ≤ k), if_neg hpre]
      by_cases hhp : hyphenSplitAt (t.take L) k = true
      · rw [if_pos hhp, if_pos (hyphenSplitAt_take_imp t L k hhp)]
        exact min_le_left _ _
      · rw [if_neg hhp]
        by_cases hht : hyphenSplitAt t k = true
        · rw [if_pos hht]
          have hdash : t.get? k = some '-' := by
            rw [hyphenSplitAt] at hht
            simp only [Bool.and_eq_true] at hht
            exact of_decide_eq_true hht.1.1.1
          have hlet : ∃ y, t.get? (k + 1) = some y ∧ isLetterChar y = true := by
            rw [hyphenSplitAt] at hht
            simp only [Bool.and_eq_true] at hht
            have hC := hht.1.2
            rcases hg : t.get? (k + 1) with _ | y
            · rw [hg] at hC
              simp at hC
            · rw [hg] at hC
              exact ⟨y, rfl, hC⟩
          rw [show (t.take L).get? k = t.get? k from get?_take_lt t L k hkL]
          rw [if_neg (by rw [hdash]; decide)]
          by_cases hep : (((t.take L).get? (k - 1)).any isWordPunct &&
              emDashAhead ((t.take L).drop k)) = true
          · exfalso
            simp only [Bool.and_eq_true] at hep
            have hrun2 := emDashAhead_run_ge_two _ hep.2
            obtain ⟨c0, c1, rest, hu, hp0, hp1⟩ :=
              takeWhile_len_two _ hrun2
            have hc1 : ((t.take L).drop k).get? 1 = some c1 := by
              rw [hu]
              rfl
            rw [List.get?_drop] at hc1
            obtain ⟨y, hy, hyl⟩ := hlet
            have hc1' : t.get? (k + 1) = some c1 :=
              get?_take_some t L (k + 1) c1 hc1
            rw [hy] at hc1'
            have hy2 : y = c1 := by simpa using hc1'
            have hdl : c1 = '-' := of_decide_eq_true hp1
            rw [hy2, hdl] at hyl
            exact absurd hyl (by decide)
          · rw [if_neg hep]
            have hge2 := wordEndGo_ge (t.take L) fuel (k + 1)
            have hmle : min (k + 1) L ≤ k + 1 := min_le_left _ _
            omega
        · rw [if_neg hht]
          rw [show (t.take L).get? k = t.get? k from get?_take_lt t L k hkL]
          by_cases hwt : ((t.get? k).any isPyWs) = true
          · rw [if_pos hwt, if_pos hwt]
            exact min_le_left _ _
          · rw [if_neg hwt, if_neg hwt]
            rw [show (t.take L).get? (k - 1) = t.get? (k - 1) from
              get?_take_lt t L (k - 1) (by omega)]
            have hdropeq : (t.take L).drop k = (t.drop k).take (L - k) :=
              List.drop_take L k t
            by_cases het : emDashAhead (t.drop k) = true
            · by_cases hwp : ((t.get? (k - 1)).any isWordPunct) = true
              · rw [if_pos (by rw [hwp, het]; rfl)]
                by_cases hep : emDashAhead ((t.take L).drop k) = true
                · rw [if_pos (by rw [hwp, hep]; rfl)]
                  exact min_le_left _ _
                · rw [if_neg (by
                    intro hcon
                    rw [Bool.and_eq_true] at hcon
                    exact hep hcon.2)]
                  have hge2 := wordEndGo_ge (t.take L) fuel (k + 1)
                  have hmle : min k L ≤ k := min_le_left _ _
                  omega
              · rw [if_neg (by
                  intro hcon
                  rw [Bool.and_eq_true] at hcon
                  exact hwp hcon.1), if_neg (by
                  intro hcon
                  rw [Bool.and_eq_true] at hcon
                  exact hwp hcon.1)]
                exact ih L (k + 1) (by omega)
            · have hepf : ¬ emDashAhead ((t.take L).drop k) = true := by
                intro he
                rw [hdropeq] at he
                exact het (emDashAhead_take_imp (t.drop k) (L - k) he)
              rw [if_neg (by
                intro hcon
                rw [Bool.and_eq_true] at hcon
                exact het hcon.2), if_neg (by
                intro hcon
                rw [Bool.and_eq_true] at hcon
                exact hepf hcon.2)]
              exact ih L (k + 1) (by omega)

/-- The word scan runs through an initial hyphen run. -/
theorem wordEndGo_run_lb (u : List Char) (j : Nat) (h2 : 2 ≤ j)
    (hrun : ∀ i, i < j → u.get? i = some '-') :
    ∀ (fuel k : Nat), 1 ≤ k → k ≤ j → j ≤ k + fuel → j ≤ wordEndGo u k fuel := by
  intro fuel
  induction fuel with
  | zero =>
    intro k h1 hkj hfu
    show j ≤ k
    omega
  | succ fuel ih =>
    intro k h1 hkj hfu
    rcases Nat.lt_or_ge k j with hlt | hge
    · have hk_dash : u.get? k = some '-' := hrun k hlt
      have hklen : k < u.length := get?_some_lt _ _ _ hk_dash
      have hkm1 : u.get? (k - 1) = some '-' := hrun (k - 1) (by omega)
      rw [wordEndGo, if_neg (by omega : ¬ u.length ≤ k)]
      have hhf : hyphenSplitAt u k = false := by
        rw [hyphenSplitAt, hkm1]
        have hlm : (some '-').any isLetterChar = false := by decide
        rw [hlm]
        simp
      rw [if_neg (by simp [hhf]), hk_dash]
      rw [if_neg (by decide : ¬ (((some '-').any isPyWs) = true))]
      rw [hkm1]
      rw [if_neg (by
        have : (some '-').any isWordPunct = false := by decide
        simp [this])]
      exact ih (k + 1) (by omega) (by omega) (by omega)
    · have hge2 := wordEndGo_ge u (fuel + 1) k
      omega

/-- Positions inside a `takeWhile` run satisfy the predicate. -/
theorem takeWhile_pos {pr : Char → Bool} : ∀ (l : List Char) (i : Nat),
    i < (l.takeWhile pr).length → ∃ x, l.get? i = some x ∧ pr x = true := by
  intro l
  induction l with
  | nil =>
    intro i h
    simp at h
  | cons c l ih =>
    intro i h
    rw [List.takeWhile_cons] at h
    by_cases hc : pr c = true
    · rw [if_pos hc] at h
      cases i with
      | zero => exact ⟨c, rfl, hc⟩
      | succ i => exact ih i (by simpa using h)
    · rw [if_neg hc] at h
      simp at h

/-- Truncation stability of a chunk group: at every suffix, the first
chunk re-tokenises to at least its own length, whatever prefix of the
suffix's text survives on a line. -/
def grpInv (g : List (List Char)) : Prop :=
  ∀ j L, g.drop j ≠ [] → ((g.drop j).headD []).length ≤ L →
    ((g.drop j).headD []).length ≤ wordEnd (((g.drop j).flatten).take L) 1

/-- Soundness of the chunk scan on whitespace-free text: the chunks
flatten back to the text, are non-empty and whitespace-free, and the
group is truncation-stable. -/
theorem chunkSound : ∀ (n : Nat) (t : List Char) (p : Bool), t.length ≤ n →
    t ≠ [] → (∀ c ∈ t, isPyWs c = false) →
    (splitChunksGo t.length p t).flatten = t ∧
    (∀ c ∈ splitChunksGo t.length p t, c ≠ [] ∧ ∀ x ∈ c, isPyWs x = false) ∧
    splitChunksGo t.length p t ≠ [] ∧
    grpInv (splitChunksGo t.length p t) := by
  intro n
  induction n with
  | zero =>
    intro t p hn ht _
    obtain rfl : t = [] := List.length_eq_zero.mp (by omega)
    exact absurd rfl ht
  | succ n ih =>
    intro t p hn ht hws
    obtain ⟨c, ts, rfl⟩ : ∃ c ts, t = c :: ts := by
      rcases t with _ | ⟨c, ts⟩
      · exact absurd rfl ht
      · exact ⟨c, ts, rfl⟩
    simp only [List.length_cons] at hn
    have hwc : isPyWs c = false := hws c (by simp)
    rw [show (c :: ts).length = ts.length + 1 from rfl, splitChunksGo_succ,
      if_neg (by simp [hwc])]
    by_cases hem : (p && emDashAhead (c :: ts)) = true
    · rw [if_pos hem]
      have hemt : emDashAhead (c :: ts) = true := by
        simp only [Bool.and_eq_true] at hem
        exact hem.2
      have hrun2 : 2 ≤ ((c :: ts).takeWhile (fun ch => decide (ch = '-'))).length :=
        emDashAhead_run_ge_two _ hemt
      obtain ⟨x, xs, hdw, hxw⟩ := emDashAhead_dropWhile_head _ hemt
      rw [drop_takeWhile_len]
      have hlen_split :
          ((c :: ts).takeWhile (fun ch => decide (ch = '-'))).length +
            ((c :: ts).dropWhile (fun ch => decide (ch = '-'))).length =
          ts.length + 1 := by
        have h0 := congrArg List.length
          (List.takeWhile_append_dropWhile (p := fun ch => decide (ch = '-'))
            (l := c :: ts))
        rw [List.length_append] at h0
        simp only [List.length_cons] at h0
        omega
      have ht'ne : (c :: ts).dropWhile (fun ch => decide (ch = '-')) ≠ [] := by
        rw [hdw]
        simp
      have ht'ws : ∀ ch ∈ (c :: ts).dropWhile (fun ch => decide (ch = '-')),
          isPyWs ch = false := fun ch hch =>
        hws ch ((List.dropWhile_sublist (l := c :: ts)
          (p := fun ch => decide (ch = '-'))).subset hch)
      have ht'len : ((c :: ts).dropWhile (fun ch => decide (ch = '-'))).length ≤ n := by
        omega
      rw [splitChunksGo_fuel ts.length
        ((c :: ts).dropWhile (fun ch => decide (ch = '-'))).length false _
        (by omega) le_rfl]
      obtain ⟨hfl, hch, hne, hinv⟩ := ih _ false ht'len ht'ne ht'ws
      have hrun_ne : (c :: ts).takeWhile (fun ch => decide (ch = '-')) ≠ [] := by
        intro h0
        rw [h0] at hrun2
        simp at hrun2
      have hrun_ws : ∀ ch ∈ (c :: ts).takeWhile (fun ch => decide (ch = '-')),
          isPyWs ch = false := by
        intro ch hch2
        have hmem := List.mem_takeWhile_imp hch2
        have hd : ch = '-' := by simpa using hmem
        rw [hd]
        decide
      refine ⟨?_, ?_, by simp, ?_⟩
      · rw [List.flatten_cons, hfl, List.takeWhile_append_dropWhile]
      · intro ch hch2
        rcases List.mem_cons.mp hch2 with rfl | hch2
        · exact ⟨hrun_ne, hrun_ws⟩
        · exact hch ch hch2
      · intro j L hjne hjlen
        cases j with
        | zero =>
          simp only [List.drop_zero, List.headD_cons] at hjne hjlen ⊢
          rw [List.flatten_cons, hfl, List.takeWhile_append_dropWhile]
          have hrunle : ((c :: ts).takeWhile (fun ch => decide (ch = '-'))).length ≤
              ts.length + 1 := by omega
          have hruni : ∀ i,
              i < ((c :: ts).takeWhile (fun ch => decide (ch = '-'))).length →
              ((c :: ts).take L).get? i = some '-' := by
            intro i hi
            obtain ⟨y, hy, hpy⟩ := takeWhile_pos (c :: ts) i hi
            have hyd : y = '-' := by simpa using hpy
            rw [get?_take_lt (c :: ts) L i (by omega), hy, hyd]
          show ((c :: ts).takeWhile (fun ch => decide (ch = '-'))).length ≤
            wordEndGo ((c :: ts).take L) 1 (((c :: ts).take L).length + 1 - 1)
          exact wordEndGo_run_lb _ _ hrun2 hruni _ 1 le_rfl (by omega)
            (by rw [List.length_take]; simp only [List.length_cons]; omega)
        | succ j =>
          rw [List.drop_succ_cons] at hjne hjlen ⊢
          exact hinv j L hjne hjlen
    · rw [if_neg hem]
      have hk1 : 1 ≤ wordEnd (c :: ts) 1 := wordEnd_one_ge _
      have hkle : wordEnd (c :: ts) 1 ≤ ts.length + 1 := by
        have := wordEnd_one_le (c :: ts) (by simp)
        simpa using this
      have htake_len : ((c :: ts).take (wordEnd (c :: ts) 1)).length =
          wordEnd (c :: ts) 1 := by
        rw [List.length_take]
        simp only [List.length_cons]
        omega
      have htake_ne : (c :: ts).take (wordEnd (c :: ts) 1) ≠ [] := by
        intro h0
        have hl0 := congrArg List.length h0
        rw [htake_len] at hl0
        simp at hl0
        omega
      have htake_ws : ∀ ch ∈ (c :: ts).take (wordEnd (c :: ts) 1),
          isPyWs ch = false :=
        fun ch hch => hws ch (List.take_subset _ _ hch)
      rcases Nat.lt_or_ge (wordEnd (c :: ts) 1) (ts.length + 1) with hklt | hkge
      · have hdne : (c :: ts).drop (wordEnd (c :: ts) 1) ≠ [] := by
          intro hdn
          have := congrArg List.length hdn
          rw [List.length_drop] at this
          simp only [List.length_cons] at this
          simp at this
          omega
        have hdws : ∀ ch ∈ (c :: ts).drop (wordEnd (c :: ts) 1),
            isPyWs ch = false :=
          fun ch hch => hws ch (List.mem_of_mem_drop hch)
        have hdlen : ((c :: ts).drop (wordEnd (c :: ts) 1)).length ≤ n := by
          rw [List.length_drop]
          simp only [List.length_cons]
          omega
        rw [splitChunksGo_fuel ts.length
          ((c :: ts).drop (wordEnd (c :: ts) 1)).length _ _
          (by rw [List.length_drop]; simp only [List.length_cons]; omega) le_rfl]
        obtain ⟨hfl, hch, hne, hinv⟩ := ih _ _ hdlen hdne hdws
        refine ⟨?_, ?_, by simp, ?_⟩
        · rw [List.flatten_cons, hfl, List.take_append_drop]
        · intro ch hch2
          rcases List.mem_cons.mp hch2 with rfl | hch2
          · exact ⟨htake_ne, htake_ws⟩
          · exact hch ch hch2
        · intro j L hjne hjlen
          cases j with
          | zero =>
            simp only [List.drop_zero, List.headD_cons] at hjne hjlen ⊢
            rw [List.flatten_cons, hfl, List.take_append_drop]
            rw [htake_len] at hjlen ⊢
            have hmono := wordEndGo_take_ge (c :: ts) (ts.length + 1) L 1
              (by omega)
            have hfeq : wordEndGo ((c :: ts).take L) 1 (ts.length + 1) =
                wordEnd ((c :: ts).take L) 1 := by
              rw [wordEnd]
              apply wordEndGo_fuel_eq
              · rw [List.length_take]
                simp only [List.length_cons]
                omega
              · rw [List.length_take]
                simp only [List.length_cons]
                omega
            have hteq : wordEndGo (c :: ts) 1 (ts.length + 1) =
                wordEnd (c :: ts) 1 := rfl
            rw [hteq, hfeq] at hmono
            have : min (wordEnd (c :: ts) 1) L = wordEnd (c :: ts) 1 := by
              omega
            omega
          | succ j =>
            rw [List.drop_succ_cons] at hjne hjlen ⊢
            exact hinv j L hjne hjlen
      · have hkeq : wordEnd (c :: ts) 1 = ts.length + 1 := by omega
        have hdnil : (c :: ts).drop (wordEnd (c :: ts) 1) = [] := by
          rw [hkeq]
          simp
        rw [hdnil, splitChunksGo_nil]
        have htake_all : (c :: ts).take (wordEnd (c :: ts) 1) = c :: ts := by
          rw [hkeq]
          exact List.take_of_length_le (by simp)
        refine ⟨?_, ?_, by simp, ?_⟩
        · simp [htake_all]
        · intro ch hch2
          rcases List.mem_cons.mp hch2 with rfl | hch2
          · exact ⟨htake_ne, htake_ws⟩
          · simp at hch2
        · intro j L hjne hjlen
          cases j with
          | zero =>
            simp only [List.drop_zero, List.headD_cons] at hjne hjlen ⊢
            rw [show ([(c :: ts).take (wordEnd (c :: ts) 1)] :
                List (List Char)).flatten = (c :: ts).take (wordEnd (c :: ts) 1)
              from by simp]
            rw [htake_all] at hjlen ⊢
            rw [List.take_of_length_le (by
              simp only [List.length_cons]
              have h1 := hjlen
              simp only [List.length_cons] at h1
              omega)]
            rw [hkeq]
            simp
          | succ j =>
            rw [List.drop_succ_cons] at hjne
            simp at hjne

/-- The chunks of a whitespace-free word flatten back to the word. -/
theorem splitChunks_flatten (w : List Char) (hne : w ≠ [])
    (hws : ∀ c ∈ w, isPyWs c = false) : (splitChunks w).flatten = w :=
  (chunkSound w.length w false le_rfl hne hws).1

/-- The chunks of a whitespace-free word are non-empty and
whitespace-free. -/
theorem splitChunks_chunks (w : List Char) (hne : w ≠ [])
    (hws : ∀ c ∈ w, isPyWs c = false) :
    ∀ c ∈ splitChunks w, c ≠ [] ∧ ∀ x ∈ c, isPyWs x = false :=
  (chunkSound w.length w false le_rfl hne hws).2.1

/-- A non-empty whitespace-free word has chunks. -/
theorem splitChunks_ne_nil (w : List Char) (hne : w ≠ [])
    (hws : ∀ c ∈ w, isPyWs c = false) : splitChunks w ≠ [] :=
  (chunkSound w.length w false le_rfl hne hws).2.2.1

/-- The chunk group of a whitespace-free word is truncation-stable. -/
theorem grpInv_splitChunks (w : List Char) (hne : w ≠ [])
    (hws : ∀ c ∈ w, isPyWs c = false) : grpInv (splitChunks w) :=
  (chunkSound w.length w false le_rfl hne hws).2.2.2

/-- A well-behaved group of the wrap stream: non-empty, whitespace-free
non-empty chunks, at most 80 columns wide, truncation-stable. -/
def goodGrp (g : List (List Char)) : Prop :=
  g ≠ [] ∧ (∀ c ∈ g, c ≠ [] ∧ ∀ x ∈ c, isPyWs x = false) ∧ glen g ≤ 80 ∧
    grpInv g

/-- The whitespace-free characters of a good word. -/
theorem goodWord_chars (w : List Char) (hw : goodWordB w = true) :
    ∀ c ∈ w, isPyWs c = false := by
  have h := hw
  simp only [goodWordB, Bool.and_eq_true, List.all_eq_true] at h
  intro c hc
  simpa using h.2 c hc

/-- A good word's chunk group is well-behaved. -/
theorem goodGrp_of_word (w : List Char) (hw : goodWordB w = true) :
    goodGrp (splitChunks w) := by
  have hne : w ≠ [] := goodWord_ne_nil w hw
  have hws : ∀ c ∈ w, isPyWs c = false := goodWord_chars w hw
  refine ⟨splitChunks_ne_nil w hne hws, splitChunks_chunks w hne hws, ?_,
    grpInv_splitChunks w hne hws⟩
  rw [glen_eq_flatten, splitChunks_flatten w hne hws]
  exact goodWord_length w hw

/-- Good groups stay good when a line break eats their front chunks. -/
theorem goodGrp_drop (g : List (List Char)) (j : Nat) (hg : goodGrp g)
    (hne : g.drop j ≠ []) : goodGrp (g.drop j) := by
  obtain ⟨h1, h2, h3, h4⟩ := hg
  refine ⟨hne, fun c hc => h2 c (List.mem_of_mem_drop hc), ?_, ?_⟩
  · have hsum : glen (g.take j) + glen (g.drop j) = glen g := by
      rw [← glen_append, List.take_append_drop]
    omega
  · intro j' L hne' hlen'
    rw [List.drop_drop] at hne' hlen' ⊢
    exact h4 _ L hne' hlen'

/-! ### The inner chunk-fitting walk of `_wrap_chunks` -/

/-- `takeWhileFit` partitions its input. -/
theorem takeWhileFit_partition (cs : List (List Char)) : ∀ (cur : Nat),
    (takeWhileFit cs cur).1 ++ (takeWhileFit cs cur).2 = cs := by
  induction cs with
  | nil => intro cur; rfl
  | cons c rest ih =>
    intro cur
    rw [takeWhileFit]
    by_cases h : cur + c.length ≤ 80
    · rw [if_pos h, List.cons_append, ih]
    · rw [if_neg h]
      rfl

/-- When everything fits, everything is taken. -/
theorem takeWhileFit_all (cs : List (List Char)) : ∀ (cur : Nat),
    cur + glen cs ≤ 80 → takeWhileFit cs cur = (cs, []) := by
  induction cs with
  | nil => intro cur _; rfl
  | cons c rest ih =>
    intro cur h
    rw [glen_cons] at h
    rw [takeWhileFit, if_pos (by omega), ih (cur + c.length) (by omega)]

/-- Walking an append whose left part fits entirely. -/
theorem takeWhileFit_append_all (cs rest : List (List Char)) : ∀ (cur : Nat),
    cur + glen cs ≤ 80 →
    takeWhileFit (cs ++ rest) cur =
      (cs ++ (takeWhileFit rest (cur + glen cs)).1,
        (takeWhileFit rest (cur + glen cs)).2) := by
  induction cs with
  | nil =>
    intro cur _
    simp [glen]
  | cons c cs ih =>
    intro cur h
    rw [glen_cons] at h
    rw [glen_cons, ← Nat.add_assoc]
    rw [List.cons_append, takeWhileFit, if_pos (by omega)]
    rw [ih (cur + c.length) (by omega)]
    rfl

/-- Walking an append that stops inside the left part. -/
theorem takeWhileFit_append_stop (cs rest : List (List Char)) : ∀ (cur : Nat),
    (takeWhileFit cs cur).2 ≠ [] →
    takeWhileFit (cs ++ rest) cur =
      ((takeWhileFit cs cur).1, (takeWhileFit cs cur).2 ++ rest) := by
  induction cs with
  | nil =>
    intro cur h
    exact absurd rfl h
  | cons c cs ih =>
    intro cur h
    by_cases hf : cur + c.length ≤ 80
    · have h2 : (takeWhileFit cs (cur + c.length)).2 ≠ [] := by
        rw [takeWhileFit, if_pos hf] at h
        exact h
      rw [List.cons_append, takeWhileFit, if_pos hf, ih _ h2]
      rw [show takeWhileFit (c :: cs) cur =
        (c :: (takeWhileFit cs (cur + c.length)).1,
          (takeWhileFit cs (cur + c.length)).2) from by
        rw [takeWhileFit, if_pos hf]]
    · rw [List.cons_append, takeWhileFit, if_neg hf]
      rw [show takeWhileFit (c :: cs) cur = ([], c :: cs) from by
        rw [takeWhileFit, if_neg hf]]
      rfl

/-- The taken chunks never overflow the width. -/
theorem takeWhileFit_taken_le (cs : List (List Char)) : ∀ (cur : Nat),
    cur ≤ 80 → cur + glen (takeWhileFit cs cur).1 ≤ 80 := by
  induction cs with
  | nil =>
    intro cur h
    simpa [takeWhileFit, glen]
  | cons c cs ih =>
    intro cur h
    rw [takeWhileFit]
    by_cases hf : cur + c.length ≤ 80
    · rw [if_pos hf]
      have := ih (cur + c.length) hf
      rw [glen_cons]
      omega
    · rw [if_neg hf]
      simpa [glen]

/-- The first chunk left behind did not fit. -/
theorem takeWhileFit_stop_gt (cs : List (List Char)) : ∀ (cur : Nat)
    (c : List Char) (r : List (List Char)),
    (takeWhileFit cs cur).2 = c :: r →
    80 < cur + glen (takeWhileFit cs cur).1 + c.length := by
  induction cs with
  | nil =>
    intro cur c r h
    simp [takeWhileFit] at h
  | cons c0 cs ih =>
    intro cur c r h
    by_cases hf : cur + c0.length ≤ 80
    · rw [takeWhileFit, if_pos hf] at h ⊢
      have := ih (cur + c0.length) c r h
      rw [glen_cons]
      omega
    · rw [takeWhileFit, if_neg hf] at h ⊢
      have h' : c0 :: cs = c :: r := h
      injection h' with h1 h2
      subst h1
      simp only [glen, List.map_nil, List.sum_nil]
      omega

/-! ### Building one line of `_wrap_chunks` on a good stream -/

/-- The flatten of a non-empty list of non-empty chunks is non-empty. -/
theorem flatten_ne_nil (h : List (List Char)) (hne : h ≠ [])
    (hch : ∀ c ∈ h, c ≠ []) : h.flatten ≠ [] := by
  rcases h with _ | ⟨c, t⟩
  · exact absurd rfl hne
  · have hc : c ≠ [] := hch c (by simp)
    rcases c with _ | ⟨x, c'⟩
    · exact absurd rfl hc
    · simp

/-- The current group followed by the separated trailing groups flattens
to the single-space join of the flattened groups. -/
theorem flatten_h_sepG (h : List (List Char)) (gs : List (List (List Char))) :
    (h ++ sepG gs).flatten =
      joinWith [' '] (h.flatten :: gs.map (fun g => g.flatten)) := by
  rw [show h ++ sepG gs = interG (h :: gs) from rfl, flatten_interG]
  rfl

/-- The length of that join is the character measure of the stream. -/
theorem joinWith_len_interG (h : List (List Char))
    (gs : List (List (List Char))) :
    (joinWith [' '] (h.flatten :: gs.map (fun g => g.flatten))).length =
      glen (h ++ sepG gs) := by
  rw [glen_eq_flatten, flatten_h_sepG]

/-- The last chunk of a good stream is not whitespace. -/
theorem getLast_interG_nonws : ∀ (gs : List (List (List Char)))
    (h : List (List Char)), h ≠ [] →
    (∀ c ∈ h, c ≠ [] ∧ ∀ x ∈ c, isPyWs x = false) →
    (∀ g ∈ gs, g ≠ [] ∧ ∀ c ∈ g, c ≠ [] ∧ ∀ x ∈ c, isPyWs x = false) →
    ∃ c, (h ++ sepG gs).getLast? = some c ∧ isWsChunk c = false := by
  intro gs
  induction gs with
  | nil =>
    intro h hne hch _
    refine ⟨h.getLast hne, ?_, ?_⟩
    · rw [show sepG [] = ([] : List (List Char)) from rfl, List.append_nil]
      exact List.getLast?_eq_getLast h hne
    · obtain ⟨hcne, hcws⟩ := hch _ (List.getLast_mem hne)
      exact isWsChunk_false_of _ hcne hcws
  | cons g gs ih =>
    intro h hne hch hgs
    obtain ⟨hgne, hgch⟩ := hgs g (by simp)
    obtain ⟨c, hc1, hc2⟩ := ih g hgne hgch
      (fun g' hg' => hgs g' (List.mem_cons_of_mem _ hg'))
    refine ⟨c, ?_, hc2⟩
    have hgx : g ++ sepG gs ≠ [] := by
      rcases g with _ | ⟨x, t⟩
      · exact absurd rfl hgne
      · simp
    rw [show sepG (g :: gs) = [' '] :: (g ++ sepG gs) from rfl]
    rw [List.getLast?_append_of_ne_nil _ (show [' '] :: (g ++ sepG gs) ≠ []
      by simp)]
    rw [show ([' '] :: (g ++ sepG gs)) = [[' ']] ++ (g ++ sepG gs) from rfl]
    rw [List.getLast?_append_of_ne_nil _ hgx]
    exact hc1

/-- A walk that cannot finish a group stops inside it, right before a
chunk that overflows. -/
theorem inGroupWalk : ∀ (g : List (List Char)) (cur : Nat),
    cur ≤ 80 → 80 < cur + glen g →
    ∃ j, takeWhileFit g cur = (g.take j, g.drop j) ∧ g.drop j ≠ [] ∧
      cur + glen (g.take j) ≤ 80 ∧
      80 < cur + glen (g.take j) + ((g.drop j).headD []).length := by
  intro g
  induction g with
  | nil =>
    intro cur hc hg
    simp [glen] at hg
    omega
  | cons c t ih =>
    intro cur hc hg
    by_cases hf : cur + c.length ≤ 80
    · rw [glen_cons] at hg
      obtain ⟨j, h1, h2, h3, h4⟩ := ih (cur + c.length) hf (by omega)
      refine ⟨j + 1, ?_, ?_, ?_, ?_⟩
      · rw [takeWhileFit, if_pos hf, h1, List.take_succ_cons,
          List.drop_succ_cons]
      · rw [List.drop_succ_cons]
        exact h2
      · rw [List.take_succ_cons, glen_cons]
        omega
      · rw [List.take_succ_cons, List.drop_succ_cons, glen_cons]
        omega
    · refine ⟨0, ?_, by simp, by simpa [glen] using hc, ?_⟩
      · rw [takeWhileFit, if_neg hf]
        rfl
      · simp only [List.take_zero, List.drop_zero, List.headD_cons]
        simp [glen]
        omega

/-- Evaluating one `buildLine` iteration when the inner walk is known and
the taken chunks end in a non-whitespace chunk. -/
theorem buildLine_eval (b : Bool) (cs taken rest : List (List Char))
    (hdrop : dropLeadingWs b cs = cs)
    (hwalk : takeWhileFit cs 0 = (taken, rest))
    (hrest : rest = [] ∨ ∃ c r, rest = c :: r ∧ c.length ≤ 80)
    (hne : taken ≠ [])
    (hlast : ∃ c, taken.getLast? = some c ∧ isWsChunk c = false) :
    buildLine b cs = (some taken.flatten, rest) := by
  obtain ⟨cl, hcl1, hcl2⟩ := hlast
  obtain ⟨a, t, rfl⟩ : ∃ a t, taken = a :: t := by
    rcases taken with _ | ⟨a, t⟩
    · exact absurd rfl hne
    · exact ⟨a, t, rfl⟩
  simp only [buildLine, hdrop, hwalk]
  rcases hrest with rfl | ⟨c, r, rfl, hcle⟩
  · simp only [hcl1, hcl2]
    rfl
  · simp only [if_neg (by omega : ¬ 80 < c.length), hcl1, hcl2]
    rfl

/-- Evaluating one `buildLine` iteration when the taken chunks end in the
separator space chunk, which the loop drops from the line. -/
theorem buildLine_eval_sp (b : Bool) (cs : List (List Char))
    (tk rest : List (List Char))
    (hdrop : dropLeadingWs b cs = cs)
    (hwalk : takeWhileFit cs 0 = (tk ++ [[' ']], rest))
    (hrest : ∃ c r, rest = c :: r ∧ c.length ≤ 80)
    (hne : tk ≠ []) :
    buildLine b cs = (some tk.flatten, rest) := by
  obtain ⟨c, r, rfl, hcle⟩ := hrest
  obtain ⟨a, t, rfl⟩ : ∃ a t, tk = a :: t := by
    rcases tk with _ | ⟨a, t⟩
    · exact absurd rfl hne
    · exact ⟨a, t, rfl⟩
  simp only [buildLine, hdrop, hwalk]
  simp only [if_neg (by omega : ¬ 80 < c.length)]
  rw [List.getLast?_concat, List.dropLast_concat]
  simp only [show isWsChunk [' '] = true from rfl]
  rfl

/-- The measure of a separator-led group list. -/
theorem glen_sepG_cons (g : List (List Char)) (gs : List (List (List Char))) :
    glen (sepG (g :: gs)) = 1 + glen g + glen (sepG gs) := by
  rw [show sepG (g :: gs) = [' '] :: (g ++ sepG gs) from rfl, glen_cons,
    glen_append, List.length_singleton]
  omega

/-- The chunk-fitting walk over a good stream: either everything fits, or
the walk stops at the separator before a group, or inside a group with a
(possibly empty) prefix of its chunks taken. -/
theorem sepWalk : ∀ (gs : List (List (List Char))) (h : List (List Char))
    (cur : Nat), (∀ g ∈ gs, goodGrp g) → cur + glen h ≤ 80 →
    (takeWhileFit (h ++ sepG gs) cur = (h ++ sepG gs, []) ∧
      cur + glen (h ++ sepG gs) ≤ 80) ∨
    (∃ gs₁ g gs₂, gs = gs₁ ++ g :: gs₂ ∧
      ((takeWhileFit (h ++ sepG gs) cur =
          (h ++ sepG gs₁, [' '] :: (g ++ sepG gs₂)) ∧
        cur + glen (h ++ sepG gs₁) = 80) ∨
       (∃ j, takeWhileFit (h ++ sepG gs) cur =
           (h ++ sepG gs₁ ++ [' '] :: g.take j, g.drop j ++ sepG gs₂) ∧
         g.drop j ≠ [] ∧
         cur + glen (h ++ sepG gs₁) + 1 + glen (g.take j) ≤ 80 ∧
         80 < cur + glen (h ++ sepG gs₁) + 1 + glen (g.take j) +
           ((g.drop j).headD []).length))) := by
  intro gs
  induction gs with
  | nil =>
    intro h cur _ hfit
    left
    have hg : cur + glen (h ++ sepG []) ≤ 80 := by
      rw [show sepG [] = ([] : List (List Char)) from rfl, List.append_nil]
      exact hfit
    exact ⟨takeWhileFit_all _ _ hg, hg⟩
  | cons g gs ih =>
    intro h cur hgood hfit
    have hgg := hgood g (by simp)
    have hsep : sepG (g :: gs) = [' '] :: (g ++ sepG gs) := rfl
    have hall := takeWhileFit_append_all h (sepG (g :: gs)) cur hfit
    have hglen0 : glen (h ++ sepG []) = glen h := by
      simp [sepG, glen_append, glen]
    by_cases hsp : cur + glen h + 1 ≤ 80
    · -- the separator is taken
      have hcomb : ∀ tk r,
          takeWhileFit (g ++ sepG gs) (cur + glen h + 1) = (tk, r) →
          takeWhileFit (h ++ sepG (g :: gs)) cur = (h ++ [' '] :: tk, r) := by
        intro tk r htkr
        rw [hall, hsep, takeWhileFit, if_pos (show cur + glen h +
          ([' '] : List Char).length ≤ 80 by simpa using hsp)]
        simp only [List.length_singleton]
        rw [htkr]
      by_cases hgfit : cur + glen h + 1 + glen g ≤ 80
      · -- the whole group fits; recurse on the remaining groups
        rcases ih g (cur + glen h + 1)
            (fun g' hg' => hgood g' (List.mem_cons_of_mem _ hg')) hgfit with
          ⟨heq, hle⟩ | ⟨gs₁, g', gs₂, rfl, hcase⟩
        · left
          refine ⟨hcomb _ _ heq, ?_⟩
          have h1 : glen (h ++ sepG (g :: gs)) =
              glen h + 1 + glen (g ++ sepG gs) := by
            rw [glen_append, glen_sepG_cons, glen_append]
            omega
          have h2 : glen (g ++ sepG gs) = glen (g ++ sepG gs) := rfl
          rw [glen_append] at hle
          rw [h1, glen_append]
          omega
        · right
          rcases hcase with ⟨heq, h80⟩ | ⟨j, heq, hdj, hjle, hjgt⟩
          · refine ⟨g :: gs₁, g', gs₂, rfl, Or.inl ⟨?_, ?_⟩⟩
            · exact hcomb _ _ heq
            · have h1 : glen (h ++ sepG (g :: gs₁)) =
                  glen h + 1 + glen (g ++ sepG gs₁) := by
                rw [glen_append, glen_sepG_cons, glen_append]
                omega
              rw [glen_append] at h80
              rw [h1, glen_append]
              omega
          · refine ⟨g :: gs₁, g', gs₂, rfl, Or.inr ⟨j, ?_, hdj, ?_, ?_⟩⟩
            · have := hcomb _ _ heq
              rw [this]
              simp [sepG, List.append_assoc]
            · have h1 : glen (h ++ sepG (g :: gs₁)) =
                  glen h + 1 + glen (g ++ sepG gs₁) := by
                rw [glen_append, glen_sepG_cons, glen_append]
                omega
              rw [glen_append] at hjle
              rw [h1, glen_append]
              omega
            · have h1 : glen (h ++ sepG (g :: gs₁)) =
                  glen h + 1 + glen (g ++ sepG gs₁) := by
                rw [glen_append, glen_sepG_cons, glen_append]
                omega
              rw [glen_append] at hjgt
              rw [h1, glen_append]
              omega
      · -- the group overflows: the walk stops inside it
        obtain ⟨j, hwj, hdj, hjle, hjgt⟩ :=
          inGroupWalk g (cur + glen h + 1) hsp (by omega)
        have hstop : takeWhileFit (g ++ sepG gs) (cur + glen h + 1) =
            (g.take j, g.drop j ++ sepG gs) := by
          have h2 : (takeWhileFit g (cur + glen h + 1)).2 ≠ [] := by
            rw [hwj]
            exact hdj
          have h3 := takeWhileFit_append_stop g (sepG gs) (cur + glen h + 1) h2
          rw [hwj] at h3
          exact h3
        right
        refine ⟨[], g, gs, rfl, Or.inr ⟨j, ?_, hdj, ?_, ?_⟩⟩
        · rw [hcomb _ _ hstop]
          simp [sepG, List.append_assoc]
        · rw [hglen0]
          omega
        · rw [hglen0]
          omega
    · -- the separator itself does not fit
      have hsep0 : takeWhileFit (sepG (g :: gs)) (cur + glen h) =
          ([], sepG (g :: gs)) := by
        rw [hsep, takeWhileFit, if_neg (show ¬ cur + glen h +
          ([' '] : List Char).length ≤ 80 by simpa using hsp)]
      right
      refine ⟨[], g, gs, rfl, Or.inl ⟨?_, ?_⟩⟩
      · rw [hall, hsep0]
        simp [sepG]
      · rw [hglen0]
        omega

/-- The break relation between consecutive wrapped lines: the first
line, a separating space and the first chunk of the next line's first
piece together overflow 80 columns. -/
def brkR (ps qs : List (List Char)) : Prop :=
  80 < (joinWith [' '] ps).length + 1 + wordEnd (qs.headD []) 1

/-- One iteration of the wrap loop on a good stream: it emits the
single-space join of the group flattens it consumed (the current group
first and whole), within 80 columns, and leaves either nothing or a
stream led by the remainder of a good group whose head chunk provably
overflowed the line. -/
theorem buildLine_step (h : List (List Char)) (gs : List (List (List Char)))
    (b : Bool) (hh : goodGrp h) (hgs : ∀ g ∈ gs, goodGrp g) :
    ∃ ps : List (List Char),
      ps.headD [] = h.flatten ∧ ps ≠ [] ∧
      (∀ w ∈ ps, w ≠ [] ∧ ∀ x ∈ w, isPyWs x = false) ∧
      (joinWith [' '] ps).length ≤ 80 ∧
      (buildLine b (h ++ sepG gs) = (some (joinWith [' '] ps), []) ∨
       ∃ sp : Bool, ∃ h' gs₂, goodGrp h' ∧ (∀ g ∈ gs₂, goodGrp g) ∧
         buildLine b (h ++ sepG gs) =
           (some (joinWith [' '] ps),
             if sp then [' '] :: (h' ++ sepG gs₂) else h' ++ sepG gs₂) ∧
         80 < (joinWith [' '] ps).length + 1 + (h'.headD []).length ∧
         chunkMsr (if sp then [' '] :: (h' ++ sepG gs₂) else h' ++ sepG gs₂) <
           chunkMsr (h ++ sepG gs)) := by
  obtain ⟨hne, hch, hlen, hinv⟩ := hh
  have hdrop : dropLeadingWs b (h ++ sepG gs) = h ++ sepG gs := by
    obtain ⟨c0, h1, rfl⟩ : ∃ c0 h1, h = c0 :: h1 := by
      rcases h with _ | ⟨c0, h1⟩
      · exact absurd rfl hne
      · exact ⟨c0, h1, rfl⟩
    have hc0 : isWsChunk c0 = false :=
      isWsChunk_false_of _ (hch c0 (by simp)).1 (hch c0 (by simp)).2
    show (if b && isWsChunk c0 then h1 ++ sepG gs
      else c0 :: (h1 ++ sepG gs)) = (c0 :: h1) ++ sepG gs
    rw [hc0]
    simp
  have hsne : h ++ sepG gs ≠ [] := by
    rcases h with _ | ⟨c0, h1⟩
    · exact absurd rfl hne
    · simp
  have hmsr1 : ∀ (t : List (List Char)), t ≠ [] → 1 ≤ chunkMsr t := by
    intro t ht
    rcases t with _ | ⟨c0, t⟩
    · exact absurd rfl ht
    · rw [chunkMsr_cons]
      omega
  have hpieces : ∀ (GS : List (List (List Char))),
      (∀ g' ∈ GS, g' ≠ [] ∧ ∀ c ∈ g', c ≠ [] ∧ ∀ x ∈ c, isPyWs x = false) →
      ∀ w ∈ h.flatten :: GS.map (fun g => g.flatten),
        w ≠ [] ∧ ∀ x ∈ w, isPyWs x = false := by
    intro GS hGS w hw'
    rcases List.mem_cons.mp hw' with rfl | hw'
    · refine ⟨flatten_ne_nil h hne (fun c hc => (hch c hc).1), ?_⟩
      intro x hx
      obtain ⟨c, hc, hxc⟩ := List.mem_flatten.mp hx
      exact (hch c hc).2 x hxc
    · obtain ⟨g', hg', rfl⟩ := List.mem_map.mp hw'
      obtain ⟨hg'ne, hg'ch⟩ := hGS g' hg'
      refine ⟨flatten_ne_nil g' hg'ne (fun c hc => (hg'ch c hc).1), ?_⟩
      intro x hx
      obtain ⟨c, hc, hxc⟩ := List.mem_flatten.mp hx
      exact (hg'ch c hc).2 x hxc
  rcases sepWalk gs h 0 hgs (by omega) with
    ⟨hw, hle⟩ | ⟨gs₁, g, gs₂, rfl, hcase⟩
  · -- everything fits: terminal line
    refine ⟨h.flatten :: gs.map (fun g => g.flatten), rfl, by simp,
      hpieces gs (fun g' hg' => ⟨(hgs g' hg').1, (hgs g' hg').2.1⟩), ?_,
      Or.inl ?_⟩
    · rw [joinWith_len_interG]
      omega
    · have hev := buildLine_eval b (h ++ sepG gs) (h ++ sepG gs) [] hdrop hw
        (Or.inl rfl) hsne
        (getLast_interG_nonws gs h hne hch
          (fun g' hg' => ⟨(hgs g' hg').1, (hgs g' hg').2.1⟩))
      rw [hev, flatten_h_sepG]
  · have hgs₁ : ∀ g' ∈ gs₁, goodGrp g' := fun g' hg' => hgs g' (by simp [hg'])
    have hg : goodGrp g := hgs g (by simp)
    have hgs₂ : ∀ g' ∈ gs₂, goodGrp g' := fun g' hg' => hgs g' (by simp [hg'])
    have hgs₁f : ∀ g' ∈ gs₁, g' ≠ [] ∧ ∀ c ∈ g', c ≠ [] ∧
        ∀ x ∈ c, isPyWs x = false :=
      fun g' hg' => ⟨(hgs₁ g' hg').1, (hgs₁ g' hg').2.1⟩
    obtain ⟨cg, g1, rfl⟩ : ∃ cg g1, g = cg :: g1 := by
      rcases g with _ | ⟨cg, g1⟩
      · exact absurd rfl hg.1
      · exact ⟨cg, g1, rfl⟩
    have hcg80 : cg.length ≤ 80 :=
      le_trans (chunk_le_glen cg _ (by simp)) hg.2.2.1
    rcases hcase with ⟨hw, h80⟩ | ⟨j, hw, hdj, hjle, hjgt⟩
    · -- stopped at the separator: the line is exactly 80 columns
      have hev := buildLine_eval b _ (h ++ sepG gs₁)
        ([' '] :: ((cg :: g1) ++ sepG gs₂)) hdrop hw
        (Or.inr ⟨[' '], _, rfl, by simp⟩)
        (by rcases h with _ | ⟨c0, h1⟩
            · exact absurd rfl hne
            · simp)
        (getLast_interG_nonws gs₁ h hne hch hgs₁f)
      have hlen80 : (joinWith [' ']
          (h.flatten :: gs₁.map (fun g => g.flatten))).length = 80 := by
        rw [joinWith_len_interG]
        omega
      refine ⟨h.flatten :: gs₁.map (fun g => g.flatten), rfl, by simp,
        hpieces gs₁ hgs₁f, by omega, Or.inr ⟨true, cg :: g1, gs₂, hg, hgs₂,
        ?_, by omega, ?_⟩⟩
      · rw [hev, flatten_h_sepG]
        rfl
      · have hpart := takeWhileFit_partition (h ++ sepG (gs₁ ++ (cg :: g1) :: gs₂)) 0
        rw [hw] at hpart
        have hpart2 : (h ++ sepG gs₁) ++ ([' '] :: ((cg :: g1) ++ sepG gs₂)) =
            h ++ sepG (gs₁ ++ (cg :: g1) :: gs₂) := hpart
        rw [← hpart2, chunkMsr_append]
        have := hmsr1 (h ++ sepG gs₁)
          (by rcases h with _ | ⟨c0, h1⟩
              · exact absurd rfl hne
              · simp)
        simp only [if_true]
        omega
    · -- stopped inside the group
      rcases Nat.eq_zero_or_pos j with rfl | hj
      · -- nothing of the group fits: the trailing space chunk is dropped
        simp only [List.take_zero, List.drop_zero] at hw hjle hjgt
        have hw' : takeWhileFit (h ++ sepG (gs₁ ++ (cg :: g1) :: gs₂)) 0 =
            ((h ++ sepG gs₁) ++ [[' ']], (cg :: g1) ++ sepG gs₂) := by
          rw [hw]
        have hev := buildLine_eval_sp b _ (h ++ sepG gs₁)
          ((cg :: g1) ++ sepG gs₂) hdrop hw'
          ⟨cg, g1 ++ sepG gs₂, rfl, hcg80⟩
          (by rcases h with _ | ⟨c0, h1⟩
              · exact absurd rfl hne
              · simp)
        have hglen : (joinWith [' ']
            (h.flatten :: gs₁.map (fun g => g.flatten))).length =
            glen (h ++ sepG gs₁) := joinWith_len_interG h gs₁
        have hgl0 : glen ([] : List (List Char)) = 0 := rfl
        refine ⟨h.flatten :: gs₁.map (fun g => g.flatten), rfl, by simp,
          hpieces gs₁ hgs₁f, by omega, Or.inr ⟨false, cg :: g1, gs₂, hg, hgs₂,
          ?_, ?_, ?_⟩⟩
        · rw [hev, flatten_h_sepG]
          rfl
        · simp only [List.headD_cons] at hjgt ⊢
          omega
        · have hpart := takeWhileFit_partition
            (h ++ sepG (gs₁ ++ (cg :: g1) :: gs₂)) 0
          rw [hw'] at hpart
          have hpart2 : ((h ++ sepG gs₁) ++ [[' ']]) ++
              ((cg :: g1) ++ sepG gs₂) =
              h ++ sepG (gs₁ ++ (cg :: g1) :: gs₂) := hpart
          rw [← hpart2, chunkMsr_append]
          have := hmsr1 ((h ++ sepG gs₁) ++ [[' ']]) (by simp)
          simp only [Bool.false_eq_true, if_false]
          omega
      · -- a non-empty prefix of the group is on the line
        have htne : (cg :: g1).take j ≠ [] := by
          rcases j with _ | j
          · omega
          · simp
        have hw' : takeWhileFit (h ++ sepG (gs₁ ++ (cg :: g1) :: gs₂)) 0 =
            (h ++ sepG (gs₁ ++ [(cg :: g1).take j]),
              (cg :: g1).drop j ++ sepG gs₂) := by
          rw [hw]
          simp [sepG_append, sepG, List.append_assoc]
        obtain ⟨cd, d1, hdeq⟩ : ∃ cd d1, (cg :: g1).drop j = cd :: d1 := by
          rcases hd : (cg :: g1).drop j with _ | ⟨cd, d1⟩
          · exact absurd hd hdj
          · exact ⟨cd, d1, rfl⟩
        have hcd80 : cd.length ≤ 80 := by
          have hmem : cd ∈ cg :: g1 := by
            have : cd ∈ (cg :: g1).drop j := by
              rw [hdeq]
              simp
            exact List.mem_of_mem_drop this
          exact le_trans (chunk_le_glen cd _ hmem) hg.2.2.1
        have htkf : ∀ g' ∈ gs₁ ++ [(cg :: g1).take j], g' ≠ [] ∧
            ∀ c ∈ g', c ≠ [] ∧ ∀ x ∈ c, isPyWs x = false := by
          intro g' hg'
          rcases List.mem_append.mp hg' with hg' | hg'
          · exact hgs₁f g' hg'
          · obtain rfl : g' = (cg :: g1).take j := by simpa using hg'
            refine ⟨htne, ?_⟩
            intro c hc
            exact hg.2.1 c (List.mem_of_mem_take hc)
        have hev := buildLine_eval b _ (h ++ sepG (gs₁ ++ [(cg :: g1).take j]))
          ((cg :: g1).drop j ++ sepG gs₂) hdrop hw'
          (Or.inr ⟨cd, d1 ++ sepG gs₂, by rw [hdeq]; rfl, hcd80⟩)
          (by rcases h with _ | ⟨c0, h1⟩
              · exact absurd rfl hne
              · simp)
          (getLast_interG_nonws (gs₁ ++ [(cg :: g1).take j]) h hne hch htkf)
        have hgl : glen (h ++ sepG (gs₁ ++ [(cg :: g1).take j])) =
            glen (h ++ sepG gs₁) + 1 + glen ((cg :: g1).take j) := by
          rw [glen_append, sepG_append, glen_append, glen_sepG_cons,
            show glen (sepG []) = 0 from rfl, glen_append]
          omega
        have hglen : (joinWith [' ']
            (h.flatten :: (gs₁ ++ [(cg :: g1).take j]).map
              (fun g => g.flatten))).length =
            glen (h ++ sepG (gs₁ ++ [(cg :: g1).take j])) :=
          joinWith_len_interG h (gs₁ ++ [(cg :: g1).take j])
        refine ⟨h.flatten :: (gs₁ ++ [(cg :: g1).take j]).map
            (fun g => g.flatten), rfl, by simp,
          hpieces _ htkf, by omega, Or.inr ⟨false, (cg :: g1).drop j, gs₂,
          goodGrp_drop _ j hg hdj, hgs₂, ?_, ?_, ?_⟩⟩
        · rw [hev, flatten_h_sepG]
          rfl
        · omega
        · have hpart := takeWhileFit_partition
            (h ++ sepG (gs₁ ++ (cg :: g1) :: gs₂)) 0
          rw [hw'] at hpart
          have hpart2 : (h ++ sepG (gs₁ ++ [(cg :: g1).take j])) ++
              ((cg :: g1).drop j ++ sepG gs₂) =
              h ++ sepG (gs₁ ++ (cg :: g1) :: gs₂) := hpart
          rw [← hpart2, chunkMsr_append]
          have := hmsr1 (h ++ sepG (gs₁ ++ [(cg :: g1).take j]))
            (by rcases h with _ | ⟨c0, h1⟩
                · exact absurd rfl hne
                · simp)
          simp only [Bool.false_eq_true, if_false]
          omega

/-- A leading separator chunk is swallowed by the leading-whitespace
drop of the next iteration; it produces no extra line. -/
theorem wrapGo_cons_sp (fuel : Nat) (c : List Char) (t : List (List Char))
    (hc : isWsChunk c = false) :
    wrapGo fuel ([' '] :: c :: t) true = wrapGo fuel (c :: t) true := by
  cases fuel with
  | zero => rfl
  | succ fuel =>
    have hd : dropLeadingWs true ([' '] :: c :: t) =
        dropLeadingWs true (c :: t) := by
      show c :: t = if true && isWsChunk c then t else c :: t
      rw [hc]
      simp
    have hb := buildLine_congr true true ([' '] :: c :: t) (c :: t) hd
    rw [wrapGo_succ_cons, wrapGo_succ_cons, hb]

/-- The wrap loop on a good stream: every emitted line is the
single-space join of non-empty whitespace-free pieces, fits in 80
columns, the first line's first piece is the current group's text, and
consecutive lines overflow across their break point (`brkR`). -/
theorem wrapMaster : ∀ (n : Nat) (h : List (List Char))
    (gs : List (List (List Char))) (fuel : Nat) (b : Bool),
    chunkMsr (h ++ sepG gs) ≤ n → chunkMsr (h ++ sepG gs) < fuel →
    goodGrp h → (∀ g ∈ gs, goodGrp g) →
    ∃ pss : List (List (List Char)),
      wrapGo fuel (h ++ sepG gs) b = pss.map (joinWith [' ']) ∧
      pss ≠ [] ∧
      (pss.headD []).headD [] = h.flatten ∧
      (∀ ps ∈ pss, ps ≠ [] ∧ ∀ w ∈ ps, w ≠ [] ∧ ∀ x ∈ w, isPyWs x = false) ∧
      (∀ ps ∈ pss, (joinWith [' '] ps).length ≤ 80) ∧
      List.Chain' brkR pss := by
  intro n
  induction n with
  | zero =>
    intro h gs fuel b hn _ hh _
    exfalso
    obtain ⟨c0, h1, rfl⟩ : ∃ c0 h1, h = c0 :: h1 := by
      rcases h with _ | ⟨c0, h1⟩
      · exact absurd rfl hh.1
      · exact ⟨c0, h1, rfl⟩
    rw [show (c0 :: h1) ++ sepG gs = c0 :: (h1 ++ sepG gs) from rfl,
      chunkMsr_cons] at hn
    omega
  | succ n ih =>
    intro h gs fuel b hn hfuel hh hgs
    obtain ⟨c0, h1, rfl⟩ : ∃ c0 h1, h = c0 :: h1 := by
      rcases h with _ | ⟨c0, h1⟩
      · exact absurd rfl hh.1
      · exact ⟨c0, h1, rfl⟩
    obtain ⟨fuel', rfl⟩ : ∃ f, fuel = f + 1 := by
      rcases fuel with _ | f
      · omega
      · exact ⟨f, rfl⟩
    obtain ⟨ps, hhead, hpne, hpgood, hple, hbuild⟩ :=
      buildLine_step (c0 :: h1) gs b hh hgs
    have hstep := wrapGo_succ_cons fuel' c0 (h1 ++ sepG gs) b
    have hstream : (c0 :: h1) ++ sepG gs = c0 :: (h1 ++ sepG gs) := rfl
    rcases hbuild with hterm | ⟨sp, h', gs₂, hh', hgs₂, heq, hstop, hdec⟩
    · -- the stream is exhausted after this line
      refine ⟨[ps], ?_, by simp, hhead, ?_, ?_, by simp⟩
      · rw [hstream] at hterm ⊢
        rw [hstep]
        simp only [hterm]
        rw [wrapGo_nil]
        rfl
      · intro q hq
        obtain rfl : q = ps := by simpa using hq
        exact ⟨hpne, hpgood⟩
      · intro q hq
        obtain rfl : q = ps := by simpa using hq
        exact hple
    · -- a line is emitted and the loop continues on the remainder
      obtain ⟨ch, ht', rfl⟩ : ∃ ch ht', h' = ch :: ht' := by
        rcases h' with _ | ⟨ch, ht'⟩
        · exact absurd rfl hh'.1
        · exact ⟨ch, ht', rfl⟩
      have hchws : isWsChunk ch = false :=
        isWsChunk_false_of _ (hh'.2.1 ch (by simp)).1 (hh'.2.1 ch (by simp)).2
      have hge : ((ch :: ht').headD []).length ≤
          wordEnd ((ch :: ht').flatten) 1 := by
        have hd0 := hh'.2.2.2 0 (glen (ch :: ht'))
          (by simp) (by simpa using chunk_le_glen ch _ (by simp))
        have htk : (((ch :: ht').drop 0).flatten).take (glen (ch :: ht')) =
            (ch :: ht').flatten := by
          rw [List.drop_zero, glen_eq_flatten, List.take_length]
        rw [List.drop_zero] at hd0 htk
        rw [htk] at hd0
        exact hd0
      have hrest : ∀ t : List (List Char),
          chunkMsr t < chunkMsr ((c0 :: h1) ++ sepG gs) →
          chunkMsr t ≤ n ∧ chunkMsr t < fuel' := by
        intro t ht
        omega
      cases sp with
      | false =>
        simp only [Bool.false_eq_true, if_false] at heq hdec
        obtain ⟨hle1, hle2⟩ := hrest _ hdec
        obtain ⟨pss', hmap', hne', hhead', hgood', hle', hchain'⟩ :=
          ih (ch :: ht') gs₂ fuel' true hle1 hle2 hh' hgs₂
        obtain ⟨q0, qs', rfl⟩ : ∃ q0 qs', pss' = q0 :: qs' := by
          rcases pss' with _ | ⟨q0, qs'⟩
          · exact absurd rfl hne'
          · exact ⟨q0, qs', rfl⟩
        refine ⟨ps :: q0 :: qs', ?_, by simp, hhead, ?_, ?_, ?_⟩
        · rw [hstream] at heq ⊢
          rw [hstep]
          simp only [heq]
          rw [hmap']
          rfl
        · intro q hq
          rcases List.mem_cons.mp hq with rfl | hq
          · exact ⟨hpne, hpgood⟩
          · exact hgood' q hq
        · intro q hq
          rcases List.mem_cons.mp hq with rfl | hq
          · exact hple
          · exact hle' q hq
        · refine List.chain'_cons'.mpr ⟨?_, hchain'⟩
          intro y hy
          obtain rfl : q0 = y := by simpa using hy
          have hq0 : q0.headD [] = (ch :: ht').flatten := hhead'
          show 80 < (joinWith [' '] ps).length + 1 + wordEnd (q0.headD []) 1
          rw [hq0]
          omega
      | true =>
        simp only [if_true] at heq hdec
        have hmle : chunkMsr ((ch :: ht') ++ sepG gs₂) <
            chunkMsr ((c0 :: h1) ++ sepG gs) := by
          rw [show ([' '] : List Char) :: ((ch :: ht') ++ sepG gs₂) =
            [[' ']] ++ ((ch :: ht') ++ sepG gs₂) from rfl,
            chunkMsr_append] at hdec
          omega
        obtain ⟨hle1, hle2⟩ := hrest _ hmle
        obtain ⟨pss', hmap', hne', hhead', hgood', hle', hchain'⟩ :=
          ih (ch :: ht') gs₂ fuel' true hle1 hle2 hh' hgs₂
        obtain ⟨q0, qs', rfl⟩ : ∃ q0 qs', pss' = q0 :: qs' := by
          rcases pss' with _ | ⟨q0, qs'⟩
          · exact absurd rfl hne'
          · exact ⟨q0, qs', rfl⟩
        refine ⟨ps :: q0 :: qs', ?_, by simp, hhead, ?_, ?_, ?_⟩
        · rw [hstream] at heq ⊢
          rw [hstep]
          simp only [heq]
          rw [show ([' '] : List Char) :: ((ch :: ht') ++ sepG gs₂) =
            [' '] :: (ch :: (ht' ++ sepG gs₂)) from rfl]
          rw [wrapGo_cons_sp fuel' ch (ht' ++ sepG gs₂) hchws]
          rw [show (ch : List Char) :: (ht' ++ sepG gs₂) =
            (ch :: ht') ++ sepG gs₂ from rfl, hmap']
          rfl
        · intro q hq
          rcases List.mem_cons.mp hq with rfl | hq
          · exact ⟨hpne, hpgood⟩
          · exact hgood' q hq
        · intro q hq
          rcases List.mem_cons.mp hq with rfl | hq
          · exact hple
          · exact hle' q hq
        · refine List.chain'_cons'.mpr ⟨?_, hchain'⟩
          intro y hy
          obtain rfl : q0 = y := by simpa using hy
          have hq0 : q0.headD [] = (ch :: ht').flatten := hhead'
          show 80 < (joinWith [' '] ps).length + 1 + wordEnd (q0.headD []) 1
          rw [hq0]
          omega

/-! ### Replaying the wrap on its own output -/

/-- Each piece of a single-space join is no longer than the join. -/
theorem piece_le_joinWith : ∀ (ps : List (List Char)) (w : List Char),
    w ∈ ps → w.length ≤ (joinWith [' '] ps).length := by
  intro ps
  induction ps with
  | nil =>
    intro w hw
    simp at hw
  | cons x t ih =>
    intro w hw
    cases t with
    | nil =>
      obtain rfl : w = x := by simpa using hw
      exact le_rfl
    | cons y t' =>
      rw [show joinWith [' '] (x :: y :: t') =
        x ++ [' '] ++ joinWith [' '] (y :: t') from rfl, List.length_append,
        List.length_append]
      rcases List.mem_cons.mp hw with rfl | hw
      · omega
      · have := ih w hw
        omega

/-- The first chunk of a whitespace-free word's tokenisation. -/
theorem splitChunks_headD (q : List Char) (hne : q ≠ [])
    (hws : ∀ c ∈ q, isPyWs c = false) :
    (splitChunks q).headD [] = q.take (wordEnd q 1) := by
  obtain ⟨c, ts, rfl⟩ : ∃ c ts, q = c :: ts := by
    rcases q with _ | ⟨c, ts⟩
    · exact absurd rfl hne
    · exact ⟨c, ts, rfl⟩
  rw [splitChunks, show (c :: ts).length = ts.length + 1 from rfl,
    splitChunksGo_succ, if_neg (by simp [hws c (List.mem_cons_self c ts)]),
    if_neg (by simp)]
  rfl

/-- Its length is the word-token length. -/
theorem splitChunks_headD_len (q : List Char) (hne : q ≠ [])
    (hws : ∀ c ∈ q, isPyWs c = false) :
    ((splitChunks q).headD []).length = wordEnd q 1 := by
  rw [splitChunks_headD q hne hws, List.length_take,
    Nat.min_eq_left (wordEnd_one_le q hne)]

/-- Re-flattening the chunk groups of good pieces restores the pieces. -/
theorem map_flatten_splitChunks : ∀ (l : List (List Char)),
    (∀ w ∈ l, w ≠ [] ∧ ∀ x ∈ w, isPyWs x = false) →
    (l.map splitChunks).map (fun g => g.flatten) = l := by
  intro l hl
  induction l with
  | nil => rfl
  | cons w t ih =>
    simp only [List.map_cons]
    rw [splitChunks_flatten w (hl w (by simp)).1 (hl w (by simp)).2,
      ih (fun w' hw' => hl w' (List.mem_cons_of_mem _ hw'))]

/-- The chunk stream of a line's pieces flattens to the line. -/
theorem flatten_interG_line (ps : List (List Char))
    (hgood : ∀ w ∈ ps, w ≠ [] ∧ ∀ x ∈ w, isPyWs x = false) :
    (interG (ps.map splitChunks)).flatten = joinWith [' '] ps := by
  rw [flatten_interG, map_flatten_splitChunks ps hgood]

/-- The stream measure of a line's chunk groups is the line's length. -/
theorem glen_line (ps : List (List Char))
    (hgood : ∀ w ∈ ps, w ≠ [] ∧ ∀ x ∈ w, isPyWs x = false) :
    glen (interG (ps.map splitChunks)) = (joinWith [' '] ps).length := by
  rw [glen_eq_flatten, flatten_interG_line ps hgood]

/-- On the stream of its own output's pieces, the wrap loop re-emits
exactly the same lines: each line fits, and at each original break point
the next line's first chunk still overflows. -/
theorem wrapReplay : ∀ (pss : List (List (List Char))) (fuel : Nat) (b : Bool),
    pss ≠ [] →
    (∀ ps ∈ pss, ps ≠ [] ∧ ∀ w ∈ ps, w ≠ [] ∧ ∀ x ∈ w, isPyWs x = false) →
    (∀ ps ∈ pss, (joinWith [' '] ps).length ≤ 80) →
    List.Chain' brkR pss →
    chunkMsr (interG ((pss.flatten).map splitChunks)) < fuel →
    wrapGo fuel (interG ((pss.flatten).map splitChunks)) b =
      pss.map (joinWith [' ']) := by
  intro pss
  induction pss with
  | nil =>
    intro fuel b hne _ _ _ _
    exact absurd rfl hne
  | cons ps pss' ih =>
    intro fuel b _ hgood hle hchain hfuel
    obtain ⟨hpsne, hpsgood⟩ := hgood ps (by simp)
    obtain ⟨w0, wt, rfl⟩ : ∃ w0 wt, ps = w0 :: wt := by
      rcases ps with _ | ⟨w0, wt⟩
      · exact absurd rfl hpsne
      · exact ⟨w0, wt, rfl⟩
    have hw0 := hpsgood w0 (by simp)
    have hps80 := hle (w0 :: wt) (by simp)
    have hstream : interG (((w0 :: wt) :: pss').flatten.map splitChunks) =
        interG ((w0 :: wt).map splitChunks) ++
          sepG (pss'.flatten.map splitChunks) := by
      rw [List.flatten_cons, List.map_append]
      exact interG_append _ _ (by simp)
    rw [hstream] at hfuel ⊢
    have hA : interG ((w0 :: wt).map splitChunks) =
        splitChunks w0 ++ sepG (wt.map splitChunks) := rfl
    have hAflat : (interG ((w0 :: wt).map splitChunks)).flatten =
        joinWith [' '] (w0 :: wt) := flatten_interG_line _ hpsgood
    have hAlen : glen (interG ((w0 :: wt).map splitChunks)) =
        (joinWith [' '] (w0 :: wt)).length := glen_line _ hpsgood
    have hchz : ∀ w ∈ w0 :: wt, ∀ c ∈ splitChunks w, c ≠ [] ∧
        ∀ x ∈ c, isPyWs x = false := by
      intro w hw c hc
      exact splitChunks_chunks w (hpsgood w hw).1 (hpsgood w hw).2 c hc
    have hgrpf : ∀ g' ∈ wt.map splitChunks, g' ≠ [] ∧ ∀ c ∈ g', c ≠ [] ∧
        ∀ x ∈ c, isPyWs x = false := by
      intro g' hg'
      obtain ⟨w, hw, rfl⟩ := List.mem_map.mp hg'
      exact ⟨splitChunks_ne_nil w (hpsgood w (List.mem_cons_of_mem _ hw)).1
          (hpsgood w (List.mem_cons_of_mem _ hw)).2,
        hchz w (List.mem_cons_of_mem _ hw)⟩
    obtain ⟨cz, zt, hz⟩ : ∃ cz zt, splitChunks w0 = cz :: zt := by
      rcases hs : splitChunks w0 with _ | ⟨cz, zt⟩
      · exact absurd hs (splitChunks_ne_nil w0 hw0.1 hw0.2)
      · exact ⟨cz, zt, rfl⟩
    have hcz : isWsChunk cz = false := by
      have := hchz w0 (by simp) cz (by rw [hz]; simp)
      exact isWsChunk_false_of cz this.1 this.2
    have hAz : interG ((w0 :: wt).map splitChunks) =
        cz :: (zt ++ sepG (wt.map splitChunks)) := by
      rw [hA, hz]
      rfl
    have hAne : interG ((w0 :: wt).map splitChunks) ≠ [] := by
      rw [hAz]
      simp
    have hlast : ∃ c, (interG ((w0 :: wt).map splitChunks)).getLast? = some c ∧
        isWsChunk c = false := by
      rw [hA]
      exact getLast_interG_nonws (wt.map splitChunks) (splitChunks w0)
        (splitChunks_ne_nil w0 hw0.1 hw0.2) (hchz w0 (by simp)) hgrpf
    have hdropA : ∀ (bb : Bool) (Y : List (List Char)),
        dropLeadingWs bb (interG ((w0 :: wt).map splitChunks) ++ Y) =
          interG ((w0 :: wt).map splitChunks) ++ Y := by
      intro bb Y
      rw [hA, hz]
      show (if bb && isWsChunk cz then
          (zt ++ sepG (wt.map splitChunks)) ++ Y
        else cz :: ((zt ++ sepG (wt.map splitChunks)) ++ Y)) =
        ((cz :: zt) ++ sepG (wt.map splitChunks)) ++ Y
      rw [hcz]
      simp
    have hall := takeWhileFit_append_all (interG ((w0 :: wt).map splitChunks))
      (sepG (pss'.flatten.map splitChunks)) 0
      (by rw [Nat.zero_add, hAlen]; exact hps80)
    simp only [Nat.zero_add] at hall
    obtain ⟨fuel', rfl⟩ : ∃ f, fuel = f + 1 := by
      rcases fuel with _ | f
      · omega
      · exact ⟨f, rfl⟩
    cases pss' with
    | nil =>
      have hBnil : ((([] : List (List (List Char))).flatten).map splitChunks) =
          ([] : List (List (List Char))) := rfl
      rw [hBnil] at hall hfuel ⊢
      rw [show sepG ([] : List (List (List Char))) = ([] : List (List Char))
        from rfl] at hall hfuel ⊢
      rw [List.append_nil] at hall hfuel ⊢
      have hwalk : takeWhileFit (interG ((w0 :: wt).map splitChunks)) 0 =
          (interG ((w0 :: wt).map splitChunks), []) := by
        rw [hall]
        simp [takeWhileFit]
      have hd := hdropA b []
      rw [List.append_nil] at hd
      have hev := buildLine_eval b _ _ [] hd hwalk (Or.inl rfl) hAne hlast
      rw [hAflat] at hev
      rw [hAz] at hev ⊢
      rw [wrapGo_succ_cons]
      simp only [hev]
      rw [wrapGo_nil]
      rfl
    | cons q t =>
      obtain ⟨hqne, hqgood⟩ := hgood q (by simp)
      obtain ⟨qw, qt, rfl⟩ : ∃ qw qt, q = qw :: qt := by
        rcases q with _ | ⟨qw, qt⟩
        · exact absurd rfl hqne
        · exact ⟨qw, qt, rfl⟩
      have hqw := hqgood qw (by simp)
      have hBcons : (((qw :: qt) :: t).flatten).map splitChunks =
          splitChunks qw :: ((qt ++ t.flatten).map splitChunks) := rfl
      have hbrk : brkR (w0 :: wt) (qw :: qt) := (List.chain'_cons.mp hchain).1
      obtain ⟨c0, g0t, hg0⟩ : ∃ c0 g0t, splitChunks qw = c0 :: g0t := by
        rcases hs : splitChunks qw with _ | ⟨c0, g0t⟩
        · exact absurd hs (splitChunks_ne_nil qw hqw.1 hqw.2)
        · exact ⟨c0, g0t, rfl⟩
      have hc0len : c0.length = wordEnd qw 1 := by
        have h1 := splitChunks_headD_len qw hqw.1 hqw.2
        rw [hg0] at h1
        simpa using h1
      have hc0big : 80 < (joinWith [' '] (w0 :: wt)).length + 1 + c0.length := by
        have hb2 : 80 < (joinWith [' '] (w0 :: wt)).length + 1 +
            wordEnd (((qw :: qt) : List (List Char)).headD []) 1 := hbrk
        simp only [List.headD_cons] at hb2
        omega
      have hc080 : c0.length ≤ 80 := by
        have hm : c0 ∈ splitChunks qw := by
          rw [hg0]
          simp
        have h1 := chunk_le_glen c0 _ hm
        rw [glen_eq_flatten, splitChunks_flatten qw hqw.1 hqw.2] at h1
        have h2 := piece_le_joinWith (qw :: qt) qw (by simp)
        have h3 := hle (qw :: qt) (by simp)
        omega
      have hc0ws : isWsChunk c0 = false := by
        have := splitChunks_chunks qw hqw.1 hqw.2 c0 (by rw [hg0]; simp)
        exact isWsChunk_false_of c0 this.1 this.2
      have hsepcons : sepG ((((qw :: qt) :: t).flatten).map splitChunks) =
          [' '] :: interG ((((qw :: qt) :: t).flatten).map splitChunks) := by
        rw [hBcons, sepG_cons, ← hBcons]
      have hIBz : interG ((((qw :: qt) :: t).flatten).map splitChunks) =
          c0 :: (g0t ++ sepG ((qt ++ t.flatten).map splitChunks)) := by
        rw [hBcons, show interG (splitChunks qw ::
          ((qt ++ t.flatten).map splitChunks)) =
          splitChunks qw ++ sepG ((qt ++ t.flatten).map splitChunks) from rfl,
          hg0]
        rfl
      have hSz : interG ((w0 :: wt).map splitChunks) ++
          sepG ((((qw :: qt) :: t).flatten).map splitChunks) =
          cz :: ((zt ++ sepG (wt.map splitChunks)) ++
            sepG ((((qw :: qt) :: t).flatten).map splitChunks)) := by
        rw [hAz]
        rfl
      have hmeasure : chunkMsr (interG ((((qw :: qt) :: t).flatten).map
          splitChunks)) < fuel' := by
        have hm1 := chunkMsr_append (interG ((w0 :: wt).map splitChunks))
          (sepG ((((qw :: qt) :: t).flatten).map splitChunks))
        have hm2 : chunkMsr (sepG ((((qw :: qt) :: t).flatten).map
            splitChunks)) = 2 + chunkMsr (interG ((((qw :: qt) :: t).flatten).map
            splitChunks)) := by
          rw [hsepcons, chunkMsr_cons, List.length_singleton]
        rw [hm1, hm2] at hfuel
        omega
      have hih := ih fuel' true (by simp)
        (fun p hp => hgood p (List.mem_cons_of_mem _ hp))
        (fun p hp => hle p (List.mem_cons_of_mem _ hp))
        (List.chain'_cons.mp hchain).2 hmeasure
      by_cases hsp : (joinWith [' '] (w0 :: wt)).length + 1 ≤ 80
      · -- the space fits, the next chunk does not: the space is taken and
        -- then dropped from the line
        have hsepw : takeWhileFit (sepG ((((qw :: qt) :: t).flatten).map
            splitChunks)) (glen (interG ((w0 :: wt).map splitChunks))) =
            ([[' ']], interG ((((qw :: qt) :: t).flatten).map splitChunks)) := by
          rw [hsepcons, takeWhileFit,
            if_pos (show glen (interG ((w0 :: wt).map splitChunks)) +
              ([' '] : List Char).length ≤ 80 by
                rw [List.length_singleton, hAlen]
                exact hsp)]
          simp only [List.length_singleton]
          rw [hIBz, takeWhileFit,
            if_neg (show ¬ glen (interG ((w0 :: wt).map splitChunks)) + 1 +
              c0.length ≤ 80 by
                rw [hAlen]
                omega)]
        have hwalk : takeWhileFit (interG ((w0 :: wt).map splitChunks) ++
            sepG ((((qw :: qt) :: t).flatten).map splitChunks)) 0 =
            (interG ((w0 :: wt).map splitChunks) ++ [[' ']],
              interG ((((qw :: qt) :: t).flatten).map splitChunks)) := by
          rw [hall, hsepw]
        have hev := buildLine_eval_sp b _ _ _ (hdropA b _) hwalk
          ⟨c0, g0t ++ sepG ((qt ++ t.flatten).map splitChunks), hIBz, hc080⟩
          hAne
        rw [hAflat] at hev
        rw [hSz] at hev ⊢
        rw [wrapGo_succ_cons]
        simp only [hev]
        rw [hih]
        rfl
      · -- the line is exactly 80 columns: even the space does not fit
        have hsepw : takeWhileFit (sepG ((((qw :: qt) :: t).flatten).map
            splitChunks)) (glen (interG ((w0 :: wt).map splitChunks))) =
            ([], sepG ((((qw :: qt) :: t).flatten).map splitChunks)) := by
          rw [hsepcons, takeWhileFit,
            if_neg (show ¬ glen (interG ((w0 :: wt).map splitChunks)) +
              ([' '] : List Char).length ≤ 80 by
                rw [List.length_singleton, hAlen]
                exact hsp)]
        have hwalk : takeWhileFit (interG ((w0 :: wt).map splitChunks) ++
            sepG ((((qw :: qt) :: t).flatten).map splitChunks)) 0 =
            (interG ((w0 :: wt).map splitChunks),
              sepG ((((qw :: qt) :: t).flatten).map splitChunks)) := by
          rw [hall, hsepw]
          simp
        have hev := buildLine_eval b _ _ _ (hdropA b _) hwalk
          (Or.inr ⟨[' '], interG ((((qw :: qt) :: t).flatten).map splitChunks),
            hsepcons, by simp⟩)
          hAne hlast
        rw [hAflat] at hev
        rw [hSz] at hev ⊢
        rw [wrapGo_succ_cons]
        simp only [hev]
        rw [hsepcons, hIBz, wrapGo_cons_sp fuel' c0 _ hc0ws, ← hIBz, hih]
        rfl

/-- An element reported by `getLast?` is in the list. -/
theorem getLast_opt_mem {α : Type} : ∀ (l : List α) (a : α),
    l.getLast? = some a → a ∈ l := by
  intro l
  induction l with
  | nil =>
    intro a h
    simp at h
  | cons x t ih =>
    intro a h
    cases t with
    | nil =>
      obtain rfl : x = a := by simpa using h
      simp
    | cons y t' =>
      rw [List.getLast?_cons_cons] at h
      exact List.mem_cons_of_mem _ (ih a h)

/-- `getLastD` picks the default or a member. -/
theorem getLastD_mem_cons' {α : Type} (l : List α) (a : α) :
    l.getLastD a ∈ a :: l := by
  cases l with
  | nil => simp
  | cons x t =>
    have h1 : (x :: t).getLast? = some ((x :: t).getLast (by simp)) :=
      List.getLast?_eq_getLast _ (by simp)
    have h2 : (x :: t).getLastD a = (x :: t).getLast (by simp) := by
      rw [List.getLastD_eq_getLast?, h1]
      rfl
    rw [h2]
    exact List.mem_cons_of_mem _ (List.getLast_mem _)

/-- The first wrap pass over a paragraph whose words (split on single
spaces) are good: the output lines are joins of good pieces within 80
columns, chained by overflowing break points. -/
theorem wrapText_master (p : List (List Char))
    (hgood : ∀ w ∈ splitOnSpace (joinWith [' '] p), goodWordB w = true) :
    ∃ pss : List (List (List Char)),
      justifyLines p = pss.map (joinWith [' ']) ∧ pss ≠ [] ∧
      (∀ ps ∈ pss, ps ≠ [] ∧ ∀ w ∈ ps, w ≠ [] ∧ ∀ x ∈ w, isPyWs x = false) ∧
      (∀ ps ∈ pss, (joinWith [' '] ps).length ≤ 80) ∧
      List.Chain' brkR pss := by
  have hjoin : joinWith [' '] (splitOnSpace (joinWith [' '] p)) =
      joinWith [' '] p := joinWith_splitOnSpace _
  have hwsf : ∀ w ∈ splitOnSpace (joinWith [' '] p), w ≠ [] ∧
      ∀ c ∈ w, isPyWs c = false := by
    intro w hw
    exact ⟨goodWord_ne_nil w (hgood w hw), goodWord_chars w (hgood w hw)⟩
  have hmunge : munge (joinWith [' '] p) = joinWith [' '] p := by
    apply munge_id
    intro c hc
    rw [← hjoin] at hc
    rcases mem_joinWith _ c hc with h | ⟨w, hw, hcw⟩
    · exact Or.inl h
    · exact Or.inr ((hwsf w hw).2 c hcw)
  have hchunks : splitChunks (joinWith [' '] p) =
      interG ((splitOnSpace (joinWith [' '] p)).map splitChunks) := by
    have h1 := splitChunks_joinWith (splitOnSpace (joinWith [' '] p))
      (splitOnSpace_ne_nil _) hwsf
    rw [hjoin] at h1
    exact h1
  obtain ⟨w0, wtl, hws⟩ : ∃ w0 wtl,
      splitOnSpace (joinWith [' '] p) = w0 :: wtl := by
    rcases hs : splitOnSpace (joinWith [' '] p) with _ | ⟨w0, wtl⟩
    · exact absurd hs (splitOnSpace_ne_nil _)
    · exact ⟨w0, wtl, rfl⟩
  rw [hws] at hchunks
  have hgood0 : goodGrp (splitChunks w0) :=
    goodGrp_of_word w0 (hgood w0 (by rw [hws]; simp))
  have hgoodr : ∀ g ∈ wtl.map splitChunks, goodGrp g := by
    intro g hg
    obtain ⟨w, hw, rfl⟩ := List.mem_map.mp hg
    exact goodGrp_of_word w (hgood w (by rw [hws]; simp [hw]))
  have hform : interG ((w0 :: wtl).map splitChunks) =
      splitChunks w0 ++ sepG (wtl.map splitChunks) := rfl
  obtain ⟨pss, hmap, hne, _, hpgood, hple, hchain⟩ :=
    wrapMaster (chunkMsr (splitChunks w0 ++ sepG (wtl.map splitChunks)))
      (splitChunks w0) (wtl.map splitChunks)
      (chunkMsr (splitChunks w0 ++ sepG (wtl.map splitChunks)) + 1) false
      le_rfl (by omega) hgood0 hgoodr
  refine ⟨pss, ?_, hne, hpgood, hple, hchain⟩
  show wrapText (joinWith [' '] p) = pss.map (joinWith [' '])
  rw [wrapText, hmunge, hchunks, hform]
  exact hmap

/-- The second wrap pass over the first pass's rendered lines restores
the lines. -/
theorem wrapText_replay (pss : List (List (List Char))) (hne : pss ≠ [])
    (hgood : ∀ ps ∈ pss, ps ≠ [] ∧ ∀ w ∈ ps, w ≠ [] ∧ ∀ x ∈ w,
      isPyWs x = false)
    (hle : ∀ ps ∈ pss, (joinWith [' '] ps).length ≤ 80)
    (hchain : List.Chain' brkR pss) :
    wrapText (joinWith [' '] (pss.map (joinWith [' ']))) =
      pss.map (joinWith [' ']) := by
  have hflat : joinWith [' '] (pss.map (joinWith [' '])) =
      joinWith [' '] pss.flatten :=
    joinWith_flatten [' '] pss (fun ps hps => (hgood ps hps).1)
  have hfgood : ∀ w ∈ pss.flatten, w ≠ [] ∧ ∀ x ∈ w, isPyWs x = false := by
    intro w hw
    obtain ⟨ps, hps, hwps⟩ := List.mem_flatten.mp hw
    exact (hgood ps hps).2 w hwps
  have hfne : pss.flatten ≠ [] := by
    obtain ⟨ps, pt, rfl⟩ : ∃ ps pt, pss = ps :: pt := by
      rcases pss with _ | ⟨ps, pt⟩
      · exact absurd rfl hne
      · exact ⟨ps, pt, rfl⟩
    obtain ⟨w, wt, rfl⟩ : ∃ w wt, ps = w :: wt := by
      rcases hp : ps with _ | ⟨w, wt⟩
      · exact absurd hp (hgood ps (by simp)).1
      · exact ⟨w, wt, rfl⟩
    simp
  have hmunge : munge (joinWith [' '] pss.flatten) =
      joinWith [' '] pss.flatten := by
    apply munge_id
    intro c hc
    rcases mem_joinWith _ c hc with h | ⟨w, hw, hcw⟩
    · exact Or.inl h
    · exact Or.inr ((hfgood w hw).2 c hcw)
  have hchunks : splitChunks (joinWith [' '] pss.flatten) =
      interG ((pss.flatten).map splitChunks) :=
    splitChunks_joinWith _ hfne hfgood
  rw [hflat, wrapText, hmunge, hchunks]
  exact wrapReplay pss _ false hne hgood hle hchain (by omega)

/-- The docstring justification of a paragraph whose words are good is
idempotent, and its lines are non-empty, strip to themselves, and hold
no newline. -/
theorem justifyLines_spec (p : List (List Char))
    (hgood : ∀ w ∈ splitOnSpace (joinWith [' '] p), goodWordB w = true) :
    justifyLines (justifyLines p) = justifyLines p ∧ justifyLines p ≠ [] ∧
    ∀ l ∈ justifyLines p, l ≠ [] ∧ strip l = l ∧ '\n' ∉ l := by
  obtain ⟨pss, hmap, hne, hpgood, hple, hchain⟩ := wrapText_master p hgood
  refine ⟨?_, ?_, ?_⟩
  · rw [hmap]
    show wrapText (joinWith [' '] (pss.map (joinWith [' ']))) = _
    exact wrapText_replay pss hne hpgood hple hchain
  · rw [hmap]
    simp [hne]
  · rw [hmap]
    intro l hl
    obtain ⟨ps, hps, rfl⟩ := List.mem_map.mp hl
    obtain ⟨hpsne, hpsw⟩ := hpgood ps hps
    obtain ⟨x0, xt, rfl⟩ : ∃ x0 xt, ps = x0 :: xt := by
      rcases ps with _ | ⟨x0, xt⟩
      · exact absurd rfl hpsne
      · exact ⟨x0, xt, rfl⟩
    have hx0 := hpsw x0 (by simp)
    refine ⟨?_, ?_, ?_⟩
    · intro hnil
      have hh := joinWith_head x0 xt hx0.1
      rw [hnil] at hh
      rcases x0 with _ | ⟨c, x0'⟩
      · exact absurd rfl hx0.1
      · simp at hh
    · apply strip_eq_self
      · intro c hc
        rw [joinWith_head x0 xt hx0.1] at hc
        rcases x0 with _ | ⟨y, x0'⟩
        · exact absurd rfl hx0.1
        · obtain rfl : y = c := by simpa using hc
          exact hx0.2 y (by simp)
      · intro c hc
        rw [joinWith_getLast xt x0 (fun w hw => (hpsw w hw).1)] at hc
        have hmem : xt.getLastD x0 ∈ x0 :: xt := getLastD_mem_cons' xt x0
        exact (hpsw _ hmem).2 c (getLast_opt_mem _ c hc)
    · intro hmem
      rcases mem_joinWith (x0 :: xt) '\n' hmem with h | ⟨w, hw, hcw⟩
      · exact absurd h (by decide)
      · have h1 := (hpsw w hw).2 '\n' hcw
        rw [show isPyWs '\n' = true from by decide] at h1
        simp at h1

/-! ### Re-scanning the rendered description -/

/-- A paragraph is "good" when every word of its single-space join is a
good word: non-empty, whitespace-free, at most 80 columns.  (Hyphenated
words are allowed; the wrapper may split them.) -/
def goodParaB (p : List (List Char)) : Bool :=
  (splitOnSpace (joinWith [' '] p)).all goodWordB

/-- Unfolding `goodParaB`. -/
theorem goodPara_words (p : List (List Char)) (h : goodParaB p = true) :
    ∀ w ∈ splitOnSpace (joinWith [' '] p), goodWordB w = true := by
  simp only [goodParaB, List.all_eq_true] at h
  exact h

/-- Mapping over a flatten is flattening the mapped groups. -/
theorem map_flatten' {α β : Type} (f : α → β) : ∀ (L : List (List α)),
    (L.flatten).map f = (L.map (List.map f)).flatten := by
  intro L
  induction L with
  | nil => rfl
  | cons g t ih =>
    rw [List.flatten_cons, List.map_append, ih, List.map_cons,
      List.flatten_cons]

/-- Mapping `strip` over stripped lines does nothing. -/
theorem map_strip_id : ∀ (L : List (List Char)), (∀ l ∈ L, strip l = l) →
    L.map strip = L := by
  intro L hL
  induction L with
  | nil => rfl
  | cons a t ih =>
    rw [List.map_cons, hL a (by simp),
      ih (fun x hx => hL x (List.mem_cons_of_mem _ hx))]

/-- Re-scanning the second pass's stripped lines reproduces the shaped
paragraph list, with each non-blank paragraph replaced by its justified
lines. -/
theorem paraScan_assembly : ∀ (pss : List (List (List Char))),
    ParaShape pss →
    (∀ p ∈ pss, p ≠ [] → justifyLines p ≠ [] ∧
      ∀ l ∈ justifyLines p, l ≠ []) →
    paraScan ((pss.map
        (fun p => if p = [] then [[]] else justifyLines p)).flatten)
        (none, 0) =
      pss.map (fun p => if p = [] then [] else justifyLines p) := by
  intro pss hsh
  induction hsh with
  | nil =>
    intro _
    rfl
  | single P hP =>
    intro hprops
    obtain ⟨hjne, hjl⟩ := hprops P (by simp) hP
    have hmap : (([P] : List (List (List Char))).map
        (fun p => if p = [] then [[]] else justifyLines p)) =
        [justifyLines P] := by
      simp [hP]
    rw [hmap]
    have hfl : ([justifyLines P] : List (List (List Char))).flatten =
        justifyLines P := by
      simp
    rw [hfl, paraScan_all_nonblank (justifyLines P) hjne hjl]
    simp [hP]
  | cons P k rest hP hk hshr hrne ih =>
    intro hprops
    obtain ⟨hjne, hjl⟩ := hprops P (by simp) hP
    obtain ⟨P', rt, hrest, hP'⟩ := ParaShape.head_ne_nil hshr hrne
    have hP'mem : P' ∈ P :: (List.replicate k [] ++ rest) := by
      rw [hrest]
      simp
    obtain ⟨hjne', hjl'⟩ := hprops P' hP'mem hP'
    have hlines : ((P :: (List.replicate k [] ++ rest)).map
        (fun p => if p = [] then [[]] else justifyLines p)).flatten =
        justifyLines P ++ (List.replicate k ([] : List Char) ++
          ((rest.map
            (fun p => if p = [] then [[]] else justifyLines p)).flatten)) := by
      rw [List.map_cons, List.flatten_cons, if_neg hP, List.map_append,
        List.flatten_append, List.map_replicate,
        show (if ([] : List (List Char)) = [] then [([] : List Char)]
          else justifyLines []) = [([] : List Char)] from rfl,
        flatten_replicate_blank]
    rw [hlines, paraScan_append]
    obtain ⟨ho, hs⟩ := scan_nonblank_none (justifyLines P) hjne hjl
    rw [ho, hs, List.nil_append, paraScan_append,
      scanOut_blanks_some k 0 (justifyLines P) hk,
      scanSt_blanks_some k 0 (justifyLines P) hk]
    obtain ⟨l0, ls0, hl0⟩ : ∃ l0 ls0, justifyLines P' = l0 :: ls0 := by
      rcases hj : justifyLines P' with _ | ⟨l0, ls0⟩
      · exact absurd hj hjne'
      · exact ⟨l0, ls0, rfl⟩
    have hl0ne : l0 ≠ [] := hjl' l0 (by rw [hl0]; simp)
    have hheadeq : ((rest.map
        (fun p => if p = [] then [[]] else justifyLines p)).flatten).head? =
        some l0 := by
      rw [hrest, List.map_cons, List.flatten_cons, if_neg hP', hl0]
      rfl
    rw [paraScan_pending _ l0 hheadeq hl0ne k]
    rw [ih (fun p hp hpne => hprops p
      (List.mem_cons_of_mem _ (List.mem_append_right _ hp)) hpne)]
    rw [List.map_cons, if_neg hP, List.map_append, List.map_replicate,
      show (if ([] : List (List Char)) = [] then ([] : List (List Char))
        else justifyLines []) = ([] : List (List Char)) from rfl]
    simp

/-- Mapping with pointwise-equal functions. -/
theorem map_congr_mem {α β : Type} (f g : α → β) : ∀ (l : List α),
    (∀ a ∈ l, f a = g a) → l.map f = l.map g := by
  intro l h
  induction l with
  | nil => rfl
  | cons a t ih =>
    rw [List.map_cons, List.map_cons, h a (by simp),
      ih (fun x hx => h x (List.mem_cons_of_mem _ hx))]

/-- Reflowing a rendered shaped description is the identity: the second
pass re-splits the same paragraphs and re-justifies each to the same
lines. -/
theorem reflow_fix (pss : List (List (List Char))) (hsh : ParaShape pss)
    (hne : pss ≠ [])
    (hgood : ∀ p ∈ pss, p ≠ [] →
      ∀ w ∈ splitOnSpace (joinWith [' '] p), goodWordB w = true) :
    reflowDescription (joinWith ['\n'] (pss.map renderPara)) =
      joinWith ['\n'] (pss.map renderPara) := by
  have hspec : ∀ p ∈ pss, p ≠ [] →
      justifyLines (justifyLines p) = justifyLines p ∧ justifyLines p ≠ [] ∧
      ∀ l ∈ justifyLines p, l ≠ [] ∧ strip l = l ∧ '\n' ∉ l :=
    fun p hp hpne => justifyLines_spec p (hgood p hp hpne)
  have hrp : ∀ p ∈ pss, renderPara p =
      joinWith ['\n'] (if p = [] then [[' ']] else justifyLines p) := by
    intro p hp
    by_cases hpe : p = []
    · subst hpe
      rfl
    · rw [if_neg hpe,
        show renderPara p = if p.isEmpty then [' ']
          else joinWith ['\n'] (justifyLines p) from rfl,
        if_neg (by simp [hpe])]
  have hrender : pss.map renderPara =
      (pss.map (fun p => if p = [] then [[' ']] else justifyLines p)).map
        (joinWith ['\n']) := by
    rw [List.map_map]
    exact map_congr_mem _ _ pss hrp
  have hjoinflat : joinWith ['\n'] (pss.map renderPara) =
      joinWith ['\n'] ((pss.map
        (fun p => if p = [] then [[' ']] else justifyLines p)).flatten) := by
    rw [hrender]
    apply joinWith_flatten
    intro g hg
    obtain ⟨p, hp, rfl⟩ := List.mem_map.mp hg
    by_cases hpe : p = []
    · rw [if_pos hpe]
      simp
    · rw [if_neg hpe]
      exact (hspec p hp hpe).2.1
  have hnl : ∀ l ∈ (pss.map
      (fun p => if p = [] then [[' ']] else justifyLines p)).flatten,
      '\n' ∉ l := by
    intro l hl
    obtain ⟨g, hg, hlg⟩ := List.mem_flatten.mp hl
    obtain ⟨p, hp, rfl⟩ := List.mem_map.mp hg
    by_cases hpe : p = []
    · rw [if_pos hpe] at hlg
      obtain rfl : l = [' '] := by simpa using hlg
      decide
    · rw [if_neg hpe] at hlg
      exact ((hspec p hp hpe).2.2 l hlg).2.2
  obtain ⟨P0, pt, hpss, hP0⟩ := ParaShape.head_ne_nil hsh hne
  have hP0mem : P0 ∈ pss := by
    rw [hpss]
    simp
  obtain ⟨l0, ls0, hl0⟩ : ∃ l0 ls0, justifyLines P0 = l0 :: ls0 := by
    rcases hj : justifyLines P0 with _ | ⟨l0, ls0⟩
    · exact absurd hj (hspec P0 hP0mem hP0).2.1
    · exact ⟨l0, ls0, rfl⟩
  have hl0p := (hspec P0 hP0mem hP0).2.2 l0 (by rw [hl0]; simp)
  have hlines_eq : (pss.map
      (fun p => if p = [] then [[' ']] else justifyLines p)).flatten =
      l0 :: (ls0 ++ ((pt.map
        (fun p => if p = [] then [[' ']] else justifyLines p)).flatten)) := by
    rw [hpss, List.map_cons, List.flatten_cons, if_neg hP0, hl0]
    rfl
  have hl2 : (pss.map
      (fun p => if p = [] then [[]] else justifyLines p)).flatten =
      l0 :: (ls0 ++ ((pt.map
        (fun p => if p = [] then [[]] else justifyLines p)).flatten)) := by
    rw [hpss, List.map_cons, List.flatten_cons, if_neg hP0, hl0]
    rfl
  have hsplit : splitOnNl (joinWith ['\n'] (pss.map renderPara)) =
      (pss.map (fun p => if p = [] then [[' ']] else justifyLines p)).flatten := by
    rw [hjoinflat]
    exact splitOnNl_joinWith _ (by rw [hlines_eq]; simp) hnl
  have hmap2 : ((pss.map
      (fun p => if p = [] then [[' ']] else justifyLines p)).map
        (List.map strip)) =
      pss.map (fun p => if p = [] then [[]] else justifyLines p) := by
    rw [List.map_map]
    apply map_congr_mem
    intro p hp
    simp only [Function.comp_apply]
    by_cases hpe : p = []
    · rw [if_pos hpe, if_pos hpe]
      rfl
    · rw [if_neg hpe, if_neg hpe]
      exact map_strip_id _ (fun l hl => ((hspec p hp hpe).2.2 l hl).2.1)
  have hstrip : strippedLines (joinWith ['\n'] (pss.map renderPara)) =
      (pss.map (fun p => if p = [] then [[]] else justifyLines p)).flatten := by
    show ((splitOnNl (joinWith ['\n'] (pss.map renderPara))).map
        strip).dropWhile (· = []) = _
    rw [hsplit, map_flatten', hmap2, hl2, List.dropWhile_cons,
      if_neg (by simp [hl0p.1])]
  have hinit : paraScan (strippedLines (joinWith ['\n']
      (pss.map renderPara))) (some [], 0) =
      paraScan ((pss.map
        (fun p => if p = [] then [[]] else justifyLines p)).flatten)
        (none, 0) := by
    rw [hstrip]
    apply paraScan_init_zero _ l0
    · rw [hl2]
      rfl
    · exact hl0p.1
  have hassembly := paraScan_assembly pss hsh
    (fun p hp hpne => ⟨(hspec p hp hpne).2.1,
      fun l hl => ((hspec p hp hpne).2.2 l hl).1⟩)
  have hdesc : descriptionParagraphsOf (joinWith ['\n']
      (pss.map renderPara)) = pss.map renderPara := by
    show (paraScan (strippedLines (joinWith ['\n'] (pss.map renderPara)))
      (some [], 0)).map renderPara = _
    rw [hinit, hassembly, List.map_map]
    apply map_congr_mem
    intro p hp
    simp only [Function.comp_apply]
    by_cases hpe : p = []
    · rw [if_pos hpe, hpe]
    · rw [if_neg hpe]
      have hjne := (hspec p hp hpe).2.1
      rw [show renderPara (justifyLines p) =
        if (justifyLines p).isEmpty then [' ']
        else joinWith ['\n'] (justifyLines (justifyLines p)) from rfl]
      rw [if_neg (by simp [hjne]), (hspec p hp hpe).1]
      rw [show renderPara p = if p.isEmpty then [' ']
        else joinWith ['\n'] (justifyLines p) from rfl,
        if_neg (by simp [hpe])]
  show joinWith ['\n'] (descriptionParagraphsOf (joinWith ['\n']
    (pss.map renderPara))) = joinWith ['\n'] (pss.map renderPara)
  rw [hdesc]

/-- **C5** (amended): the docstring reflow is idempotent on
documentation whose paragraphs are single-spaced sequences of good words
(non-empty, whitespace-free, at most 80 columns each; hyphenated words
included — the wrapper may break at their hyphenation points): reflowing
the rendered description reproduces it exactly.  The original claim, for
all already-wrapped 80-column text, is refuted by
`reflow_not_idempotent_counterexample` (a double-space separator breaks
idempotence). -/
theorem reflow_idempotent_on_single_spaced (doc : List Char)
    (hgood : ∀ p ∈ paraScan (strippedLines doc) (some [], 0), p ≠ [] →
      goodParaB p = true) :
    reflowDescription (reflowDescription doc) = reflowDescription doc := by
  rcases hsl : strippedLines doc with _ | ⟨l1, ls⟩
  · -- every line blank: the description renders as a single space, a
    -- fixed point of the reflow
    have h1 : reflowDescription doc = [' '] := by
      show joinWith ['\n'] ((paraScan (strippedLines doc) (some [], 0)).map
        renderPara) = [' ']
      rw [hsl, paraScan_nil_init]
      rfl
    rw [h1]
    rfl
  · have hhead : (strippedLines doc).head? = some l1 := by
      rw [hsl]
      rfl
    have hl1 : l1 ≠ [] := by
      have hdw := List.head?_dropWhile_not (fun x => decide (x = []))
        ((splitOnNl doc).map strip)
      have hhead2 : (((splitOnNl doc).map strip).dropWhile
          (fun x => decide (x = []))).head? = some l1 := hhead
      rw [hhead2] at hdw
      simpa using hdw
    have hbridge := paraScan_init_zero (strippedLines doc) l1 hhead hl1
    have hshape : ParaShape (paraScan (strippedLines doc) (none, 0)) := by
      apply paraScan_shape
      intro hb hhb
      rw [hsl] at hhb
      obtain rfl : l1 = hb := by simpa using hhb
      exact hl1
    have hne : paraScan (strippedLines doc) (none, 0) ≠ [] := by
      rw [hsl]
      obtain ⟨c, t, rfl⟩ : ∃ c t, l1 = c :: t := by
        rcases l1 with _ | ⟨c, t⟩
        · exact absurd rfl hl1
        · exact ⟨c, t, rfl⟩
      rw [paraScan_cons,
        show scanStep (none, 0) (c :: t) = ([], (some [c :: t], 0)) from rfl]
      have h := (paraScan_shape_main ls.length ls le_rfl).1 [c :: t] (by simp)
      simpa using h.2
    have hform : reflowDescription doc = joinWith ['\n']
        ((paraScan (strippedLines doc) (none, 0)).map renderPara) := by
      show joinWith ['\n'] ((paraScan (strippedLines doc) (some [], 0)).map
        renderPara) = _
      rw [hbridge]
    rw [hform]
    apply reflow_fix _ hshape hne
    intro p hp hpne
    refine goodPara_words p (hgood p ?_ hpne)
    rw [hbridge]
    exact hp

/-- Witness for the amended C5 at a hyphen-splitting input: a 75-column
word, a single space and `foo-bar` (83 columns in all).  The first pass
breaks the line at the hyphenation point, ending the first output line
with `foo-`, and the reflow is nevertheless idempotent. -/
theorem reflow_idempotent_on_single_spaced_witness :
    (∀ p ∈ paraScan (strippedLines (txt
        "aaaaaaaaaaaaaaaaaaaaaaaaaaaaaaaaaaaaaaaaaaaaaaaaaaaaaaaaaaaaaaaaaaaaaaaaaaa foo-bar"))
      (some [], 0), p ≠ [] → goodParaB p = true) ∧
    reflowDescription (reflowDescription (txt
        "aaaaaaaaaaaaaaaaaaaaaaaaaaaaaaaaaaaaaaaaaaaaaaaaaaaaaaaaaaaaaaaaaaaaaaaaaaa foo-bar")) =
      reflowDescription (txt
        "aaaaaaaaaaaaaaaaaaaaaaaaaaaaaaaaaaaaaaaaaaaaaaaaaaaaaaaaaaaaaaaaaaaaaaaaaaa foo-bar") :=
  ⟨by decide, reflow_idempotent_on_single_spaced _ (by decide)⟩

/-- Documentation text whose lines all fit in 80 columns ("already
word-wrapped to 80 columns"). -/
def alreadyWrapped80 (d : List Char) : Bool :=
  (splitOnNl d).all (fun l => l.length ≤ 80)

/-- Counterexample to claim C5 as stated: this documentation text is
already wrapped to 80 columns (a 70-column line followed by a 10-column
line), yet running the reflow on its rendered output changes the lines.
The first pass keeps the lines apart because the two-space separator
inside the second line makes the joined paragraph overflow 80 columns;
rendering drops that separator at the line break, and the second pass
re-joins everything with single spaces, which now fits on one line. -/
theorem reflow_not_idempotent_counterexample :
    alreadyWrapped80
        (txt "xxxxxxxxxxxxxxxxxxxxxxxxxxxxxxxxxxxxxxxxxxxxxxxxxxxxxxxxxxxxxxxxxxxxxx\nyyy  zzzzz") = true ∧
      reflowDescription
          (reflowDescription
            (txt "xxxxxxxxxxxxxxxxxxxxxxxxxxxxxxxxxxxxxxxxxxxxxxxxxxxxxxxxxxxxxxxxxxxxxx\nyyy  zzzzz")) ≠
        reflowDescription
          (txt "xxxxxxxxxxxxxxxxxxxxxxxxxxxxxxxxxxxxxxxxxxxxxxxxxxxxxxxxxxxxxxxxxxxxxx\nyyy  zzzzz") := by
  constructor
  · decide
  · decide

/-- Claim C6: a run of `n` blank lines strictly between two non-blank
paragraphs is rendered as exactly `n` single-space paragraphs in that
position of the long description. -/
theorem blank_run_renders_as_space_paragraphs (doc : List Char)
    (A B : List (List Char)) (n : Nat) (la hb : List Char) (hn : 1 ≤ n)
    (hsplit : strippedLines doc = A ++ List.replicate n [] ++ B)
    (hA : A.getLast? = some la) (hla : la ≠ [])
    (hB : B.head? = some hb) (hhb : hb ≠ []) :
    descriptionParagraphsOf doc =
      (paraScan A (none, 0)).map renderPara ++ List.replicate n [' '] ++
        (paraScan B (none, 0)).map renderPara := by
  have hAne : A ≠ [] := by
    intro h
    rw [h] at hA
    simp at hA
  obtain ⟨a, A', rfl⟩ : ∃ a A', A = a :: A' := by
    rcases A with _ | ⟨a, A'⟩
    · exact absurd rfl hAne
    · exact ⟨a, A', rfl⟩
  have hhead : (strippedLines doc).head? = some a := by
    rw [hsplit]
    rfl
  have ha : a ≠ [] := by
    have hdw := List.head?_dropWhile_not (fun x => decide (x = []))
      ((splitOnNl doc).map strip)
    have hhead2 : (((splitOnNl doc).map strip).dropWhile
        (fun x => decide (x = []))).head? = some a := hhead
    rw [hhead2] at hdw
    simpa using hdw
  have hbr : paraScan (strippedLines doc) (some [], 0) =
      paraScan (strippedLines doc) (none, 0) :=
    paraScan_init_zero _ a hhead ha
  obtain ⟨p, k, hst⟩ := scanSt_last_nonblank (a :: A') la hA hla (none, 0)
  have hps : paraScan (strippedLines doc) (none, 0) =
      paraScan (a :: A') (none, 0) ++ List.replicate n [] ++
        paraScan B (none, 0) := by
    rw [hsplit, List.append_assoc, paraScan_append, hst,
      paraScan_append, scanOut_blanks_some _ _ _ hn, scanSt_blanks_some _ _ _ hn,
      paraScan_pending B hb hB hhb n]
    rw [show paraScan (a :: A') (none, 0) = scanOut (a :: A') (none, 0) ++ [p] by
      rw [paraScan, hst]
      rfl]
    simp [List.append_assoc]
  rw [descriptionParagraphsOf, hbr, hps, List.map_append, List.map_append,
    List.map_replicate]
  rfl

/-- Witness for C6: two blank lines between two one-line paragraphs. -/
theorem blank_run_renders_as_space_paragraphs_witness :
    descriptionParagraphsOf (txt "p\n\n\nq") =
      (paraScan [['p']] (none, 0)).map renderPara ++ List.replicate 2 [' '] ++
        (paraScan [['q']] (none, 0)).map renderPara :=
  blank_run_renders_as_space_paragraphs (txt "p\n\n\nq") [['p']] [['q']] 2
    ['p'] ['q'] (by decide) (by decide) (by decide) (by decide) (by decide)
    (by decide)

/-- Witness for C9: verbosity 5 pushes an untouched namespace to debug;
verbosity 0 sets the selected logger to critical. -/
theorem verbosity_level_configuration_witness :
    effectiveLevel
        (runModel (Cmd.mk "root" (fun _ => .ok (some 0)) CmdList.nil)
          (fun _ => none) 5 [] ["libs"] ⟨fun _ => 0, fun _ => []⟩).2.1
        "sqlalchemy.engine" = DEBUG ∧
      ((runModel (Cmd.mk "root" (fun _ => .ok (some 0)) CmdList.nil)
          (fun _ => none) 0 ["app"] [] ⟨fun _ => 0, fun _ => []⟩).2.1).level
        (some "app") = CRITICAL :=
  ⟨(verbosity_level_configuration _ _ 5 [] ["libs"] _).1 (by norm_num)
      "sqlalchemy.engine" (fun s _ => rfl),
    (verbosity_level_configuration _ _ 0 ["app"] [] _).2 rfl "app"
      (by decide)⟩

end PyerLibs
